import Mathlib

/-!
Turing machine simulator (tm.c): a shallow embedding and its properties.

The definitions below are translated from `Src/tm.c`, `Src/tm.h`, `Src/fifo.c` and
`Src/fifo.h`.

Modelling conventions.

* The C integer types `int` and `int32_t` are modelled by `Int`.  Signed
  overflow is undefined in C, so the model describes the program wherever its
  arithmetic stays inside the machine range.  The conversions the program
  relies on that are not undefined, the increment of a `signed char` field and the
  assignments of an `int32_t` to a `signed char` in `tmTableRead`, are modelled with
  an explicit wrap (`wrapChar`).
* The `int64_t` accumulators `ti` and `p21` of `tmTableIndex`, which leave the machine
  range on tables of 15 cells, are modelled with an explicit wrap of every product and
  sum (`wrapInt64`), the value a two's complement machine computes.
* `Entry **table` and `Char *tape` are modelled as total functions from indices to
  values.  A read outside the allocated storage is undefined in C; statements that
  depend on allocation carry the corresponding range hypotheses.
* The array of a queue is a function of the slot index together with the size of its
  block, `length + 2` slots (`fifoSlots`).  A store of `fifoAdd` outside the block has
  the result `none`.
* A C function that mutates `*this` and returns a value becomes a function that
  returns the new machine together with the value.
* `realloc` failing (the process exits) is not modelled: memory is unbounded.
* A call of `abort()` is modelled by the result `none`.  The static queue of `tmTableBFS`
  is passed to the function and returned by it.
* `tmBusyBeaverSearch` is modelled for `debug = 0`.  The files it writes are collected
  in a list, output to the terminal is not modelled, and its loops carry a bound on
  the number of calls of `tmTableNext`.
* A table file is a list of lines, each line given by the branch of `tmTableRead` that
  it takes and the values converted on it; the text layer of the C library is not
  modelled.  The content of memory that was allocated and never written is a
  parameter (`fresh`) of `tmTableRead`.
-/

namespace TuringMachine

/-! ## Data model (tm.h) -/

/-- The enum `Move` of tm.h: `typedef enum {MOVE_LEFT, MOVE_RIGHT, STOP} Move;`. -/
inductive Move where
  | MOVE_LEFT
  | MOVE_RIGHT
  | STOP
deriving DecidableEq, Repr

/-- Numeric value of a `Move` enumerator (`MOVE_LEFT = 0`, `MOVE_RIGHT = 1`, `STOP = 2`). -/
def Move.toInt : Move → Int
  | Move.MOVE_LEFT => 0
  | Move.MOVE_RIGHT => 1
  | Move.STOP => 2

/-- The struct `Entry` of tm.h. -/
structure Entry where
  write : Int
  move : Move
  next : Int
deriving DecidableEq, Repr

/-- The struct `TuringMachineT` of tm.h. -/
structure TuringMachineT where
  charset_max : Int
  state : Int
  table : Int → Int → Entry
  num_states : Int
  here : Int
  tape_len : Int
  tape : Int → Int

/-- Conversion of an `int` value to `signed char` (the type `Char`): wrap into `[-128, 127]`. -/
def wrapChar (x : Int) : Int :=
  (x + 128) % 256 - 128

/-- The largest value of an `int64_t`, `2^63 - 1`. -/
def INT64_MAX : Int := 9223372036854775807

/-- Conversion of an integer value to `int64_t`: wrap into `[-2^63, 2^63 - 1]`. -/
def wrapInt64 (x : Int) : Int :=
  (x + 9223372036854775808) % 18446744073709551616 - 9223372036854775808

/-! ## Tape (tm.c) -/

/-- The function `tmTapeFree`: release the tape, `tape_len = 0`, `here = 0`. -/
def tmTapeFree (this : TuringMachineT) : TuringMachineT :=
  { this with tape_len := 0, here := 0 }

/-- The macro/function `tmTapeIndex`: index into `tape[]` of the head position `here`. -/
def tmTapeIndex (this : TuringMachineT) : Int :=
  if this.here ≥ 0 then this.here * 2 else -(this.here * 2 + 1)

/-- The macro `tmTapeFrame` used as an rvalue: the tape cell under the head. -/
def tmTapeFrame (this : TuringMachineT) : Int :=
  this.tape (tmTapeIndex this)

/-- The macro `tmTapeFrame` used as an lvalue: store `c` in the tape cell under the head. -/
def tmTapeFrameSet (this : TuringMachineT) (c : Int) : TuringMachineT :=
  { this with tape := fun i => if i = tmTapeIndex this then c else this.tape i }

/-- The function `tmTapeHead`: head position of a tape index.  C division and remainder
truncate toward zero, and `- (index+1) / 2` parses as `(-(index+1)) / 2`. -/
def tmTapeHead (_this : TuringMachineT) (index : Int) : Int :=
  if Int.tmod index 2 = 0 then Int.tdiv index 2 else Int.tdiv (-(index + 1)) 2

/-- The function `tmTapeAlloc`: when the tape does not cover the head index `ti`, it is
reallocated to `ti + 1` cells, the cells `tape_len .. ti` are set to 0 and `tape_len`
becomes `ti + 1`. -/
def tmTapeAlloc (this : TuringMachineT) : TuringMachineT :=
  let ti := tmTapeIndex this
  if this.tape_len ≤ ti then
    { this with
      tape := fun ni => if this.tape_len ≤ ni ∧ ni ≤ ti then 0 else this.tape ni
      tape_len := ti + 1 }
  else this

/-- The function `tmTapeMove`: move the head one frame and allocate; returns -1 on `STOP`. -/
def tmTapeMove (this : TuringMachineT) (move : Move) : TuringMachineT × Int :=
  if move = Move.MOVE_LEFT then
    (tmTapeAlloc { this with here := this.here - 1 }, 0)
  else if move = Move.MOVE_RIGHT then
    (tmTapeAlloc { this with here := this.here + 1 }, 0)
  else
    (this, -1)

/-- The function `tmTapeBlank`: free the tape, put the head at 0 and allocate its cell. -/
def tmTapeBlank (this : TuringMachineT) : TuringMachineT :=
  tmTapeAlloc { tmTapeFree this with here := 0 }

/-- Loop of `tmTapeOneCount`: number of cells equal to 1 among `tape[0 .. n-1]`. -/
def tmTapeOneCountLoop (tape : Int → Int) : Nat → Int
  | 0 => 0
  | n + 1 => tmTapeOneCountLoop tape n + (if tape (n : Int) = 1 then 1 else 0)

/-- The function `tmTapeOneCount`: number of cells equal to 1 among `tape[0 .. tape_len-1]`. -/
def tmTapeOneCount (this : TuringMachineT) : Int :=
  tmTapeOneCountLoop this.tape this.tape_len.toNat

/-! ## One step and the simulation loop (tm.c) -/

/-- The function `tmUpdate`: one transition.  Returns 1 when the entry read is a `STOP`. -/
def tmUpdate (this : TuringMachineT) : TuringMachineT × Int :=
  let input := tmTapeFrame this
  let move := (this.table this.state input).move
  let this1 := tmTapeFrameSet this (this.table this.state input).write
  let this2 := (tmTapeMove this1 (this1.table this1.state input).move).1
  let this3 := { this2 with state := (this2.table this2.state input).next }
  (this3, if Move.STOP = move then 1 else 0)

/-- The `for` loop of `tmSimulate` (built without `BUSY_BEAVER_SEARCH`), as a function of
the loop variables `stop` and `iters`.  The first argument bounds the number of
iterations; `tmSimulate` passes `max_iters`, which the loop condition never exceeds. -/
def tmSimulateLoop (max_iters tape_len_max : Int) :
    Nat → TuringMachineT → Int → Int → TuringMachineT × Int × Int
  | 0, this, stop, iters => (this, stop, iters)
  | fuel + 1, this, stop, iters =>
    if stop = 0 ∧ iters < max_iters ∧ this.tape_len < tape_len_max then
      tmSimulateLoop max_iters tape_len_max fuel (tmUpdate this).1 (tmUpdate this).2 (iters + 1)
    else
      (this, stop, iters)

/-- The function `tmSimulate` (built without `BUSY_BEAVER_SEARCH`). -/
def tmSimulate (this : TuringMachineT) (max_iters tape_len_max : Int) : TuringMachineT × Int :=
  let r := tmSimulateLoop max_iters tape_len_max max_iters.toNat this 0 0
  if r.2.1 ≠ 0 then (r.1, r.2.2)
  else if r.1.tape_len ≥ tape_len_max then (r.1, -2)
  else (r.1, -1)

/-- The machine after `n` calls of `tmUpdate`. -/
def tmUpdateIter : Nat → TuringMachineT → TuringMachineT
  | 0, this => this
  | n + 1, this => (tmUpdate (tmUpdateIter n this)).1

/-- The value of the loop variable `stop` of `tmSimulate` after `j` steps, `stop` being its
value before the first of them: the return value of the last `tmUpdate` call. -/
def stopFlag (this : TuringMachineT) (stop : Int) : Nat → Int
  | 0 => stop
  | j + 1 => (tmUpdate (tmUpdateIter j this)).2

/-- The entry `table[state][input]` that the next `tmUpdate` reads, `input` being the
tape cell under the head. -/
def currentEntry (this : TuringMachineT) : Entry :=
  this.table this.state (tmTapeFrame this)

/-- Preconditions of one step: the state indexes a table row, the cell under the head
indexes a table column, and the head lies inside the allocated tape. -/
def StepReady (this : TuringMachineT) : Prop :=
  (0 ≤ this.state ∧ this.state < this.num_states) ∧
  (0 ≤ tmTapeFrame this ∧ tmTapeFrame this ≤ this.charset_max) ∧
  tmTapeIndex this < this.tape_len

/-- A well-formed machine: every table cell of the shape writes a symbol of the alphabet
and names an existing state, the current state exists, every allocated tape cell holds a
symbol of the alphabet, and the head lies inside the allocated tape. -/
def WellFormed (this : TuringMachineT) : Prop :=
  (∀ s i : Int, 0 ≤ s → s < this.num_states → 0 ≤ i → i ≤ this.charset_max →
    (0 ≤ (this.table s i).write ∧ (this.table s i).write ≤ this.charset_max) ∧
    (0 ≤ (this.table s i).next ∧ (this.table s i).next < this.num_states)) ∧
  (0 ≤ this.state ∧ this.state < this.num_states) ∧
  (∀ i : Int, 0 ≤ i → i < this.tape_len → 0 ≤ this.tape i ∧ this.tape i ≤ this.charset_max) ∧
  tmTapeIndex this < this.tape_len

/-- Number of steps a call of `tmSimulate` executes: the value of its loop variable
`iters` when the loop exits. -/
def tmSimulateIters (this : TuringMachineT) (max_iters tape_len_max : Int) : Nat :=
  (tmSimulateLoop max_iters tape_len_max max_iters.toNat this 0 0).2.2.toNat

/-- The `k`-th step of the run that starts at `this` executed a `STOP` entry. -/
def StoppedAt (this : TuringMachineT) (k : Nat) : Prop :=
  1 ≤ k ∧ (currentEntry (tmUpdateIter (k - 1) this)).move = Move.STOP

/-! ## Transition table: successor and index (tm.c) -/

/-- The assignment `this->table[si][ii] = e`. -/
def setEntry (this : TuringMachineT) (si ii : Int) (e : Entry) : TuringMachineT :=
  { this with table := fun s i => if s = si ∧ i = ii then e else this.table s i }

/-- Body of the inner loop of `tmTableNext` on one cell: the new cell, and whether
`return 0` was executed (`false` means the cell wrapped and the scan goes on).
`move ++` takes `MOVE_LEFT` to `MOVE_RIGHT` and `MOVE_RIGHT` to `STOP`; `write ++`
is an increment of a `signed char`. -/
def tmTableNextEntry (charset_max num_states : Int) (e : Entry) : Entry × Bool :=
  if e.write = charset_max then
    if e.next = num_states - 1 then
      match e.move with
      | Move.STOP => ({ write := 0, move := Move.MOVE_LEFT, next := 0 }, false)
      | Move.MOVE_LEFT => ({ write := 0, move := Move.MOVE_RIGHT, next := 0 }, true)
      | Move.MOVE_RIGHT => ({ write := 1, move := Move.STOP, next := num_states - 1 }, true)
    else
      ({ write := 0, move := e.move, next := e.next + 1 }, true)
  else
    ({ write := wrapChar (e.write + 1), move := e.move, next := e.next }, true)

/-- Inner loop of `tmTableNext` over `ii`, with `n` iterations left; the flag tells
whether `return 0` was executed. -/
def tmTableNextRow (si : Int) : Nat → Int → TuringMachineT → TuringMachineT × Bool
  | 0, _, this => (this, false)
  | n + 1, ii, this =>
    let r := tmTableNextEntry this.charset_max this.num_states (this.table si ii)
    if r.2 then (setEntry this si ii r.1, true)
    else tmTableNextRow si n (ii + 1) (setEntry this si ii r.1)

/-- Outer loop of `tmTableNext` over `si`, with `n` iterations left. -/
def tmTableNextLoop : Nat → Int → TuringMachineT → TuringMachineT × Bool
  | 0, _, this => (this, false)
  | n + 1, si, this =>
    let r := tmTableNextRow si (this.charset_max + 1).toNat 0 this
    if r.2 then r else tmTableNextLoop n (si + 1) r.1

/-- The function `tmTableNext`: returns 0 when a cell was advanced, 1 when the scan ran
past the last cell. -/
def tmTableNext (this : TuringMachineT) : TuringMachineT × Int :=
  let r := tmTableNextLoop this.num_states.toNat 0 this
  (r.1, if r.2 then 0 else 1)

/-- The "digit value" `dv` that `tmTableIndex` computes for one cell. -/
def tmTableIndexDigit (charset_max num_states : Int) (e : Entry) : Int :=
  if e.move ≠ Move.STOP then
    e.write + e.next * (charset_max + 1) + e.move.toInt * (charset_max + 1) * num_states
  else 20

/-- Inner loop of `tmTableIndex` over `ii`, on the pair `(ti, p21)`: `ti += p21 * dv;
p21 *= 21`.  Both variables are `int64_t`; each product and sum is reduced to that type
(`wrapInt64`). -/
def tmTableIndexRow (this : TuringMachineT) (si : Int) : Nat → Int → Int × Int → Int × Int
  | 0, _, acc => acc
  | n + 1, ii, acc =>
    tmTableIndexRow this si n (ii + 1)
      (wrapInt64 (acc.1 + wrapInt64
          (acc.2 * tmTableIndexDigit this.charset_max this.num_states (this.table si ii))),
        wrapInt64 (acc.2 * 21))

/-- Outer loop of `tmTableIndex` over `si`. -/
def tmTableIndexLoop (this : TuringMachineT) : Nat → Int → Int × Int → Int × Int
  | 0, _, acc => acc
  | n + 1, si, acc =>
    tmTableIndexLoop this n (si + 1) (tmTableIndexRow this si (this.charset_max + 1).toNat 0 acc)

/-- The function `tmTableIndex`. -/
def tmTableIndex (this : TuringMachineT) : Int :=
  (tmTableIndexLoop this this.num_states.toNat 0 (0, 1)).1

/-! ## Cells in scan order -/

/-- The cells `table[si][ii], ..., table[si][ii+n-1]`, in the order the inner loops of
`tmTableNext` and `tmTableIndex` visit them. -/
def rowCells (t : Int → Int → Entry) (si : Int) : Nat → Int → List Entry
  | 0, _ => []
  | n + 1, ii => t si ii :: rowCells t si n (ii + 1)

/-- The cells of the rows `si, ..., si+n-1`, each row with the columns `0 .. w-1`, in the
order the nested loops visit them (state-major, symbol-minor). -/
def tableCells (t : Int → Int → Entry) (w : Nat) : Nat → Int → List Entry
  | 0, _ => []
  | n + 1, si => rowCells t si w 0 ++ tableCells t w n (si + 1)

/-- All cells of the table of a machine, in scan order. -/
def scanCells (this : TuringMachineT) : List Entry :=
  tableCells this.table (this.charset_max + 1).toNat this.num_states.toNat 0

/-- The scan of `tmTableNext` on a list of cells: cells are replaced from the front until
one of them executes `return 0`; the flag tells whether that happened. -/
def nextCells (charset_max num_states : Int) : List Entry → List Entry × Bool
  | [] => ([], false)
  | e :: es =>
    if (tmTableNextEntry charset_max num_states e).2 then
      ((tmTableNextEntry charset_max num_states e).1 :: es, true)
    else
      ((tmTableNextEntry charset_max num_states e).1 :: (nextCells charset_max num_states es).1,
        (nextCells charset_max num_states es).2)

/-- The mixed-radix value of a list of cells: the sum of `digit(cell_i) * 21^i`. -/
def indexCells (charset_max num_states : Int) : List Entry → Int
  | [] => 0
  | e :: es => tmTableIndexDigit charset_max num_states e + 21 * indexCells charset_max num_states es

/-- The accumulation of `tmTableIndex` on a list of cells, from the pair `(ti, p21)`:
for each cell `ti += p21 * dv; p21 *= 21` in `int64_t`. -/
def indexCellsAcc (charset_max num_states : Int) : List Entry → Int × Int → Int × Int
  | [], acc => acc
  | e :: es, acc =>
    indexCellsAcc charset_max num_states es
      (wrapInt64 (acc.1 + wrapInt64 (acc.2 * tmTableIndexDigit charset_max num_states e)),
        wrapInt64 (acc.2 * 21))

/-- The accumulation of `tmTableIndex` stays inside `int64_t`: the digits of the cells of
the table lie in `[0, B]`, and with `n` the number of cells `21 ^ n ≤ INT64_MAX` and
`B * 21 ^ n ≤ 20 * INT64_MAX`, which bound `p21` (at most `21 ^ n`) and `ti` (at most
`B * (21 ^ n - 1) / 20`) throughout.  For `B = 20` this admits the tables of at most 14
cells. -/
def IndexFits (this : TuringMachineT) : Prop :=
  ∃ B : Int, 0 ≤ B ∧
    (∀ e ∈ scanCells this, 0 ≤ tmTableIndexDigit this.charset_max this.num_states e ∧
      tmTableIndexDigit this.charset_max this.num_states e ≤ B) ∧
    (21 : Int) ^ (scanCells this).length ≤ INT64_MAX ∧
    B * 21 ^ (scanCells this).length ≤ 20 * INT64_MAX

/-- The cell `(write = charset_max, next = num_states - 1, move = STOP)`. -/
def maxEntry (charset_max num_states : Int) : Entry :=
  { write := charset_max, move := Move.STOP, next := num_states - 1 }

/-- The cell `(write = 0, next = 0, move = MOVE_LEFT)`. -/
def zeroEntry : Entry :=
  { write := 0, move := Move.MOVE_LEFT, next := 0 }

/-- One advance of a cell, in the words of the specification: `write + 1` if
`write < charset_max`; else `write = 0` and `next + 1` if `next < num_states - 1`; else
`write = 0`, `next = 0` and the move advanced from Left to Right or from Right to Stop, a
cell that becomes Stop getting `write = 1` and `next = num_states - 1`. -/
def advanceEntry (charset_max num_states : Int) (e : Entry) : Entry :=
  if e.write < charset_max then { e with write := e.write + 1 }
  else if e.next < num_states - 1 then { e with write := 0, next := e.next + 1 }
  else
    match e.move with
    | Move.MOVE_LEFT => { write := 0, move := Move.MOVE_RIGHT, next := 0 }
    | Move.MOVE_RIGHT => { write := 1, move := Move.STOP, next := num_states - 1 }
    | Move.STOP => e

/-- Two machines agree on every field other than the table. -/
def SameShape (a b : TuringMachineT) : Prop :=
  a.charset_max = b.charset_max ∧ a.num_states = b.num_states ∧ a.state = b.state ∧
  a.here = b.here ∧ a.tape_len = b.tape_len ∧ a.tape = b.tape

/-- The machine after `n` calls of `tmTableNext`. -/
def tmTableNextIter : Nat → TuringMachineT → TuringMachineT
  | 0, this => this
  | n + 1, this => (tmTableNext (tmTableNextIter n this)).1

/-! ## Queue (fifo.h, fifo.c) -/

/-- The struct `FifoT` of fifo.h.  The items (`void *`) are modelled as integers, the
array `queue` as a function of the slot index.  The struct holds no field for the size of
the block that `queue` points to; that size is `fifoSlots`. -/
structure FifoT where
  queue : Int → Int
  length : Int
  first : Int
  count : Int

/-- The number of slots of the block that `queue` points to.  `fifoNew` is the only
function that allocates the block, with `calloc(length+2, sizeof(void *))`, and no function
of fifo.c assigns `length` afterwards, so the block has `length + 2` slots, numbered
`0 .. length + 1`. -/
def fifoSlots (this : FifoT) : Int :=
  this.length + 2

/-- The function `fifoNew`: `NULL` (here `none`) when `length < 1`, else an empty queue
whose slots `calloc` has zeroed. -/
def fifoNew (length : Int) : Option FifoT :=
  if length < 1 then none
  else some { queue := fun _ => 0, length := length, first := 0, count := 0 }

/-- The function `fifoReset`. -/
def fifoReset (this : FifoT) : FifoT :=
  { this with first := 0, count := 0 }

/-- The function `fifoAdd`: returns 1 when the queue is full, else stores the item at the
slot `first + count` and returns 0.  The index of the store is not reduced modulo
`length`.  The call of `abort()` is modelled by `none`, and so is a store outside the
block of `fifoSlots` slots, for which C defines no result. -/
def fifoAdd (this : FifoT) (item : Int) : Option (FifoT × Int) :=
  if this.count = this.length then some (this, 1)
  else if this.count < 0 ∨ this.count > this.length then none
  else if this.first + this.count < 0 ∨ fifoSlots this ≤ this.first + this.count then none
  else
    some ({ this with
      queue := fun j => if j = this.first + this.count then item else this.queue j
      count := this.count + 1 }, 0)

/-- The function `fifoPop`: returns `NULL` (here 0) when the queue is empty, else the item
at the slot `first`, after `first ++; first %= length; count --`.  The call of `abort()`
is modelled by `none`. -/
def fifoPop (this : FifoT) : Option (FifoT × Int) :=
  let item := this.queue this.first
  if 0 = this.count then some (this, 0)
  else if this.count < 0 ∨ this.count > this.length then none
  else
    some ({ this with
      first := Int.tmod (this.first + 1) this.length
      count := this.count - 1 }, item)

/-! ## Weeding: reachability in the table (tm.c) -/

/-- The function `foundStop`. -/
def foundStop (this : Entry) : Int :=
  if this.move = Move.STOP then 1 else 0

/-- The function `foundOne`. -/
def foundOne (this : Entry) : Int :=
  if this.write = 1 then 1 else 0

/-- The function `foundLeft`. -/
def foundLeft (this : Entry) : Int :=
  if this.move = Move.MOVE_LEFT then 1 else 0

/-- The function `foundRight`. -/
def foundRight (this : Entry) : Int :=
  if this.move = Move.MOVE_RIGHT then 1 else 0

/-- Inner loop of `tmTableContainsStop` over `ii`: whether `return 1` was executed. -/
def tmTableContainsStopRow (this : TuringMachineT) (si : Int) : Nat → Int → Bool
  | 0, _ => false
  | n + 1, ii =>
    if Move.STOP = (this.table si ii).move then true
    else tmTableContainsStopRow this si n (ii + 1)

/-- Outer loop of `tmTableContainsStop` over `si`. -/
def tmTableContainsStopLoop (this : TuringMachineT) : Nat → Int → Bool
  | 0, _ => false
  | n + 1, si =>
    if tmTableContainsStopRow this si (this.charset_max + 1).toNat 0 then true
    else tmTableContainsStopLoop this n (si + 1)

/-- The function `tmTableContainsStop`. -/
def tmTableContainsStop (this : TuringMachineT) : Int :=
  if tmTableContainsStopLoop this this.num_states.toNat 0 then 1 else 0

/-- The value `test(&entry)` in `tmTableBFS`, with 0 standing for "no test"
(`test == NULL`). -/
def testValue (test : Option (Entry → Int)) (e : Entry) : Int :=
  match test with
  | none => 0
  | some t => t e

/-- Where the loops of `tmTableBFS` stand: the process aborted; the function returned
`value` from inside the loops, leaving the static queue `fifo`; the loops go on with the
queue, the array `state_pushed` and the counter `count`; or the iteration bound of the
model was exhausted. -/
inductive BfsStep where
  | aborted
  | returned (fifo : FifoT) (value : Int)
  | running (fifo : FifoT) (state_pushed : Int → Int) (count : Int)
  | exhausted

/-- The `for` loop of `tmTableBFS` over the entries `ii` of the popped `state`, with `n`
iterations left. -/
def tmTableBFSRow (this : TuringMachineT) (test : Option (Entry → Int)) (state : Int) :
    Nat → Int → FifoT → (Int → Int) → Int → BfsStep
  | 0, _, fifo, state_pushed, count => BfsStep.running fifo state_pushed count
  | n + 1, ii, fifo, state_pushed, count =>
    if testValue test (this.table state ii) ≠ 0 then
      BfsStep.returned (fifoReset fifo) (testValue test (this.table state ii))
    else if state_pushed (this.table state ii).next = 0 then
      match fifoAdd fifo ((this.table state ii).next + 1) with
      | none => BfsStep.aborted
      | some r =>
        tmTableBFSRow this test state n (ii + 1) r.1
          (fun s => if s = (this.table state ii).next then 1 else state_pushed s) (count + 1)
    else
      tmTableBFSRow this test state n (ii + 1) fifo state_pushed count

/-- The `while` loop of `tmTableBFS`; the first argument bounds the number of evaluations
of the loop condition. -/
def tmTableBFSLoop (this : TuringMachineT) (test : Option (Entry → Int)) :
    Nat → FifoT → (Int → Int) → Int → BfsStep
  | 0, _, _, _ => BfsStep.exhausted
  | fuel + 1, fifo, state_pushed, count =>
    if count ≤ this.num_states then
      match fifoPop fifo with
      | none => BfsStep.aborted
      | some r =>
        if r.2 ≠ 0 then
          match tmTableBFSRow this test (r.2 - 1) (this.charset_max + 1).toNat 0 r.1
              state_pushed count with
          | BfsStep.running fifo1 state_pushed1 count1 =>
            tmTableBFSLoop this test fuel fifo1 state_pushed1 count1
          | other => other
        else BfsStep.running r.1 state_pushed count
    else BfsStep.running fifo state_pushed count

/-- The body of `tmTableBFS` after the static queue `fifo` has been created: the state 0
is pushed, the `while` loop runs (at most `num_states + 1` evaluations of its condition),
the queue is reset.  `none` stands for a run that does not return: `abort()` or the
exhausted iteration bound of the model. -/
def tmTableBFSBody (fifo : FifoT) (this : TuringMachineT) (test : Option (Entry → Int)) :
    Option (FifoT × Int) :=
  match fifoAdd fifo 1 with
  | none => none
  | some r =>
    match tmTableBFSLoop this test (this.num_states.toNat + 1) r.1
        (fun s => if s = 0 then 1 else 0) 1 with
    | BfsStep.aborted => none
    | BfsStep.exhausted => none
    | BfsStep.returned f2 v => some (f2, v)
    | BfsStep.running f2 _ c => some (fifoReset f2, if test.isSome then 0 else c)

/-- The function `tmTableBFS`.  The first argument is the value of the static variable
`fifo` at the call (`none` for `NULL`); the result holds its value after the call and the
return value.  `none` stands for a run that does not return (see `tmTableBFSBody`, and the
use of a `NULL` queue when `fifoNew` fails). -/
def tmTableBFS (fifo : Option FifoT) (this : TuringMachineT) (test : Option (Entry → Int)) :
    Option (FifoT × Int) :=
  match fifo with
  | none =>
    match fifoNew (this.num_states * (this.charset_max + 1)) with
    | none => none
    | some f => tmTableBFSBody f this test
  | some f => tmTableBFSBody f this test

/-- The function `tmTableWeed`, with the static queue of `tmTableBFS` passed along: the
result holds the value of that static variable after the call and the return value. -/
def tmTableWeed (fifo : Option FifoT) (this : TuringMachineT) : Option (Option FifoT × Int) :=
  if 0 = (this.table 0 0).next then some (fifo, 1)
  else if Move.STOP = (this.table 0 0).move then some (fifo, 2)
  else if tmTableContainsStop this = 0 then some (fifo, 3)
  else
    match tmTableBFS fifo this (some foundStop) with
    | none => none
    | some r1 =>
      if r1.2 = 0 then some (some r1.1, 4)
      else
        match tmTableBFS (some r1.1) this none with
        | none => none
        | some r2 =>
          if r2.2 < this.num_states then some (some r2.1, 5)
          else
            match tmTableBFS (some r2.1) this (some foundOne) with
            | none => none
            | some r3 =>
              if r3.2 = 0 then some (some r3.1, 6)
              else
                match tmTableBFS (some r3.1) this (some foundLeft) with
                | none => none
                | some r4 =>
                  match (if r4.2 ≠ 0 then tmTableBFS (some r4.1) this (some foundRight)
                      else some (r4.1, 1)) with
                  | none => none
                  | some r5 =>
                    if r4.2 ≠ 0 ∧ r5.2 = 0 then some (some r5.1, 7)
                    else
                      match tmTableBFS (some r5.1) this (some foundRight) with
                      | none => none
                      | some r6 =>
                        match (if r6.2 ≠ 0 then tmTableBFS (some r6.1) this (some foundLeft)
                            else some (r6.1, 1)) with
                        | none => none
                        | some r7 =>
                          if r6.2 ≠ 0 ∧ r7.2 = 0 then some (some r7.1, 8)
                          else some (some r7.1, 0)

/-! ## Concrete machines -/

/-- A machine as `tmNew` leaves it, given a table of the stated shape. -/
def machineOf (num_states charset_max : Int) (table : Int → Int → Entry) : TuringMachineT :=
  { charset_max := charset_max, state := 0, table := table, num_states := num_states,
    here := 0, tape_len := 0, tape := fun _ => 0 }

/-- The classical 2-state, 2-symbol busy beaver table.  The halting entry (state 1 on
symbol 1) has move `STOP`; its `next` field is the parameter `n`. -/
def busyBeaver2Table (n : Int) : Int → Int → Entry := fun s i =>
  if s = 0 then
    if i = 0 then { write := 1, move := Move.MOVE_RIGHT, next := 1 }
    else { write := 1, move := Move.MOVE_LEFT, next := 1 }
  else
    if i = 0 then { write := 1, move := Move.MOVE_LEFT, next := 0 }
    else { write := 1, move := Move.STOP, next := n }

/-- The busy beaver machine on a blank tape, in state 0. -/
def busyBeaver2 (n : Int) : TuringMachineT :=
  tmTapeBlank (machineOf 2 1 (busyBeaver2Table n))

/-- A one-state machine that always moves right, on a blank tape. -/
def rightRunner : TuringMachineT :=
  tmTapeBlank (machineOf 1 0 (fun _ _ => { write := 0, move := Move.MOVE_RIGHT, next := 0 }))

/-- A machine whose head is at position `h` (all other fields as after `tmNew`). -/
def headAt (h : Int) : TuringMachineT :=
  { machineOf 0 0 (fun _ _ => { write := 0, move := Move.MOVE_LEFT, next := 0 }) with here := h }

/-- The table in which every cell is `(write 0, MOVE_LEFT, next 0)`. -/
def zeroTable : Int → Int → Entry :=
  fun _ _ => zeroEntry

/-- The all-zero table of the classical shape: 5 states, symbols 0 and 1. -/
def classicZero : TuringMachineT :=
  machineOf 5 1 zeroTable

/-- The number of tables of the classical shape that the enumeration visits: `21 ^ 10`. -/
def classicCount : Nat := 16679880978201

/-- A cell that the enumeration of the classical shape produces: a non-Stop cell with
`write` in `{0, 1}` and `next` in `[0, 4]`, or the Stop cell `(1, STOP, 4)`. -/
def ClassicCell (e : Entry) : Prop :=
  (e.write = 0 ∨ e.write = 1) ∧ (0 ≤ e.next ∧ e.next ≤ 4) ∧
  (e.move = Move.STOP → e.write = 1 ∧ e.next = 4)

/-- Invariant of the enumeration of the classical shape from the all-zero table: the
machine differs from `classicZero` in its table only, the cells outside the 5 x 2 shape
are zero, and the cells of the shape are classical. -/
def ClassicInv (this : TuringMachineT) : Prop :=
  SameShape this classicZero ∧
  (∀ s i : Int, ¬ ((0 ≤ s ∧ s < 5) ∧ (0 ≤ i ∧ i ≤ 1)) → this.table s i = zeroEntry) ∧
  ∀ e ∈ scanCells this, ClassicCell e

/-- Every cell of the table shape whose move is `STOP` holds the placeholder values
`write = 1` and `next = num_states - 1`. -/
def StopCellsCanonical (this : TuringMachineT) : Prop :=
  ∀ s i : Int, 0 ≤ s → s < this.num_states → 0 ≤ i → i ≤ this.charset_max →
    (this.table s i).move = Move.STOP →
      (this.table s i).write = 1 ∧ (this.table s i).next = this.num_states - 1

/-- A one-state machine over the symbols 0, 1, 2 whose cell for symbol 0 is the Stop cell
with the placeholder values; the other cells are zero.  It is the seventh table of the
enumeration of that shape. -/
def stopThree : TuringMachineT :=
  machineOf 1 2 (fun s i =>
    if s = 0 ∧ i = 0 then { write := 1, move := Move.STOP, next := 0 } else zeroEntry)

/-- The table of 5 states over the symbols 0, 1, 2 in which every cell is the Stop cell
with the placeholder values `write = 1`, `next = 4`: a table of 15 cells. -/
def stopFifteen : TuringMachineT :=
  machineOf 5 2 (fun _ _ => { write := 1, move := Move.STOP, next := 4 })

/-- The table of 7 states over the symbols 0, 1 in which every cell is the Stop cell with
the placeholder values `write = 1`, `next = 6`: a table of 14 cells. -/
def stopFourteen : TuringMachineT :=
  machineOf 7 1 (fun _ _ => { write := 1, move := Move.STOP, next := 6 })

/-- A cell of the data model for the shape: `write` in `[0, charset_max]` and `next` in
`[0, num_states)`. -/
def WellFormedCell (charset_max num_states : Int) (e : Entry) : Prop :=
  (0 ≤ e.write ∧ e.write ≤ charset_max) ∧ (0 ≤ e.next ∧ e.next < num_states)

/-- The digit of a cell, in the words of the specification:
`write + next * (charset_max + 1) + move * (charset_max + 1) * num_states` for a cell whose
move is not Stop, with Left = 0 and Right = 1, and 20 for a cell whose move is Stop. -/
def digitSpec (charset_max num_states : Int) (e : Entry) : Int :=
  match e.move with
  | Move.MOVE_LEFT => e.write + e.next * (charset_max + 1) + 0 * (charset_max + 1) * num_states
  | Move.MOVE_RIGHT => e.write + e.next * (charset_max + 1) + 1 * (charset_max + 1) * num_states
  | Move.STOP => 20

/-- The mixed-radix sum of the specification: the sum over the cells `table[si][ii]` of
the shape of `digit * 21 ^ i`, where `i = si * (charset_max + 1) + ii` is the number of
cells that the state-major, symbol-minor scan visits before the cell. -/
def mixedRadixSum (this : TuringMachineT) : Int :=
  ∑ si in Finset.range this.num_states.toNat,
    ∑ ii in Finset.range (this.charset_max + 1).toNat,
      digitSpec this.charset_max this.num_states (this.table (si : Int) (ii : Int)) *
        21 ^ (si * (this.charset_max + 1).toNat + ii)

/-- A well-formed table of the classical shape (5 states, symbols 0 and 1) whose Stop
cells hold the placeholder values `write = 1`, `next = 4`. -/
def ClassicTable (this : TuringMachineT) : Prop :=
  this.num_states = 5 ∧ this.charset_max = 1 ∧
  ∀ s i : Int, 0 ≤ s → s < 5 → 0 ≤ i → i ≤ 1 →
    WellFormedCell 1 5 (this.table s i) ∧
    ((this.table s i).move = Move.STOP →
      (this.table s i).write = 1 ∧ (this.table s i).next = 4)

/-- A cell that the enumeration of a shape with the symbols 0 and 1 and `num_states`
states produces: `write` in `{0, 1}`, `next` in `[0, num_states - 1]`, and a Stop cell
holds the placeholder values. -/
def ShapeCell (num_states : Int) (e : Entry) : Prop :=
  (e.write = 0 ∨ e.write = 1) ∧ (0 ≤ e.next ∧ e.next ≤ num_states - 1) ∧
  (e.move = Move.STOP → e.write = 1 ∧ e.next = num_states - 1)

/-- A machine whose table, on its shape, is the all-zero table. -/
def ZeroOnShape (this : TuringMachineT) : Prop :=
  ∀ s i : Int, 0 ≤ s → s < this.num_states → 0 ≤ i → i ≤ this.charset_max →
    this.table s i = zeroEntry

/-! ## Reachability: specification notions -/

/-- A well-formed table: at least one state, a non-empty alphabet, and every cell of the
shape writes a symbol of the alphabet and names an existing state. -/
def WellFormedTable (this : TuringMachineT) : Prop :=
  1 ≤ this.num_states ∧ 0 ≤ this.charset_max ∧
  ∀ s i : Int, 0 ≤ s → s < this.num_states → 0 ≤ i → i ≤ this.charset_max →
    WellFormedCell this.charset_max this.num_states (this.table s i)

/-- State `s` is reachable from state 0 by following `next` links (state 0 included). -/
inductive Reach (this : TuringMachineT) : Int → Prop where
  | start : Reach this 0
  | step (s i : Int) : Reach this s → 0 ≤ i → i ≤ this.charset_max →
      Reach this (this.table s i).next

/-- Some entry of a reachable state satisfies `p`: there are a state `s` reachable from
state 0 and a symbol `i` in `[0, charset_max]` with `p (table[s][i])`. -/
def ReachEntry (this : TuringMachineT) (p : Entry → Prop) : Prop :=
  ∃ s i : Int, Reach this s ∧ 0 ≤ i ∧ i ≤ this.charset_max ∧ p (this.table s i)

/-- The values the static queue of `tmTableBFS` can have when the function is called for
a table of the shape of `this`: `NULL`, or the queue that an earlier call for that shape
created and reset. -/
def StaticOK (fifo : Option FifoT) (this : TuringMachineT) : Prop :=
  ∀ f : FifoT, fifo = some f →
    f.first = 0 ∧ f.count = 0 ∧ f.length = this.num_states * (this.charset_max + 1)

/-- Invariant of the loops of `tmTableBFS`.  `P` is the set of the states pushed so far,
`k` the number of states popped so far, `D` holds of the popped states; the slots
`k .. count-1` of the queue hold the pushed states that are not popped yet. -/
def BfsCore (this : TuringMachineT) (f : FifoT) (sp : Int → Int) (c : Int)
    (P : Finset Int) (D : Int → Prop) (k : Int) : Prop :=
  (0 ≤ k ∧ k ≤ c) ∧ f.count = c - k ∧ f.first = k % f.length ∧
  this.num_states ≤ f.length ∧
  (∀ s : Int, sp s ≠ 0 ↔ s ∈ P) ∧
  (∀ s ∈ P, (0 ≤ s ∧ s < this.num_states) ∧ Reach this s) ∧
  (P.card : Int) = c ∧ (0 : Int) ∈ P ∧
  (∀ j : Int, k ≤ j → j < c → f.queue j - 1 ∈ P) ∧
  (∀ s ∈ P, D s ∨ ∃ j : Int, k ≤ j ∧ j < c ∧ f.queue j = s + 1)

/-- The entries `(s, i)` that satisfy `H` have been handled by `tmTableBFS`: their
`next` state is pushed and the test does not hold of them. -/
def BfsClosed (this : TuringMachineT) (test : Option (Entry → Int)) (P : Finset Int)
    (H : Int → Int → Prop) : Prop :=
  ∀ s i : Int, H s i → 0 ≤ i → i ≤ this.charset_max →
    (this.table s i).next ∈ P ∧ testValue test (this.table s i) = 0

/-- What holds of the loops of `tmTableBFS` when they have dealt with the popped state
`cur`: they went on with a queue of the same length, a larger set of pushed states and
all entries of `cur` handled, or they returned a non-zero test value of an entry of
`cur`, the queue reset. -/
def BfsRowPost (this : TuringMachineT) (test : Option (Entry → Int)) (cur : Int)
    (f : FifoT) (P : Finset Int) (D : Int → Prop) (k : Int) : BfsStep → Prop
  | BfsStep.aborted => False
  | BfsStep.exhausted => False
  | BfsStep.returned f1 v =>
    v ≠ 0 ∧ f1.first = 0 ∧ f1.count = 0 ∧ f1.length = f.length ∧
    ∃ i : Int, 0 ≤ i ∧ i ≤ this.charset_max ∧ testValue test (this.table cur i) = v
  | BfsStep.running f1 sp1 c1 =>
    f1.length = f.length ∧
    ∃ P1 : Finset Int, P ⊆ P1 ∧ BfsCore this f1 sp1 c1 P1 (fun s => D s ∨ s = cur) k ∧
      BfsClosed this test P1 (fun s _ => D s ∨ s = cur)

/-- What holds of the `while` loop of `tmTableBFS` when it ends: it returned a non-zero
test value of an entry of a reachable state, the queue reset; or it ran until the queue
was empty, `count` is the number of reachable states and the test holds of no entry of a
reachable state. -/
def BfsLoopPost (this : TuringMachineT) (test : Option (Entry → Int)) (f : FifoT) :
    BfsStep → Prop
  | BfsStep.aborted => False
  | BfsStep.exhausted => False
  | BfsStep.returned f1 v =>
    v ≠ 0 ∧ f1.first = 0 ∧ f1.count = 0 ∧ f1.length = f.length ∧
    ∃ s i : Int, Reach this s ∧ 0 ≤ i ∧ i ≤ this.charset_max ∧
      testValue test (this.table s i) = v
  | BfsStep.running f1 _ c1 =>
    f1.length = f.length ∧
    (∃ P1 : Finset Int, (P1.card : Int) = c1 ∧ (∀ s : Int, s ∈ P1 ↔ Reach this s) ∧
      ∀ s ∈ P1, 0 ≤ s ∧ s < this.num_states) ∧
    ∀ s i : Int, Reach this s → 0 ≤ i → i ≤ this.charset_max →
      testValue test (this.table s i) = 0

/-- Some cell of the table shape has move `STOP`. -/
def HasStop (this : TuringMachineT) : Prop :=
  ∃ s i : Int, (0 ≤ s ∧ s < this.num_states) ∧ (0 ≤ i ∧ i ≤ this.charset_max) ∧
    (this.table s i).move = Move.STOP

/-- Every state is reachable from state 0. -/
def AllReach (this : TuringMachineT) : Prop :=
  ∀ s : Int, 0 ≤ s → s < this.num_states → Reach this s

/-- The ordered chain of rejection reasons of the specification: `code` is the number of
the first reason that applies, or 0 when none applies.  The reasons are, in order:
`table[0][0].next = 0`; `table[0][0].move` is Stop; no cell's move is Stop; no Stop entry
is reachable; fewer than `num_states` states are reachable; no reachable entry writes 1;
a Left move is reachable and no Right move is; a Right move is reachable and no Left move
is. -/
def WeedReason (this : TuringMachineT) (code : Int) : Prop :=
  ((this.table 0 0).next = 0 ∧ code = 1) ∨
  ((this.table 0 0).next ≠ 0 ∧
    (((this.table 0 0).move = Move.STOP ∧ code = 2) ∨
    ((this.table 0 0).move ≠ Move.STOP ∧
      ((¬ HasStop this ∧ code = 3) ∨
      (HasStop this ∧
        ((¬ ReachEntry this (fun e => e.move = Move.STOP) ∧ code = 4) ∨
        (ReachEntry this (fun e => e.move = Move.STOP) ∧
          ((¬ AllReach this ∧ code = 5) ∨
          (AllReach this ∧
            ((¬ ReachEntry this (fun e => e.write = 1) ∧ code = 6) ∨
            (ReachEntry this (fun e => e.write = 1) ∧
              (((ReachEntry this (fun e => e.move = Move.MOVE_LEFT) ∧
                  ¬ ReachEntry this (fun e => e.move = Move.MOVE_RIGHT)) ∧ code = 7) ∨
              (¬ (ReachEntry this (fun e => e.move = Move.MOVE_LEFT) ∧
                  ¬ ReachEntry this (fun e => e.move = Move.MOVE_RIGHT)) ∧
                (((ReachEntry this (fun e => e.move = Move.MOVE_RIGHT) ∧
                    ¬ ReachEntry this (fun e => e.move = Move.MOVE_LEFT)) ∧ code = 8) ∨
                (¬ (ReachEntry this (fun e => e.move = Move.MOVE_RIGHT) ∧
                    ¬ ReachEntry this (fun e => e.move = Move.MOVE_LEFT)) ∧
                  code = 0)))))))))))))))

/-! ## The queue as a program uses it -/

/-- The queues that a program can hold: the one `fifoNew length` returns, and every queue
obtained from it by calls of `fifoAdd`, `fifoPop` and `fifoReset` that return. -/
inductive FifoState (length : Int) : FifoT → Prop
  | new (f : FifoT) : fifoNew length = some f → FifoState length f
  | add (f : FifoT) (item : Int) (r : FifoT × Int) :
      FifoState length f → fifoAdd f item = some r → FifoState length r.1
  | pop (f : FifoT) (r : FifoT × Int) :
      FifoState length f → fifoPop f = some r → FifoState length r.1
  | reset (f : FifoT) : FifoState length f → FifoState length (fifoReset f)

/-- One call on a queue, as `fifoTest` issues them. -/
inductive FifoOp
  | add (item : Int)
  | pop
  deriving DecidableEq

/-- A sequence of calls on a queue; the list of the values the calls return. -/
def fifoRun : FifoT → List FifoOp → Option (List Int)
  | _, [] => some []
  | f, FifoOp.add item :: ops =>
    match fifoAdd f item with
    | none => none
    | some r => (fifoRun r.1 ops).map (fun out => r.2 :: out)
  | f, FifoOp.pop :: ops =>
    match fifoPop f with
    | none => none
    | some r => (fifoRun r.1 ops).map (fun out => r.2 :: out)

/-- The bounded queue in the words of the specification, on the list of the items held:
an add is rejected (1) exactly when `length` items are held, else appends (0); a pop
returns `NULL` (0) exactly when no item is held, else the oldest item. -/
def fifoSpecRun (length : Int) : List Int → List FifoOp → List Int
  | _, [] => []
  | held, FifoOp.add item :: ops =>
    if (held.length : Int) = length then 1 :: fifoSpecRun length held ops
    else 0 :: fifoSpecRun length (held ++ [item]) ops
  | [], FifoOp.pop :: ops => 0 :: fifoSpecRun length [] ops
  | x :: held, FifoOp.pop :: ops => x :: fifoSpecRun length held ops

/-- The calls `add 1, pop, add 2, add 3, add 4, pop, pop, pop` on a queue of length 3. -/
def wrapOps : List FifoOp :=
  [FifoOp.add 1, FifoOp.pop, FifoOp.add 2, FifoOp.add 3, FifoOp.add 4,
    FifoOp.pop, FifoOp.pop, FifoOp.pop]

/-- A sequence of calls on a queue; the queue after the calls, `none` when a call has no
result. -/
def fifoAfter : FifoT → List FifoOp → Option FifoT
  | f, [] => some f
  | f, FifoOp.add item :: ops =>
    match fifoAdd f item with
    | none => none
    | some r => fifoAfter r.1 ops
  | f, FifoOp.pop :: ops =>
    match fifoPop f with
    | none => none
    | some r => fifoAfter r.1 ops

/-- The calls `add 1, add 2, add 3, pop, pop, pop, add 4, add 5, add 6` on a queue of
length 4. -/
def overflowOps : List FifoOp :=
  [FifoOp.add 1, FifoOp.add 2, FifoOp.add 3, FifoOp.pop, FifoOp.pop, FifoOp.pop,
    FifoOp.add 4, FifoOp.add 5, FifoOp.add 6]

/-! ## Tables that differ in Stop cells -/

/-- The machine `this` with the table replaced by `t`. -/
def withTable (this : TuringMachineT) (t : Int → Int → Entry) : TuringMachineT :=
  { this with table := t }

/-- Two tables of the shape `(num_states, charset_max)` that differ at most in the `write`
and `next` fields of cells whose move is `STOP`. -/
def StopVariant (charset_max num_states : Int) (ta tb : Int → Int → Entry) : Prop :=
  ∀ s i : Int, 0 ≤ s → s < num_states → 0 ≤ i → i ≤ charset_max →
    (ta s i).move = (tb s i).move ∧ ((ta s i).move ≠ Move.STOP → ta s i = tb s i)

/-- A one-state machine on a blank tape whose two cells are `(write w, STOP, next 0)`. -/
def stopWrite (w : Int) : TuringMachineT :=
  tmTapeBlank (machineOf 1 1 (fun _ _ => { write := w, move := Move.STOP, next := 0 }))

/-! ## The busy beaver search (tm.c) -/

/-- The macro `MAX`. -/
def MAX (a b : Int) : Int :=
  if a > b then a else b

/-- The constant `PERIOD`. -/
def PERIOD : Int :=
  21 * 21 * 21 * 21 + 1

/-- A file written by the search: `periodic.tm`, holding the table of a machine, or the
pair `max<count>.tm` and `max<count>.tape`, holding the table and the tape of a machine. -/
inductive SearchFile where
  | periodic (this : TuringMachineT)
  | best (count : Int) (this : TuringMachineT)

/-- The state of `tmBusyBeaverSearch`: the machine, the static queue of `tmTableBFS`, the
local variables `table_count`, `table_sim_count` and `ones_max`, and the files written so
far, the latest first.  Output to the terminal is not modelled. -/
structure SearchT where
  this : TuringMachineT
  fifo : Option FifoT
  table_count : Int
  table_sim_count : Int
  ones_max : Int
  files : List SearchFile

/-- The macro `PATIENCE`: every `PERIOD` tables the table is written to `periodic.tm`. -/
def PATIENCE (s : SearchT) : SearchT :=
  if Int.tmod s.table_count PERIOD = 0 then
    { s with files := SearchFile.periodic s.this :: s.files }
  else s

/-- The block of `tmBusyBeaverSearch` that follows a simulation which returned `iters`:
when `iters >= 0` and `count >= (ones_max-1)`, `ones_max` becomes `MAX(count, ones_max)`
and the table and the tape are written to `max<count>.tm` and `max<count>.tape`. -/
def tmBusyBeaverRecord (s : SearchT) (iters : Int) : SearchT :=
  if iters ≥ 0 then
    if tmTapeOneCount s.this ≥ s.ones_max - 1 then
      { s with
        ones_max := MAX (tmTapeOneCount s.this) s.ones_max
        files := SearchFile.best (tmTapeOneCount s.this) s.this :: s.files }
    else s
  else s

/-- Where `tmBusyBeaverSearch` stands: the process aborted (inside `tmTableWeed`), the
function returned `value`, or the iteration bound of the model was exhausted while the
loops were still running. -/
inductive SearchStep where
  | aborted
  | returned (s : SearchT) (value : Int)
  | exhausted (s : SearchT)

/-- The `do ... while` loop of `tmBusyBeaverSearch` (with `debug = 0`), entered at the test
of its inner `while` loop; the first argument bounds the number of calls of `tmTableNext`.
A table that `tmTableWeed` rejects is advanced with `tmTableNext`, whose return value is
not looked at, and the test is made again.  A table that `tmTableWeed` accepts is
simulated, recorded, the machine is reset, the table is advanced, and the loop goes on
when that call of `tmTableNext` returned 0. -/
def tmBusyBeaverSearchLoop (max_iters tape_len_max : Int) : Nat → SearchT → SearchStep
  | 0, s => SearchStep.exhausted s
  | fuel + 1, s =>
    match tmTableWeed s.fifo s.this with
    | none => SearchStep.aborted
    | some w =>
      if w.2 ≠ 0 then
        let s1 := PATIENCE { s with this := (tmTableNext s.this).1, fifo := w.1 }
        tmBusyBeaverSearchLoop max_iters tape_len_max fuel
          { s1 with table_count := s1.table_count + 1 }
      else
        let s1 := { s with fifo := w.1, table_sim_count := s.table_sim_count + 1 }
        let r := tmSimulate s1.this max_iters tape_len_max
        let s2 := tmBusyBeaverRecord { s1 with this := r.1 } r.2
        let s3 := PATIENCE { s2 with this := tmTapeBlank { s2.this with state := 0 } }
        let s4 := { s3 with table_count := s3.table_count + 1 }
        if (tmTableNext s4.this).2 = 0 then
          tmBusyBeaverSearchLoop max_iters tape_len_max fuel
            { s4 with this := (tmTableNext s4.this).1 }
        else
          SearchStep.returned { s4 with this := (tmTableNext s4.this).1 } 0

/-- The function `tmBusyBeaverSearch` with `debug = 0`.  The first argument bounds the
number of calls of `tmTableNext`, the second is the static queue of `tmTableBFS`. -/
def tmBusyBeaverSearch (fuel : Nat) (fifo : Option FifoT) (this : TuringMachineT)
    (max_iters tape_len_max : Int) : SearchStep :=
  tmBusyBeaverSearchLoop max_iters tape_len_max fuel
    { this := this, fifo := fifo, table_count := tmTableIndex this, table_sim_count := 0,
      ones_max := 0, files := [] }

/-- The one-state, two-symbol machine with the all-zero table, on a blank tape. -/
def oneStateZero : TuringMachineT :=
  tmTapeBlank (machineOf 1 1 zeroTable)

/-- A two-state table that halts on the blank tape after 6 steps with three marks. -/
def threeOnesTable : Int → Int → Entry := fun s i =>
  if s = 0 then
    if i = 0 then { write := 1, move := Move.MOVE_RIGHT, next := 1 }
    else { write := 1, move := Move.STOP, next := 1 }
  else
    if i = 0 then { write := 1, move := Move.MOVE_LEFT, next := 1 }
    else { write := 1, move := Move.MOVE_LEFT, next := 0 }

/-- The machine of `threeOnesTable` on a blank tape. -/
def threeOnes : TuringMachineT :=
  tmTapeBlank (machineOf 2 1 threeOnesTable)

/-- The search after the run of `threeOnes`, the best score so far being `b`. -/
def afterThreeOnes (b : Int) : SearchT :=
  { this := (tmSimulate threeOnes 100 100).1, fifo := none, table_count := 0,
    table_sim_count := 1, ones_max := b, files := [] }

/-! ## Table files (tm.c) -/

/-- A line of a table file, as the chain of tests of `tmTableRead` sees it.  The text layer
of the C library (`fprintf`, `fgets`, `sscanf`, `strncmp`) is not modelled: a line is
given by the first test of the chain that it passes, with the values converted.
`charsetMax v`: `sscanf(line, "charset_max %i")` converts the value `v`;
`state`: the line begins with `state`;
`input ii w mv nx`: `sscanf(line, "input %i write %i move %c next %i")` converts four values;
`comment`: the line begins with the comment character; `blank`: the line is empty;
`invalid`: any other line. -/
inductive TableLine where
  | charsetMax (v : Int)
  | state
  | input (ii w : Int) (mv : Char) (nx : Int)
  | comment
  | blank
  | invalid
  deriving DecidableEq

/-- The machine that `tmNew` returns.  The `NULL` table and tape are total functions like
every table and tape of the model. -/
def tmNew : TuringMachineT :=
  { charset_max := -1, state := 0, table := fun _ _ => { write := 0, move := Move.MOVE_LEFT, next := 0 },
    num_states := 0, here := 0, tape_len := 0, tape := fun _ => 0 }

/-- The table that the row pointers present: `tablePP[si] = &table[si * stride]`. -/
def tableView (table : Int → Entry) (stride : Int) : Int → Int → Entry :=
  fun s i => table (s * stride + i)

/-- The state of `tmTableRead` between two lines: the machine and the local variables
`charset_max`, `state`, `max_refd_state` and `table` (the array of entries, with the number
`size` of entries allocated for it and the row length `stride` that the row pointers
`tablePP` were last computed with). -/
structure TableReadT where
  this : TuringMachineT
  charset_max : Int
  state : Int
  max_refd_state : Int
  table : Int → Entry
  size : Int
  stride : Int

/-- An assignment to a field of `this->table[state][input]`, the entry
`table[state * stride + input]` of the local array. -/
def tableStore (st : TableReadT) (ii : Int) (f : Entry → Entry) : TableReadT :=
  { st with
    table := fun k => if k = st.state * st.stride + ii then f (st.table k) else st.table k
    this := { st.this with
      table := tableView
        (fun k => if k = st.state * st.stride + ii then f (st.table k) else st.table k)
        st.stride } }

/-- The branch of `tmTableRead` for a `state` line, after its check: `state ++`,
`num_states = state + 1`, the array `table` is reallocated to
`(charset_max + 1) * num_states` entries (the entries below the old and the new size keep
their content, the others hold `fresh`), and the row pointers are set. -/
def tmTableReadState (fresh : Int → Entry) (st : TableReadT) : TableReadT :=
  { st with
    state := st.state + 1
    size := (st.charset_max + 1) * (st.state + 1 + 1)
    stride := st.charset_max + 1
    table := fun k =>
      if k < st.size ∧ k < (st.charset_max + 1) * (st.state + 1 + 1) then st.table k
      else fresh k
    this := { st.this with
      num_states := st.state + 1 + 1
      table := tableView
        (fun k =>
          if k < st.size ∧ k < (st.charset_max + 1) * (st.state + 1 + 1) then st.table k
          else fresh k)
        (st.charset_max + 1) } }

/-- The body of the `while` loop of `tmTableRead` on one line: the state after the line,
and 0 when the loop goes on or the (negative) value that the function returns.  `fresh`
gives the content of allocated memory that was never written; `realloc` does not fail.
The assignments to `this->charset_max` and to `write` convert to `signed char`. -/
def tmTableReadLine (fresh : Int → Entry) (st : TableReadT) : TableLine → TableReadT × Int
  | TableLine.charsetMax v =>
    if st.this.charset_max ≥ 0 then ({ st with charset_max := v }, -2)
    else ({ st with charset_max := v, this := { st.this with charset_max := wrapChar v } }, 0)
  | TableLine.state =>
    if st.charset_max < 0 then (st, -3)
    else (tmTableReadState fresh st, 0)
  | TableLine.input ii w mv nx =>
    if st.state < 0 then (st, -5)
    else if ii < 0 ∨ ii > st.charset_max then (st, -6)
    else if w < 0 ∨ w > st.charset_max then (st, -7)
    else
      let st1 := tableStore st ii (fun e => { e with write := wrapChar w })
      if nx < 0 then (st1, -8)
      else
        let st2 := { tableStore st1 ii (fun e => { e with next := nx }) with
          max_refd_state := MAX st1.max_refd_state nx }
        if mv = 'L' then (tableStore st2 ii (fun e => { e with move := Move.MOVE_LEFT }), 0)
        else if mv = 'R' then (tableStore st2 ii (fun e => { e with move := Move.MOVE_RIGHT }), 0)
        else if mv = 'S' then (tableStore st2 ii (fun e => { e with move := Move.STOP }), 0)
        else (st2, -9)
  | TableLine.comment => (st, 0)
  | TableLine.blank => (st, 0)
  | TableLine.invalid => (st, -11)

/-- The `while` loop of `tmTableRead` over the lines of the file: the state when the loop
ends, and 0 or the value returned from inside the loop. -/
def tmTableReadLoop (fresh : Int → Entry) : TableReadT → List TableLine → TableReadT × Int
  | st, [] => (st, 0)
  | st, l :: ls =>
    if (tmTableReadLine fresh st l).2 ≠ 0 then tmTableReadLine fresh st l
    else tmTableReadLoop fresh (tmTableReadLine fresh st l).1 ls

/-- The local variables of `tmTableRead` before the first line. -/
def tmTableReadInit (fresh : Int → Entry) (this : TuringMachineT) : TableReadT :=
  { this := this, charset_max := -1, state := -1, max_refd_state := 0, table := fresh,
    size := 0, stride := 0 }

/-- The function `tmTableRead` on a file given by its lines (`none`: the file cannot be
opened): the machine after the call and the return value. -/
def tmTableRead (fresh : Int → Entry) (this : TuringMachineT) :
    Option (List TableLine) → TuringMachineT × Int
  | none => (this, -1)
  | some lines =>
    let r := tmTableReadLoop fresh (tmTableReadInit fresh this) lines
    if r.2 ≠ 0 then (r.1.this, r.2)
    else if r.1.max_refd_state > r.1.state then (r.1.this, -12)
    else (r.1.this, r.1.state)

/-- The character `move_chars[move]` of `tmTableWrite`. -/
def moveChar : Move → Char
  | Move.MOVE_LEFT => 'L'
  | Move.MOVE_RIGHT => 'R'
  | Move.STOP => 'S'

/-- Inner loop of `tmTableWrite` over `ii`: the `input` lines of the state `si`. -/
def tmTableWriteRow (this : TuringMachineT) (si : Int) : Nat → Int → List TableLine
  | 0, _ => []
  | n + 1, ii =>
    TableLine.input ii (this.table si ii).write (moveChar (this.table si ii).move)
      (this.table si ii).next :: tmTableWriteRow this si n (ii + 1)

/-- Outer loop of `tmTableWrite` over `si`: an empty line, the `state` line and the
`input` lines of each state. -/
def tmTableWriteLoop (this : TuringMachineT) : Nat → Int → List TableLine
  | 0, _ => []
  | n + 1, si =>
    TableLine.blank :: TableLine.state ::
      (tmTableWriteRow this si (this.charset_max + 1).toNat 0 ++
        tmTableWriteLoop this n (si + 1))

/-- The function `tmTableWrite` (the file can be opened): the lines written and the return
value 1.  The first line is a comment that holds the file name and `tmTableIndex`. -/
def tmTableWrite (this : TuringMachineT) : List TableLine × Int :=
  (TableLine.comment :: TableLine.blank :: TableLine.charsetMax this.charset_max ::
    tmTableWriteLoop this this.num_states.toNat 0, 1)

/-- The state of `tmTableRead` when the lines of the states below `si` of the table of
`this` have been read: the local variables, and the entries stored so far. -/
def ReadRows (this : TuringMachineT) (si : Int) (st : TableReadT) : Prop :=
  st.charset_max = this.charset_max ∧ st.this.charset_max = this.charset_max ∧
  st.state = si - 1 ∧ st.this.num_states = si ∧
  st.size = (this.charset_max + 1) * si ∧
  (1 ≤ si → st.this.table = tableView st.table (this.charset_max + 1)) ∧
  (0 ≤ st.max_refd_state ∧ st.max_refd_state ≤ this.num_states - 1) ∧
  ∀ s i : Int, 0 ≤ s → s < si → 0 ≤ i → i ≤ this.charset_max →
    st.table (s * (this.charset_max + 1) + i) = this.table s i

/-- The state of `tmTableRead` when the `state` line of the state `si` of the table of
`this` and the `input` lines of its symbols below `ii` have been read. -/
def ReadCells (this : TuringMachineT) (si ii : Int) (st : TableReadT) : Prop :=
  st.charset_max = this.charset_max ∧ st.this.charset_max = this.charset_max ∧
  st.state = si ∧ st.this.num_states = si + 1 ∧
  st.size = (this.charset_max + 1) * (si + 1) ∧ st.stride = this.charset_max + 1 ∧
  st.this.table = tableView st.table (this.charset_max + 1) ∧
  (0 ≤ st.max_refd_state ∧ st.max_refd_state ≤ this.num_states - 1) ∧
  (∀ s i : Int, 0 ≤ s → s < si → 0 ≤ i → i ≤ this.charset_max →
    st.table (s * (this.charset_max + 1) + i) = this.table s i) ∧
  ∀ i : Int, 0 ≤ i → i < ii → st.table (si * (this.charset_max + 1) + i) = this.table si i

/-! ## Tape output ranges and the blank start (tm.c) -/

/-- The values `start_index` and `last_index` that `tmTapeWrite` computes from
`far_head = tmTapeHead(this, this->tape_len - 1)`: the head positions of the first and
the last frame it writes. -/
def tmTapeWriteRange (this : TuringMachineT) : Int × Int :=
  if tmTapeHead this (this.tape_len - 1) ≥ 0 then
    (-tmTapeHead this (this.tape_len - 1), tmTapeHead this (this.tape_len - 1))
  else
    (tmTapeHead this (this.tape_len - 1), -(tmTapeHead this (this.tape_len - 1) + 1))

/-- The values `left_end` and `right_end` that `tmTapePrint` computes from the parity of
`tape_len`.  C division truncates toward zero, and `- this->tape_len / 2` parses as
`(- this->tape_len) / 2`. -/
def tmTapePrintRange (this : TuringMachineT) : Int × Int :=
  if Int.tmod this.tape_len 2 = 0 then
    (Int.tdiv (-this.tape_len) 2, this.tape_len + Int.tdiv (-this.tape_len) 2 - 1)
  else
    (Int.tdiv this.tape_len 2 - this.tape_len + 1, Int.tdiv this.tape_len 2)

/-- The machine `this` started in state 0 on a blank tape. -/
def blankStart (this : TuringMachineT) : TuringMachineT :=
  tmTapeBlank { this with state := 0 }

/-! ## The calls of fifoAdd inside tmTableBFS -/

/-- A call of `fifoAdd` made by `tmTableBFS`: the queue at the call, the item added and the
value that `fifoAdd` returned. -/
structure AddCall where
  fifo : FifoT
  item : Int
  value : Int

/-- The `for` loop of `tmTableBFS` over the entries of the popped `state` (see
`tmTableBFSRow`), which in addition appends each call of `fifoAdd` to a list. -/
def tmTableBFSRowLog (this : TuringMachineT) (test : Option (Entry → Int)) (state : Int) :
    Nat → Int → FifoT → (Int → Int) → Int → List AddCall → BfsStep × List AddCall
  | 0, _, fifo, state_pushed, count, log => (BfsStep.running fifo state_pushed count, log)
  | n + 1, ii, fifo, state_pushed, count, log =>
    if testValue test (this.table state ii) ≠ 0 then
      (BfsStep.returned (fifoReset fifo) (testValue test (this.table state ii)), log)
    else if state_pushed (this.table state ii).next = 0 then
      match fifoAdd fifo ((this.table state ii).next + 1) with
      | none => (BfsStep.aborted, log)
      | some r =>
        tmTableBFSRowLog this test state n (ii + 1) r.1
          (fun s => if s = (this.table state ii).next then 1 else state_pushed s) (count + 1)
          (log ++ [AddCall.mk fifo ((this.table state ii).next + 1) r.2])
    else
      tmTableBFSRowLog this test state n (ii + 1) fifo state_pushed count log

/-- The `while` loop of `tmTableBFS` (see `tmTableBFSLoop`), with the list of the calls of
`fifoAdd`. -/
def tmTableBFSLoopLog (this : TuringMachineT) (test : Option (Entry → Int)) :
    Nat → FifoT → (Int → Int) → Int → List AddCall → BfsStep × List AddCall
  | 0, _, _, _, log => (BfsStep.exhausted, log)
  | fuel + 1, fifo, state_pushed, count, log =>
    if count ≤ this.num_states then
      match fifoPop fifo with
      | none => (BfsStep.aborted, log)
      | some r =>
        if r.2 ≠ 0 then
          match tmTableBFSRowLog this test (r.2 - 1) (this.charset_max + 1).toNat 0 r.1
              state_pushed count log with
          | (BfsStep.running fifo1 state_pushed1 count1, log1) =>
            tmTableBFSLoopLog this test fuel fifo1 state_pushed1 count1 log1
          | other => other
        else (BfsStep.running r.1 state_pushed count, log)
    else (BfsStep.running fifo state_pushed count, log)

/-- The body of `tmTableBFS` (see `tmTableBFSBody`), with the list of the calls of
`fifoAdd`, the first of which pushes the state 0. -/
def tmTableBFSBodyLog (fifo : FifoT) (this : TuringMachineT) (test : Option (Entry → Int)) :
    Option (FifoT × Int) × List AddCall :=
  match fifoAdd fifo 1 with
  | none => (none, [])
  | some r =>
    match tmTableBFSLoopLog this test (this.num_states.toNat + 1) r.1
        (fun s => if s = 0 then 1 else 0) 1 [AddCall.mk fifo 1 r.2] with
    | (BfsStep.aborted, log) => (none, log)
    | (BfsStep.exhausted, log) => (none, log)
    | (BfsStep.returned f2 v, log) => (some (f2, v), log)
    | (BfsStep.running f2 _ c, log) => (some (fifoReset f2, if test.isSome then 0 else c), log)

/-- The function `tmTableBFS` together with the list of its calls of `fifoAdd`, in the
order they are made. -/
def tmTableBFSLog (fifo : Option FifoT) (this : TuringMachineT)
    (test : Option (Entry → Int)) : Option (FifoT × Int) × List AddCall :=
  match fifo with
  | none =>
    match fifoNew (this.num_states * (this.charset_max + 1)) with
    | none => (none, [])
    | some f => tmTableBFSBodyLog f this test
  | some f => tmTableBFSBodyLog f this test

/-- A call of `fifoAdd` that succeeds on a queue holding fewer than `num_states` items,
writes at a slot below `num_states`, and adds a state of the table. -/
def AddCallOK (this : TuringMachineT) (e : AddCall) : Prop :=
  e.value = 0 ∧ (0 ≤ e.fifo.count ∧ e.fifo.count + 1 ≤ this.num_states) ∧
  (0 ≤ e.fifo.first + e.fifo.count ∧ e.fifo.first + e.fifo.count < this.num_states) ∧
  (0 ≤ e.item - 1 ∧ e.item - 1 < this.num_states)

/-- Every call of the list is as `AddCallOK` says, and no item is added twice. -/
def BfsLogOK (this : TuringMachineT) (log : List AddCall) : Prop :=
  (∀ e ∈ log, AddCallOK this e) ∧ (log.map AddCall.item).Nodup

/-- Invariant of the list of calls inside the loops of `tmTableBFS`: in addition to
`BfsLogOK`, every state added is marked in `state_pushed`. -/
def BfsLogInv (this : TuringMachineT) (log : List AddCall) (sp : Int → Int) : Prop :=
  BfsLogOK this log ∧ ∀ e ∈ log, sp (e.item - 1) ≠ 0

/-- What holds of the list of calls when the loops of `tmTableBFS` are left. -/
def BfsLogPost (this : TuringMachineT) : BfsStep × List AddCall → Prop
  | (BfsStep.running _ sp1 _, log1) => BfsLogInv this log1 sp1
  | (_, log1) => BfsLogOK this log1

/-! ## Tape index mapping -/

theorem tmTapeIndex_nonneg (this : TuringMachineT) : 0 ≤ tmTapeIndex this := by
  unfold tmTapeIndex
  split <;> omega

theorem tmTapeHead_of_nonneg (this : TuringMachineT) (i : Int) (hi : 0 ≤ i) :
    tmTapeHead this i = if i % 2 = 0 then i / 2 else -((i + 1) / 2) := by
  unfold tmTapeHead
  rw [Int.tmod_eq_emod hi (by decide), Int.neg_tdiv,
    Int.tdiv_eq_ediv hi (by decide), Int.tdiv_eq_ediv (by omega) (by decide)]

theorem tmTapeHead_index_roundtrip (this : TuringMachineT) :
    tmTapeHead this (tmTapeIndex this) = this.here := by
  rw [tmTapeHead_of_nonneg this _ (tmTapeIndex_nonneg this)]
  unfold tmTapeIndex
  by_cases h : 0 ≤ this.here
  · have h2 : this.here * 2 % 2 = 0 := by omega
    simp only [ge_iff_le, h, if_true, h2]
    omega
  · have h2 : ¬ (-(this.here * 2 + 1) % 2 = 0) := by omega
    simp only [ge_iff_le, h, if_false, h2]
    omega

/-- **C5.** Tape index round trip: for every head position `h = this.here`,
`tmTapeHead (tmTapeIndex h) = h`, where `tmTapeIndex h` is `2h` for `h ≥ 0` and
`-(2h+1)` for `h < 0`. -/
theorem tmTapeHead_tmTapeIndex (this : TuringMachineT) :
    tmTapeHead this (tmTapeIndex this) = this.here ∧
    tmTapeIndex this = (if 0 ≤ this.here then 2 * this.here else -(2 * this.here + 1)) := by
  refine ⟨tmTapeHead_index_roundtrip this, ?_⟩
  unfold tmTapeIndex
  split <;> omega

/-- **C6.** `tmTapeHead` is a two-sided inverse of `tmTapeIndex` on storage indices: for
every storage index `i ≥ 0`, the head position `tmTapeHead i` has tape index `i`, and it
is the only head position with tape index `i`. -/
theorem tmTapeIndex_tmTapeHead (this : TuringMachineT) (i : Int) (hi : 0 ≤ i) :
    tmTapeIndex { this with here := tmTapeHead this i } = i ∧
    ∃! h : Int, tmTapeIndex { this with here := h } = i := by
  have key : tmTapeIndex { this with here := tmTapeHead this i } = i := by
    rw [tmTapeHead_of_nonneg this i hi]
    unfold tmTapeIndex
    by_cases h : i % 2 = 0
    · simp only [h, if_true]
      split <;> omega
    · simp only [h, if_false]
      split <;> omega
  refine ⟨key, tmTapeHead this i, key, ?_⟩
  intro h hh
  have e1 := tmTapeHead_index_roundtrip { this with here := h }
  rw [hh] at e1
  exact e1.symm

theorem tmTapeIndex_tmTapeHead_witness :
    (0 : Int) ≤ 5 ∧ (tmTapeIndex { headAt 0 with here := tmTapeHead (headAt 0) 5 } = 5 ∧
      ∃! h : Int, tmTapeIndex { headAt 0 with here := h } = 5) :=
  ⟨by decide, tmTapeIndex_tmTapeHead (headAt 0) 5 (by decide)⟩

/-- **C7.** Sign and parity of the tape index mapping: `tmTapeIndex` of every head position
is non-negative, even exactly when the position is non-negative and odd exactly when it is
negative; for every storage index `i ≥ 0`, `tmTapeHead i` is non-negative when `i` is even
and negative when `i` is odd; and `tmTapeHead 0 = 0`. -/
theorem tmTapeIndex_parity (this : TuringMachineT) (i : Int) (hi : 0 ≤ i) :
    (0 ≤ tmTapeIndex this ∧
      (tmTapeIndex this % 2 = 0 ↔ 0 ≤ this.here) ∧
      (tmTapeIndex this % 2 = 1 ↔ this.here < 0)) ∧
    ((i % 2 = 0 → 0 ≤ tmTapeHead this i) ∧ (i % 2 = 1 → tmTapeHead this i < 0)) ∧
    tmTapeHead this 0 = 0 := by
  refine ⟨⟨tmTapeIndex_nonneg this, ?_, ?_⟩, ⟨?_, ?_⟩, ?_⟩
  · unfold tmTapeIndex
    split <;> omega
  · unfold tmTapeIndex
    split <;> omega
  · intro h
    rw [tmTapeHead_of_nonneg this i hi, if_pos h]
    omega
  · intro h
    have h2 : ¬ (i % 2 = 0) := by omega
    rw [tmTapeHead_of_nonneg this i hi, if_neg h2]
    omega
  · rw [tmTapeHead_of_nonneg this 0 (le_refl 0)]
    decide

theorem tmTapeIndex_parity_witness :
    (0 : Int) ≤ 7 ∧
    ((0 ≤ tmTapeIndex (headAt (-3)) ∧
      (tmTapeIndex (headAt (-3)) % 2 = 0 ↔ 0 ≤ (headAt (-3)).here) ∧
      (tmTapeIndex (headAt (-3)) % 2 = 1 ↔ (headAt (-3)).here < 0)) ∧
    (((7 : Int) % 2 = 0 → 0 ≤ tmTapeHead (headAt (-3)) 7) ∧
      ((7 : Int) % 2 = 1 → tmTapeHead (headAt (-3)) 7 < 0)) ∧
    tmTapeHead (headAt (-3)) 0 = 0) :=
  ⟨by decide, tmTapeIndex_parity (headAt (-3)) 7 (by decide)⟩

/-! ## One step -/

theorem tmUpdate_snd (this : TuringMachineT) :
    (tmUpdate this).2 = if (currentEntry this).move = Move.STOP then 1 else 0 := by
  unfold tmUpdate currentEntry
  by_cases h : (this.table this.state (tmTapeFrame this)).move = Move.STOP
  · simp [h]
  · have h2 : ¬ (Move.STOP = (this.table this.state (tmTapeFrame this)).move) := fun e => h e.symm
    simp [h, h2]

/-- The fields of a machine after `tmTapeAlloc`. -/
theorem tmTapeAlloc_fields (this : TuringMachineT) :
    (tmTapeAlloc this).here = this.here ∧ (tmTapeAlloc this).state = this.state ∧
    (tmTapeAlloc this).table = this.table ∧ (tmTapeAlloc this).charset_max = this.charset_max ∧
    (tmTapeAlloc this).num_states = this.num_states ∧
    (tmTapeAlloc this).tape_len = max this.tape_len (tmTapeIndex this + 1) ∧
    (∀ i, i < this.tape_len → (tmTapeAlloc this).tape i = this.tape i) ∧
    (∀ i, this.tape_len ≤ i → i < (tmTapeAlloc this).tape_len → (tmTapeAlloc this).tape i = 0) := by
  unfold tmTapeAlloc
  by_cases h : this.tape_len ≤ tmTapeIndex this
  · rw [if_pos h]
    refine ⟨rfl, rfl, rfl, rfl, rfl, ?_, ?_, ?_⟩
    · show tmTapeIndex this + 1 = _
      omega
    · intro i hi
      show (if this.tape_len ≤ i ∧ i ≤ tmTapeIndex this then 0 else this.tape i) = _
      rw [if_neg (by omega)]
    · intro i h1 h2
      show (if this.tape_len ≤ i ∧ i ≤ tmTapeIndex this then 0 else this.tape i) = _
      have h3 : i < tmTapeIndex this + 1 := h2
      rw [if_pos ⟨h1, by omega⟩]
  · rw [if_neg h]
    refine ⟨rfl, rfl, rfl, rfl, rfl, ?_, fun _ _ => rfl, ?_⟩
    · omega
    · intro i h1 h2
      omega

/-- The fields of a machine after `tmTapeMove`. -/
theorem tmTapeMove_fields (this : TuringMachineT) (mv : Move) :
    (tmTapeMove this mv).1.here =
      (match mv with
        | Move.MOVE_LEFT => this.here - 1
        | Move.MOVE_RIGHT => this.here + 1
        | Move.STOP => this.here) ∧
    (tmTapeMove this mv).1.state = this.state ∧
    (tmTapeMove this mv).1.table = this.table ∧
    (tmTapeMove this mv).1.charset_max = this.charset_max ∧
    (tmTapeMove this mv).1.num_states = this.num_states ∧
    (∀ i, i < this.tape_len → (tmTapeMove this mv).1.tape i = this.tape i) := by
  cases mv
  · have h := tmTapeAlloc_fields { this with here := this.here - 1 }
    exact ⟨h.1, h.2.1, h.2.2.1, h.2.2.2.1, h.2.2.2.2.1, h.2.2.2.2.2.2.1⟩
  · have h := tmTapeAlloc_fields { this with here := this.here + 1 }
    exact ⟨h.1, h.2.1, h.2.2.1, h.2.2.2.1, h.2.2.2.2.1, h.2.2.2.2.2.2.1⟩
  · exact ⟨rfl, rfl, rfl, rfl, rfl, fun _ _ => rfl⟩

/-- The machine after `tmUpdate`, in terms of the entry read. -/
theorem tmUpdate_fst (this : TuringMachineT) :
    (tmUpdate this).1 =
      { (tmTapeMove (tmTapeFrameSet this (currentEntry this).write) (currentEntry this).move).1 with
        state := (currentEntry this).next } := by
  unfold tmUpdate currentEntry
  simp only
  have h := tmTapeMove_fields (tmTapeFrameSet this (this.table this.state (tmTapeFrame this)).write)
    (this.table this.state (tmTapeFrame this)).move
  have e1 : (tmTapeFrameSet this (this.table this.state (tmTapeFrame this)).write).table = this.table := rfl
  have e2 : (tmTapeFrameSet this (this.table this.state (tmTapeFrame this)).write).state = this.state := rfl
  rw [e1, e2, h.2.1, h.2.2.1, e1, e2]

/-- **C1.** `tmUpdate` performs exactly one transition.  For a machine whose state is in
`[0, num_states)`, whose cell under the head is in `[0, charset_max]` and whose head is
inside the allocated tape, with `e = table[state][symbol under head]`: after the call the
cell at the old head position holds `e.write`, every other previously allocated cell is
unchanged, the head is `here - 1` for Left, `here + 1` for Right and unchanged for Stop,
the state is `e.next`, the table is unchanged, and the return value is 1 if and only if
`e.move` is Stop and 0 otherwise. -/
theorem tmUpdate_transition (this : TuringMachineT) (h : StepReady this) :
    (tmUpdate this).1.tape (tmTapeIndex this) = (currentEntry this).write ∧
    (∀ i, 0 ≤ i → i < this.tape_len → i ≠ tmTapeIndex this →
      (tmUpdate this).1.tape i = this.tape i) ∧
    (tmUpdate this).1.here =
      (match (currentEntry this).move with
        | Move.MOVE_LEFT => this.here - 1
        | Move.MOVE_RIGHT => this.here + 1
        | Move.STOP => this.here) ∧
    (tmUpdate this).1.state = (currentEntry this).next ∧
    (tmUpdate this).1.table = this.table ∧
    ((tmUpdate this).2 = 1 ↔ (currentEntry this).move = Move.STOP) ∧
    ((currentEntry this).move ≠ Move.STOP → (tmUpdate this).2 = 0) := by
  obtain ⟨-, -, hlen⟩ := h
  have hret := tmUpdate_snd this
  have hm := tmTapeMove_fields (tmTapeFrameSet this (currentEntry this).write)
    (currentEntry this).move
  rw [tmUpdate_fst]
  refine ⟨?_, ?_, hm.1, rfl, hm.2.2.1, ?_, ?_⟩
  · show (tmTapeMove _ _).1.tape _ = _
    rw [hm.2.2.2.2.2 _ hlen]
    simp [tmTapeFrameSet]
  · intro i _ hi hne
    show (tmTapeMove _ _).1.tape _ = _
    rw [hm.2.2.2.2.2 _ hi]
    simp [tmTapeFrameSet, hne]
  · rw [hret]
    by_cases hm : (currentEntry this).move = Move.STOP <;> simp [hm]
  · intro hm
    rw [hret, if_neg hm]

/-- A machine ready for a step: the busy beaver on its blank tape. -/
theorem busyBeaver2_stepReady : StepReady (busyBeaver2 1) := by
  unfold StepReady
  decide

theorem tmUpdate_transition_witness :
    StepReady (busyBeaver2 1) ∧ (tmUpdate (busyBeaver2 1)).1.state = (currentEntry (busyBeaver2 1)).next :=
  ⟨busyBeaver2_stepReady, (tmUpdate_transition (busyBeaver2 1) busyBeaver2_stepReady).2.2.2.1⟩

/-- **C3.** End-to-end run of the classical 2-state, 2-symbol busy beaver: started in
state 0 on a blank tape with `max_iters = 100` and `tape_len_max = 1000`, `tmSimulate`
returns 6 and `tmTapeOneCount` of the final tape is 4.  The `next` field `n` of the halting
entry ranges over the valid states `0` and `1`. -/
theorem busyBeaver2_run (n : Int) (h0 : 0 ≤ n) (h1 : n < 2) :
    (tmSimulate (busyBeaver2 n) 100 1000).2 = 6 ∧
    tmTapeOneCount (tmSimulate (busyBeaver2 n) 100 1000).1 = 4 := by
  interval_cases n <;> decide

theorem busyBeaver2_run_witness :
    (0 : Int) ≤ 1 ∧ (1 : Int) < 2 ∧
    (tmSimulate (busyBeaver2 1) 100 1000).2 = 6 ∧
    tmTapeOneCount (tmSimulate (busyBeaver2 1) 100 1000).1 = 4 :=
  ⟨by decide, by decide, busyBeaver2_run 1 (by decide) (by decide)⟩

/-! ## The simulation loop -/

theorem tmUpdateIter_succ_left (n : Nat) (this : TuringMachineT) :
    tmUpdateIter (n + 1) this = tmUpdateIter n (tmUpdate this).1 := by
  induction n with
  | zero => rfl
  | succ n ih =>
    show (tmUpdate (tmUpdateIter (n + 1) this)).1 = (tmUpdate (tmUpdateIter n (tmUpdate this).1)).1
    rw [ih]

theorem stopFlag_succ_left (this : TuringMachineT) (stop : Int) (j : Nat) :
    stopFlag this stop (j + 1) = stopFlag (tmUpdate this).1 (tmUpdate this).2 j := by
  cases j with
  | zero => rfl
  | succ j =>
    show (tmUpdate (tmUpdateIter (j + 1) this)).2 = (tmUpdate (tmUpdateIter j (tmUpdate this).1)).2
    rw [tmUpdateIter_succ_left]

/-- The loop of `tmSimulate` runs `k` steps, where `k` is the first index at which the loop
condition fails (or the iteration bound). -/
theorem tmSimulateLoop_spec (max_iters tape_len_max : Int) (fuel : Nat) :
    ∀ (this : TuringMachineT) (stop iters : Int),
    ∃ k : Nat, k ≤ fuel ∧
      tmSimulateLoop max_iters tape_len_max fuel this stop iters =
        (tmUpdateIter k this, stopFlag this stop k, iters + k) ∧
      (∀ j : Nat, j < k → stopFlag this stop j = 0 ∧ iters + j < max_iters ∧
        (tmUpdateIter j this).tape_len < tape_len_max) ∧
      (k < fuel → ¬ (stopFlag this stop k = 0 ∧ iters + k < max_iters ∧
        (tmUpdateIter k this).tape_len < tape_len_max)) := by
  induction fuel with
  | zero =>
    intro this stop iters
    refine ⟨0, le_refl 0, ?_, ?_, ?_⟩
    · simp [tmSimulateLoop, tmUpdateIter, stopFlag]
    · intro j hj
      omega
    · intro h
      omega
  | succ fuel ih =>
    intro this stop iters
    by_cases hc : stop = 0 ∧ iters < max_iters ∧ this.tape_len < tape_len_max
    · obtain ⟨k, hk, heq, hbefore, hat⟩ := ih (tmUpdate this).1 (tmUpdate this).2 (iters + 1)
      refine ⟨k + 1, by omega, ?_, ?_, ?_⟩
      · rw [tmSimulateLoop, if_pos hc, heq, tmUpdateIter_succ_left, stopFlag_succ_left]
        simp only [Nat.cast_add, Nat.cast_one, Prod.mk.injEq, true_and]
        omega
      · intro j hj
        cases j with
        | zero =>
          simp only [stopFlag, tmUpdateIter, Nat.cast_zero, add_zero]
          exact hc
        | succ j =>
          have := hbefore j (by omega)
          rw [tmUpdateIter_succ_left, stopFlag_succ_left]
          refine ⟨this.1, ?_, this.2.2⟩
          have h2 := this.2.1
          push_cast
          omega
      · intro hlt
        have := hat (by omega)
        rw [tmUpdateIter_succ_left, stopFlag_succ_left]
        intro hcon
        apply this
        refine ⟨hcon.1, ?_, hcon.2.2⟩
        have h2 := hcon.2.1
        push_cast at h2
        omega
    · refine ⟨0, by omega, ?_, ?_, ?_⟩
      · rw [tmSimulateLoop, if_neg hc]
        simp [tmUpdateIter, stopFlag]
      · intro j hj
        omega
      · intro _
        simpa [stopFlag, tmUpdateIter] using hc

theorem stopFlag_eq_zero_iff (this : TuringMachineT) (k : Nat) :
    stopFlag this 0 k = 0 ↔ ¬ StoppedAt this k := by
  cases k with
  | zero => simp [stopFlag, StoppedAt]
  | succ k =>
    simp only [stopFlag, StoppedAt, tmUpdate_snd, Nat.add_sub_cancel]
    by_cases h : (currentEntry (tmUpdateIter k this)).move = Move.STOP <;> simp [h]

/-- The run of `tmSimulate`: with `k` the number of steps executed, the loop exits with
the machine after `k` steps, the loop condition held before each of the `k` steps and
fails after the last. -/
theorem tmSimulate_run (this : TuringMachineT) (max_iters tape_len_max : Int) :
    tmSimulateLoop max_iters tape_len_max max_iters.toNat this 0 0 =
      (tmUpdateIter (tmSimulateIters this max_iters tape_len_max) this,
        stopFlag this 0 (tmSimulateIters this max_iters tape_len_max),
        (tmSimulateIters this max_iters tape_len_max : Int)) ∧
    (∀ j : Nat, j < tmSimulateIters this max_iters tape_len_max →
      ¬ StoppedAt this j ∧ (j : Int) < max_iters ∧
        (tmUpdateIter j this).tape_len < tape_len_max) ∧
    (StoppedAt this (tmSimulateIters this max_iters tape_len_max) ∨
      max_iters ≤ (tmSimulateIters this max_iters tape_len_max : Int) ∨
      tape_len_max ≤
        (tmUpdateIter (tmSimulateIters this max_iters tape_len_max) this).tape_len) ∧
    (tmSimulateIters this max_iters tape_len_max : Int) ≤ max max_iters 0 := by
  obtain ⟨k, hk, heq, hbefore, hat⟩ :=
    tmSimulateLoop_spec max_iters tape_len_max max_iters.toNat this 0 0
  have hk2 : tmSimulateIters this max_iters tape_len_max = k := by
    unfold tmSimulateIters
    rw [heq]
    simp
  rw [hk2]
  refine ⟨?_, ?_, ?_, ?_⟩
  · rw [heq]
    simp
  · intro j hj
    have hb := hbefore j hj
    refine ⟨(stopFlag_eq_zero_iff this j).1 hb.1, ?_, hb.2.2⟩
    have h2 := hb.2.1
    omega
  · by_cases hlt : k < max_iters.toNat
    · have hn := hat hlt
      by_cases hs : StoppedAt this k
      · exact Or.inl hs
      · right
        have hz := (stopFlag_eq_zero_iff this k).2 hs
        by_contra hcon
        push_neg at hcon
        exact hn ⟨hz, by omega, hcon.2⟩
    · right
      left
      omega
  · omega

/-- **C2.** `tmSimulate` applies `tmUpdate` repeatedly and stops at the first of: a Stop
entry was executed, `max_iters` steps were executed, or `tape_len ≥ tape_len_max` before a
step.  With `k` the number of steps executed, it returns `k` (and `k ≥ 1`) if the `k`-th
step executed a Stop entry; otherwise it returns -2 if `tape_len ≥ tape_len_max` on exit;
otherwise it returns -1 and `k = max_iters`.  Here `max_iters` is an iteration count,
`0 ≤ max_iters`. -/
theorem tmSimulate_outcome (this : TuringMachineT) (max_iters tape_len_max : Int)
    (hmax : 0 ≤ max_iters) :
    (tmSimulate this max_iters tape_len_max).1 =
      tmUpdateIter (tmSimulateIters this max_iters tape_len_max) this ∧
    (∀ j : Nat, j < tmSimulateIters this max_iters tape_len_max →
      ¬ StoppedAt this j ∧ (j : Int) < max_iters ∧
        (tmUpdateIter j this).tape_len < tape_len_max) ∧
    (StoppedAt this (tmSimulateIters this max_iters tape_len_max) ∨
      (tmSimulateIters this max_iters tape_len_max : Int) = max_iters ∨
      tape_len_max ≤
        (tmUpdateIter (tmSimulateIters this max_iters tape_len_max) this).tape_len) ∧
    (StoppedAt this (tmSimulateIters this max_iters tape_len_max) →
      (tmSimulate this max_iters tape_len_max).2 = tmSimulateIters this max_iters tape_len_max ∧
      1 ≤ tmSimulateIters this max_iters tape_len_max) ∧
    (¬ StoppedAt this (tmSimulateIters this max_iters tape_len_max) →
      tape_len_max ≤ (tmSimulate this max_iters tape_len_max).1.tape_len →
      (tmSimulate this max_iters tape_len_max).2 = -2) ∧
    (¬ StoppedAt this (tmSimulateIters this max_iters tape_len_max) →
      (tmSimulate this max_iters tape_len_max).1.tape_len < tape_len_max →
      (tmSimulate this max_iters tape_len_max).2 = -1 ∧
      (tmSimulateIters this max_iters tape_len_max : Int) = max_iters) := by
  obtain ⟨heq, hbefore, hat, hle⟩ := tmSimulate_run this max_iters tape_len_max
  have hz := stopFlag_eq_zero_iff this (tmSimulateIters this max_iters tape_len_max)
  have hfst : (tmSimulate this max_iters tape_len_max).1 =
      tmUpdateIter (tmSimulateIters this max_iters tape_len_max) this := by
    unfold tmSimulate
    simp only [heq]
    split
    · rfl
    · split <;> rfl
  have hle2 : (tmSimulateIters this max_iters tape_len_max : Int) ≤ max_iters := by omega
  refine ⟨hfst, hbefore, ?_, ?_, ?_, ?_⟩
  · rcases hat with h | h | h
    · exact Or.inl h
    · exact Or.inr (Or.inl (by omega))
    · exact Or.inr (Or.inr h)
  · intro hs
    refine ⟨?_, hs.1⟩
    have hnz : stopFlag this 0 (tmSimulateIters this max_iters tape_len_max) ≠ 0 :=
      fun h => (hz.1 h) hs
    unfold tmSimulate
    simp only [heq]
    rw [if_pos hnz]
  · intro hs hlen
    rw [hfst] at hlen
    have hzero := hz.2 hs
    unfold tmSimulate
    simp only [heq]
    rw [if_neg (by simpa using hzero), if_pos (by simpa using hlen)]
  · intro hs hlen
    rw [hfst] at hlen
    have hzero := hz.2 hs
    refine ⟨?_, ?_⟩
    · unfold tmSimulate
      simp only [heq]
      rw [if_neg (by simpa using hzero), if_neg (by simpa using hlen)]
    · rcases hat with h | h | h
      · exact absurd h hs
      · omega
      · omega

theorem tmSimulate_outcome_witness :
    (0 : Int) ≤ 100 ∧
    (StoppedAt (busyBeaver2 1) (tmSimulateIters (busyBeaver2 1) 100 1000) →
      (tmSimulate (busyBeaver2 1) 100 1000).2 = tmSimulateIters (busyBeaver2 1) 100 1000 ∧
      1 ≤ tmSimulateIters (busyBeaver2 1) 100 1000) :=
  ⟨by decide, (tmSimulate_outcome (busyBeaver2 1) 100 1000 (by decide)).2.2.2.1⟩

/-! ## Tape growth during a run -/

theorem tmTapeIndex_congr (a b : TuringMachineT) (h : a.here = b.here) :
    tmTapeIndex a = tmTapeIndex b := by
  unfold tmTapeIndex
  rw [h]

theorem tmTapeIndex_shift (a b : TuringMachineT)
    (h : b.here = a.here - 1 ∨ b.here = a.here + 1) :
    tmTapeIndex b ≤ tmTapeIndex a + 2 := by
  unfold tmTapeIndex
  rcases h with h | h <;> rw [h] <;> split <;> split <;> omega

/-- Moving the head keeps it inside the allocated tape, never shortens the tape and
lengthens it by at most two cells. -/
theorem tmTapeMove_tape_len (this : TuringMachineT) (mv : Move)
    (h : tmTapeIndex this < this.tape_len) :
    tmTapeIndex (tmTapeMove this mv).1 < (tmTapeMove this mv).1.tape_len ∧
    this.tape_len ≤ (tmTapeMove this mv).1.tape_len ∧
    (tmTapeMove this mv).1.tape_len ≤ this.tape_len + 2 := by
  cases mv
  · have ha := tmTapeAlloc_fields { this with here := this.here - 1 }
    have hs := tmTapeIndex_shift this { this with here := this.here - 1 } (Or.inl rfl)
    have e1 := tmTapeIndex_congr _ _ ha.1
    have e2 := ha.2.2.2.2.2.1
    have e3 : ({ this with here := this.here - 1 } : TuringMachineT).tape_len = this.tape_len := rfl
    show tmTapeIndex (tmTapeAlloc { this with here := this.here - 1 }) <
        (tmTapeAlloc { this with here := this.here - 1 }).tape_len ∧
      this.tape_len ≤ (tmTapeAlloc { this with here := this.here - 1 }).tape_len ∧
      (tmTapeAlloc { this with here := this.here - 1 }).tape_len ≤ this.tape_len + 2
    rw [e1, e2, e3]
    omega
  · have ha := tmTapeAlloc_fields { this with here := this.here + 1 }
    have hs := tmTapeIndex_shift this { this with here := this.here + 1 } (Or.inr rfl)
    have e1 := tmTapeIndex_congr _ _ ha.1
    have e2 := ha.2.2.2.2.2.1
    have e3 : ({ this with here := this.here + 1 } : TuringMachineT).tape_len = this.tape_len := rfl
    show tmTapeIndex (tmTapeAlloc { this with here := this.here + 1 }) <
        (tmTapeAlloc { this with here := this.here + 1 }).tape_len ∧
      this.tape_len ≤ (tmTapeAlloc { this with here := this.here + 1 }).tape_len ∧
      (tmTapeAlloc { this with here := this.here + 1 }).tape_len ≤ this.tape_len + 2
    rw [e1, e2, e3]
    omega
  · show tmTapeIndex this < this.tape_len ∧ this.tape_len ≤ this.tape_len ∧
      this.tape_len ≤ this.tape_len + 2
    omega

/-- One step keeps the head inside the allocated tape, never shortens the tape and
lengthens it by at most two cells. -/
theorem tmUpdate_tape_len (this : TuringMachineT) (h : tmTapeIndex this < this.tape_len) :
    tmTapeIndex (tmUpdate this).1 < (tmUpdate this).1.tape_len ∧
    this.tape_len ≤ (tmUpdate this).1.tape_len ∧
    (tmUpdate this).1.tape_len ≤ this.tape_len + 2 := by
  have h1 : tmTapeIndex (tmTapeFrameSet this (currentEntry this).write) <
      (tmTapeFrameSet this (currentEntry this).write).tape_len := by
    rw [tmTapeIndex_congr (tmTapeFrameSet this (currentEntry this).write) this rfl]
    exact h
  have hm := tmTapeMove_tape_len _ (currentEntry this).move h1
  rw [tmUpdate_fst]
  exact hm

theorem tmUpdateIter_head_in_tape (this : TuringMachineT)
    (h : tmTapeIndex this < this.tape_len) (j : Nat) :
    tmTapeIndex (tmUpdateIter j this) < (tmUpdateIter j this).tape_len := by
  induction j with
  | zero => exact h
  | succ j ih => exact (tmUpdate_tape_len _ ih).1

theorem rightRunner_wellFormed : WellFormed rightRunner := by
  refine ⟨?_, by decide, ?_, by decide⟩
  · intro s i _ hs _ hi
    have e : rightRunner.table s i = { write := 0, move := Move.MOVE_RIGHT, next := 0 } := rfl
    have e1 : rightRunner.charset_max = 0 := rfl
    have e2 : rightRunner.num_states = 1 := rfl
    rw [e, e1, e2]
    decide
  · intro i h0 h1
    have e1 : rightRunner.tape_len = 1 := by decide
    have e2 : rightRunner.charset_max = 0 := rfl
    rw [e1] at h1
    have e3 : i = 0 := by omega
    subst e3
    rw [e2]
    decide

/-- **C4, counterexample.** A well-formed machine whose tape (1 cell) is within the bound
`tape_len_max = 2` when `tmSimulate` is called: the run returns -2 with a tape of 3 cells,
strictly longer than the bound. -/
theorem tmSimulate_tape_exceeds_bound :
    WellFormed rightRunner ∧ rightRunner.tape_len ≤ 2 ∧
    (tmSimulate rightRunner 100 2).2 = -2 ∧
    (tmSimulate rightRunner 100 2).1.tape_len = 3 ∧
    ¬ ((tmSimulate rightRunner 100 2).1.tape_len ≤ 2) :=
  ⟨rightRunner_wellFormed, by decide, by decide, by decide, by decide⟩

/-- **C4, amended.** The tape grows past the configured bound by at most one cell: for
every well-formed machine whose `tape_len` is at most `tape_len_max` when `tmSimulate` is
called, `tape_len ≤ tape_len_max + 1` holds after every step of the run and when
`tmSimulate` returns; whenever `tmSimulate` returns -2 the final `tape_len` is at least
`tape_len_max` and at most `tape_len_max + 1`. -/
theorem tmSimulate_tape_len_le (this : TuringMachineT) (max_iters tape_len_max : Int)
    (hwf : WellFormed this) (hlen : this.tape_len ≤ tape_len_max) :
    (∀ j : Nat, j ≤ tmSimulateIters this max_iters tape_len_max →
      (tmUpdateIter j this).tape_len ≤ tape_len_max + 1) ∧
    (tmSimulate this max_iters tape_len_max).1.tape_len ≤ tape_len_max + 1 ∧
    ((tmSimulate this max_iters tape_len_max).2 = -2 →
      tape_len_max ≤ (tmSimulate this max_iters tape_len_max).1.tape_len ∧
      (tmSimulate this max_iters tape_len_max).1.tape_len ≤ tape_len_max + 1) := by
  obtain ⟨heq, hbefore, -, -⟩ := tmSimulate_run this max_iters tape_len_max
  have hfst : (tmSimulate this max_iters tape_len_max).1 =
      tmUpdateIter (tmSimulateIters this max_iters tape_len_max) this := by
    unfold tmSimulate
    simp only [heq]
    split
    · rfl
    · split <;> rfl
  have hall : ∀ j : Nat, j ≤ tmSimulateIters this max_iters tape_len_max →
      (tmUpdateIter j this).tape_len ≤ tape_len_max + 1 := by
    intro j hj
    cases j with
    | zero =>
      show this.tape_len ≤ tape_len_max + 1
      omega
    | succ j =>
      have hb := (hbefore j (by omega)).2.2
      have hg := (tmUpdate_tape_len _ (tmUpdateIter_head_in_tape this hwf.2.2.2 j)).2.2
      show (tmUpdate (tmUpdateIter j this)).1.tape_len ≤ tape_len_max + 1
      omega
  refine ⟨hall, ?_, ?_⟩
  · rw [hfst]
    exact hall _ (le_refl _)
  · intro hret
    refine ⟨?_, ?_⟩
    · by_contra hcon
      unfold tmSimulate at hret hcon
      simp only [heq] at hret hcon
      split at hret
      · rename_i hs
        split at hcon
        · have hk : (0 : Int) ≤ (tmSimulateIters this max_iters tape_len_max : Int) :=
            Int.ofNat_nonneg _
          simp only at hret
          omega
        · exact absurd hs (by assumption)
      · rename_i hs
        rw [if_neg hs] at hcon
        split at hret
        · rename_i hl
          rw [if_pos hl] at hcon
          exact hcon hl
        · simp at hret
    · rw [hfst]
      exact hall _ (le_refl _)

theorem tmSimulate_tape_len_le_witness :
    WellFormed rightRunner ∧ rightRunner.tape_len ≤ 2 ∧
    (tmSimulate rightRunner 100 2).1.tape_len ≤ 2 + 1 :=
  ⟨rightRunner_wellFormed, by decide,
    (tmSimulate_tape_len_le rightRunner 100 2 rightRunner_wellFormed (by decide)).2.1⟩

/-! ## Cells in scan order: the table loops as list functions -/

theorem rowCells_length (t : Int → Int → Entry) (si : Int) (n : Nat) :
    ∀ ii : Int, (rowCells t si n ii).length = n := by
  induction n with
  | zero => intro ii; rfl
  | succ n ih => intro ii; simp [rowCells, ih]

theorem tableCells_length (t : Int → Int → Entry) (w n : Nat) :
    ∀ si : Int, (tableCells t w n si).length = n * w := by
  induction n with
  | zero => intro si; simp [tableCells]
  | succ n ih =>
    intro si
    simp [tableCells, ih, rowCells_length]
    ring

theorem mem_rowCells (t : Int → Int → Entry) (si : Int) (e : Entry) (n : Nat) :
    ∀ ii : Int, e ∈ rowCells t si n ii ↔ ∃ i : Int, ii ≤ i ∧ i < ii + n ∧ e = t si i := by
  induction n with
  | zero =>
    intro ii
    simp only [rowCells, List.not_mem_nil, Nat.cast_zero, add_zero, false_iff]
    rintro ⟨i, h1, h2, -⟩
    omega
  | succ n ih =>
    intro ii
    simp only [rowCells, List.mem_cons, ih]
    constructor
    · rintro (h | ⟨i, h1, h2, h3⟩)
      · exact ⟨ii, le_refl _, by push_cast; omega, h⟩
      · exact ⟨i, by omega, by push_cast; omega, h3⟩
    · rintro ⟨i, h1, h2, h3⟩
      by_cases hi : i = ii
      · left
        rw [h3, hi]
      · right
        exact ⟨i, by omega, by push_cast at h2; omega, h3⟩

theorem mem_tableCells (t : Int → Int → Entry) (w : Nat) (e : Entry) (n : Nat) :
    ∀ si : Int, e ∈ tableCells t w n si ↔
      ∃ s i : Int, (si ≤ s ∧ s < si + n) ∧ (0 ≤ i ∧ i < w) ∧ e = t s i := by
  induction n with
  | zero =>
    intro si
    simp only [tableCells, List.not_mem_nil, Nat.cast_zero, add_zero, false_iff]
    rintro ⟨s, i, ⟨h1, h2⟩, -, -⟩
    omega
  | succ n ih =>
    intro si
    simp only [tableCells, List.mem_append, ih, mem_rowCells]
    constructor
    · rintro (⟨i, h1, h2, h3⟩ | ⟨s, i, ⟨h1, h2⟩, hi, h3⟩)
      · exact ⟨si, i, ⟨le_refl _, by push_cast; omega⟩, ⟨h1, by omega⟩, h3⟩
      · exact ⟨s, i, ⟨by omega, by push_cast; omega⟩, hi, h3⟩
    · rintro ⟨s, i, ⟨h1, h2⟩, hi, h3⟩
      by_cases hs : s = si
      · left
        exact ⟨i, hi.1, by omega, by rw [h3, hs]⟩
      · right
        exact ⟨s, i, ⟨by omega, by push_cast at h2; omega⟩, hi, h3⟩

/-- The cells of the scan are exactly the cells `table[s][i]` with `0 ≤ s < num_states`
and `0 ≤ i ≤ charset_max`. -/
theorem mem_scanCells (this : TuringMachineT) (e : Entry) :
    e ∈ scanCells this ↔
      ∃ s i : Int, (0 ≤ s ∧ s < this.num_states) ∧ (0 ≤ i ∧ i ≤ this.charset_max) ∧
        e = this.table s i := by
  unfold scanCells
  rw [mem_tableCells]
  constructor
  · rintro ⟨s, i, ⟨h1, h2⟩, ⟨h3, h4⟩, h5⟩
    exact ⟨s, i, ⟨h1, by omega⟩, ⟨h3, by omega⟩, h5⟩
  · rintro ⟨s, i, ⟨h1, h2⟩, ⟨h3, h4⟩, h5⟩
    exact ⟨s, i, ⟨h1, by omega⟩, ⟨h3, by omega⟩, h5⟩

theorem rowCells_congr (t1 t2 : Int → Int → Entry) (si : Int) (n : Nat) :
    ∀ ii : Int, (∀ i : Int, ii ≤ i → i < ii + n → t1 si i = t2 si i) →
      rowCells t1 si n ii = rowCells t2 si n ii := by
  induction n with
  | zero => intro ii _; rfl
  | succ n ih =>
    intro ii h
    simp only [rowCells]
    rw [h ii (le_refl _) (by push_cast; omega), ih (ii + 1)]
    intro i h1 h2
    exact h i (by omega) (by push_cast; omega)

theorem tableCells_congr (t1 t2 : Int → Int → Entry) (w n : Nat) :
    ∀ si : Int, (∀ s i : Int, si ≤ s → s < si + n → t1 s i = t2 s i) →
      tableCells t1 w n si = tableCells t2 w n si := by
  induction n with
  | zero => intro si _; rfl
  | succ n ih =>
    intro si h
    simp only [tableCells]
    rw [rowCells_congr t1 t2 si w 0 (fun i _ _ => h si i (le_refl _) (by push_cast; omega)),
      ih (si + 1)]
    intro s i h1 h2
    exact h s i (by omega) (by push_cast; omega)

theorem nextCells_append (cm ns : Int) (a b : List Entry) :
    nextCells cm ns (a ++ b) =
      if (nextCells cm ns a).2 then ((nextCells cm ns a).1 ++ b, true)
      else ((nextCells cm ns a).1 ++ (nextCells cm ns b).1, (nextCells cm ns b).2) := by
  induction a with
  | nil => simp [nextCells]
  | cons e es ih =>
    simp only [List.cons_append, nextCells]
    by_cases h : (tmTableNextEntry cm ns e).2 = true
    · simp [h]
    · have ih2 : nextCells cm ns (List.append es b) = _ := ih
      rw [if_neg h, if_neg h, ih2]
      by_cases h2 : (nextCells cm ns es).2 = true
      · simp [h2]
      · simp [h2]

theorem tmTableNextRow_spec (si : Int) (n : Nat) :
    ∀ (ii : Int) (this : TuringMachineT),
      SameShape (tmTableNextRow si n ii this).1 this ∧
      (∀ s i : Int, ¬ (s = si ∧ ii ≤ i ∧ i < ii + n) →
        (tmTableNextRow si n ii this).1.table s i = this.table s i) ∧
      rowCells (tmTableNextRow si n ii this).1.table si n ii =
        (nextCells this.charset_max this.num_states (rowCells this.table si n ii)).1 ∧
      (tmTableNextRow si n ii this).2 =
        (nextCells this.charset_max this.num_states (rowCells this.table si n ii)).2 := by
  induction n with
  | zero =>
    intro ii this
    exact ⟨⟨rfl, rfl, rfl, rfl, rfl, rfl⟩, fun _ _ _ => rfl, rfl, rfl⟩
  | succ n ih =>
    intro ii this
    have hset : ∀ e : Entry, rowCells (setEntry this si ii e).table si n (ii + 1) =
        rowCells this.table si n (ii + 1) := by
      intro e
      apply rowCells_congr
      intro i h1 h2
      show (if si = si ∧ i = ii then e else this.table si i) = this.table si i
      rw [if_neg (by omega)]
    by_cases h : (tmTableNextEntry this.charset_max this.num_states (this.table si ii)).2 = true
    · simp only [tmTableNextRow, rowCells, nextCells, h, if_true]
      refine ⟨⟨rfl, rfl, rfl, rfl, rfl, rfl⟩, ?_, ?_, trivial⟩
      · intro s i hne
        show (if s = si ∧ i = ii then _ else this.table s i) = this.table s i
        rw [if_neg]
        rintro ⟨h1, h2⟩
        exact hne ⟨h1, by omega, by push_cast; omega⟩
      · rw [hset]
        simp [setEntry]
    · obtain ⟨hs, hframe, hcells, hflag⟩ := ih (ii + 1)
        (setEntry this si ii
          (tmTableNextEntry this.charset_max this.num_states (this.table si ii)).1)
      simp only [tmTableNextRow, rowCells, nextCells, h, if_false, Bool.false_eq_true]
      refine ⟨hs, ?_, ?_, ?_⟩
      · intro s i hne
        rw [hframe s i (by rintro ⟨h1, h2, h3⟩; exact hne ⟨h1, by omega, by push_cast; omega⟩)]
        show (if s = si ∧ i = ii then _ else this.table s i) = this.table s i
        rw [if_neg]
        rintro ⟨h1, h2⟩
        exact hne ⟨h1, by omega, by push_cast; omega⟩
      · rw [hcells, hset]
        congr 1
        rw [hframe si ii (by omega)]
        simp [setEntry]
      · rw [hflag, hset]
        rfl

theorem tmTableNextLoop_spec (n : Nat) :
    ∀ (si : Int) (this : TuringMachineT),
      SameShape (tmTableNextLoop n si this).1 this ∧
      (∀ s i : Int,
        ¬ ((si ≤ s ∧ s < si + n) ∧ (0 ≤ i ∧ i < ((this.charset_max + 1).toNat : Int))) →
        (tmTableNextLoop n si this).1.table s i = this.table s i) ∧
      tableCells (tmTableNextLoop n si this).1.table (this.charset_max + 1).toNat n si =
        (nextCells this.charset_max this.num_states
          (tableCells this.table (this.charset_max + 1).toNat n si)).1 ∧
      (tmTableNextLoop n si this).2 =
        (nextCells this.charset_max this.num_states
          (tableCells this.table (this.charset_max + 1).toNat n si)).2 := by
  induction n with
  | zero =>
    intro si this
    exact ⟨⟨rfl, rfl, rfl, rfl, rfl, rfl⟩, fun _ _ _ => rfl, rfl, rfl⟩
  | succ n ih =>
    intro si this
    obtain ⟨hs0, hframe0, hcells0, hflag0⟩ :=
      tmTableNextRow_spec si (this.charset_max + 1).toNat 0 this
    have hrest : tableCells (tmTableNextRow si (this.charset_max + 1).toNat 0 this).1.table
        (this.charset_max + 1).toNat n (si + 1) =
        tableCells this.table (this.charset_max + 1).toNat n (si + 1) := by
      apply tableCells_congr
      intro s i h1 h2
      exact hframe0 s i (by omega)
    by_cases h : (tmTableNextRow si (this.charset_max + 1).toNat 0 this).2 = true
    · have hn : (nextCells this.charset_max this.num_states
          (rowCells this.table si (this.charset_max + 1).toNat 0)).2 = true := by
        rw [← hflag0]
        exact h
      simp only [tmTableNextLoop, h, if_true, tableCells]
      rw [nextCells_append, if_pos hn]
      refine ⟨hs0, ?_, ?_, rfl⟩
      · intro s i hne
        apply hframe0
        rintro ⟨h1, h2, h3⟩
        exact hne ⟨⟨by omega, by push_cast; omega⟩, ⟨h2, by omega⟩⟩
      · rw [hcells0, hrest]
    · have hn : ¬ (nextCells this.charset_max this.num_states
          (rowCells this.table si (this.charset_max + 1).toNat 0)).2 = true := by
        rw [← hflag0]
        exact h
      obtain ⟨hs1, hframe1, hcells1, hflag1⟩ :=
        ih (si + 1) (tmTableNextRow si (this.charset_max + 1).toNat 0 this).1
      rw [hs0.1, hs0.2.1, hrest] at hcells1 hflag1
      rw [hs0.1] at hframe1
      simp only [tmTableNextLoop, h, if_false, Bool.false_eq_true, tableCells]
      rw [nextCells_append, if_neg hn]
      refine ⟨⟨hs1.1.trans hs0.1, hs1.2.1.trans hs0.2.1, hs1.2.2.1.trans hs0.2.2.1,
        hs1.2.2.2.1.trans hs0.2.2.2.1, hs1.2.2.2.2.1.trans hs0.2.2.2.2.1,
        hs1.2.2.2.2.2.trans hs0.2.2.2.2.2⟩, ?_, ?_, hflag1⟩
      · intro s i hne
        rw [hframe1 s i (by
          rintro ⟨⟨h1, h2⟩, h3⟩
          exact hne ⟨⟨by omega, by push_cast; omega⟩, h3⟩)]
        apply hframe0
        rintro ⟨h1, h2, h3⟩
        exact hne ⟨⟨by omega, by push_cast; omega⟩, ⟨h2, by omega⟩⟩
      · rw [hcells1]
        congr 1
        rw [← hcells0]
        apply rowCells_congr
        intro i h1 h2
        apply hframe1
        omega

/-- `tmTableNext` acts on the cells in scan order as `nextCells`, changes no cell outside
the table shape and no other field of the machine. -/
theorem tmTableNext_spec (this : TuringMachineT) :
    SameShape (tmTableNext this).1 this ∧
    (∀ s i : Int, ¬ ((0 ≤ s ∧ s < this.num_states) ∧ (0 ≤ i ∧ i ≤ this.charset_max)) →
      (tmTableNext this).1.table s i = this.table s i) ∧
    scanCells (tmTableNext this).1 =
      (nextCells this.charset_max this.num_states (scanCells this)).1 ∧
    (tmTableNext this).2 =
      if (nextCells this.charset_max this.num_states (scanCells this)).2 then 0 else 1 := by
  obtain ⟨hs, hframe, hcells, hflag⟩ := tmTableNextLoop_spec this.num_states.toNat 0 this
  refine ⟨hs, ?_, ?_, ?_⟩
  · intro s i hne
    apply hframe
    rintro ⟨⟨h1, h2⟩, h3, h4⟩
    exact hne ⟨⟨h1, by omega⟩, ⟨h3, by omega⟩⟩
  · unfold scanCells
    show tableCells (tmTableNextLoop this.num_states.toNat 0 this).1.table
      ((tmTableNextLoop this.num_states.toNat 0 this).1.charset_max + 1).toNat
      (tmTableNextLoop this.num_states.toNat 0 this).1.num_states.toNat 0 = _
    rw [hs.1, hs.2.1, hcells]
  · show (if (tmTableNextLoop this.num_states.toNat 0 this).2 = true then (0 : Int) else 1) = _
    rw [hflag]
    rfl

/-! ## The successor on cells -/

theorem tmTableNextEntry_flag (cm ns : Int) (e : Entry) :
    (tmTableNextEntry cm ns e).2 = false ↔ e = maxEntry cm ns := by
  obtain ⟨w, m, n⟩ := e
  unfold tmTableNextEntry maxEntry
  by_cases h1 : w = cm
  · by_cases h2 : n = ns - 1
    · cases m <;> simp [h1, h2]
    · simp [h1, h2]
  · simp [h1]

theorem tmTableNextEntry_max (cm ns : Int) :
    (tmTableNextEntry cm ns (maxEntry cm ns)).1 = zeroEntry := by
  simp [tmTableNextEntry, maxEntry, zeroEntry]

theorem wrapChar_eq (x : Int) (h1 : -128 ≤ x) (h2 : x ≤ 127) : wrapChar x = x := by
  unfold wrapChar
  omega

/-- On a cell with `0 ≤ write ≤ charset_max ≤ 127` and `next ≤ num_states - 1` that is not
the maximal cell, the loop body of `tmTableNext` advances the cell as specified. -/
theorem tmTableNextEntry_advance (cm ns : Int) (e : Entry) (hne : e ≠ maxEntry cm ns)
    (hw0 : 0 ≤ e.write) (hw : e.write ≤ cm) (hn : e.next ≤ ns - 1) (hcm : cm ≤ 127) :
    (tmTableNextEntry cm ns e).1 = advanceEntry cm ns e := by
  obtain ⟨w, m, n⟩ := e
  simp only at hw0 hw hn
  unfold tmTableNextEntry advanceEntry
  by_cases h1 : w = cm
  · have h1b : ¬ (w < cm) := by omega
    by_cases h2 : n = ns - 1
    · have h2b : ¬ (n < ns - 1) := by omega
      cases m
      · simp [h1, h2]
      · simp [h1, h2]
      · exact absurd (by simp [maxEntry, h1, h2]) hne
    · have h2b : n < ns - 1 := by omega
      simp [h1, h2, h2b]
  · have h1b : w < cm := by omega
    simp only [h1, if_false, h1b, if_true]
    rw [wrapChar_eq _ (by omega) (by omega)]

theorem nextCells_all_max (cm ns : Int) (l : List Entry)
    (h : ∀ x ∈ l, x = maxEntry cm ns) :
    nextCells cm ns l = (List.replicate l.length zeroEntry, false) := by
  induction l with
  | nil => rfl
  | cons e es ih =>
    have he : e = maxEntry cm ns := h e (List.mem_cons_self _ _)
    have hf := (tmTableNextEntry_flag cm ns e).2 he
    simp only [nextCells, hf, Bool.false_eq_true, if_false,
      ih (fun x hx => h x (List.mem_cons_of_mem _ hx))]
    rw [he, tmTableNextEntry_max]
    rfl

theorem nextCells_flag (cm ns : Int) (l : List Entry) :
    (nextCells cm ns l).2 = false ↔ ∀ x ∈ l, x = maxEntry cm ns := by
  induction l with
  | nil => simp [nextCells]
  | cons e es ih =>
    by_cases hf : (tmTableNextEntry cm ns e).2 = true
    · have hne : ¬ e = maxEntry cm ns := by
        intro he
        rw [(tmTableNextEntry_flag cm ns e).2 he] at hf
        exact Bool.false_ne_true hf
      simp only [nextCells, hf, if_true, List.mem_cons, forall_eq_or_imp]
      constructor
      · intro h
        exact absurd h (by decide)
      · intro h
        exact absurd h.1 hne
    · have hf2 : (tmTableNextEntry cm ns e).2 = false := by
        simpa using hf
      have he := (tmTableNextEntry_flag cm ns e).1 hf2
      have e1 : (nextCells cm ns (e :: es)).2 = (nextCells cm ns es).2 := by
        simp only [nextCells, hf2, Bool.false_eq_true, if_false]
      rw [e1, ih]
      simp only [List.mem_cons, forall_eq_or_imp]
      exact ⟨fun h => ⟨he, h⟩, fun h => h.2⟩

theorem nextCells_first (cm ns : Int) (pre post : List Entry) (e : Entry)
    (hpre : ∀ x ∈ pre, x = maxEntry cm ns) (he : e ≠ maxEntry cm ns) :
    nextCells cm ns (pre ++ e :: post) =
      (List.replicate pre.length zeroEntry ++ (tmTableNextEntry cm ns e).1 :: post, true) := by
  have hf : (tmTableNextEntry cm ns e).2 = true := by
    by_contra hcon
    exact he ((tmTableNextEntry_flag cm ns e).1 (by simpa using hcon))
  rw [nextCells_append, nextCells_all_max cm ns pre hpre]
  simp [nextCells, hf]

/-- On cells of the data model `tmTableNext` is the lexicographic successor with carry.
When the cells in scan order (state-major, symbol-minor) are `pre ++ e :: post`, every cell of `pre` being
`(write = charset_max, next = num_states - 1, move = Stop)` and `e` the first cell not of
that form, then after the call every cell of `pre` is `(0, 0, Left)`, `e` is advanced once
(`advanceEntry`) and every cell of `post` is unchanged, and the call returns 0.  The cell
`e` is a cell of the data model: `0 ≤ write ≤ charset_max`, `next ≤ num_states - 1`, and
`charset_max` is a `signed char`. -/
theorem tmTableNext_successor (this : TuringMachineT) (pre post : List Entry) (e : Entry)
    (hscan : scanCells this = pre ++ e :: post)
    (hpre : ∀ x ∈ pre, x = maxEntry this.charset_max this.num_states)
    (he : e ≠ maxEntry this.charset_max this.num_states)
    (hw0 : 0 ≤ e.write) (hw : e.write ≤ this.charset_max)
    (hn : e.next ≤ this.num_states - 1) (hcm : this.charset_max ≤ 127) :
    scanCells (tmTableNext this).1 =
      List.replicate pre.length zeroEntry ++
        advanceEntry this.charset_max this.num_states e :: post ∧
    (tmTableNext this).2 = 0 := by
  obtain ⟨-, -, hcells, hflag⟩ := tmTableNext_spec this
  rw [hcells, hflag, hscan, nextCells_first _ _ pre post e hpre he,
    tmTableNextEntry_advance _ _ e he hw0 hw hn hcm]
  exact ⟨rfl, rfl⟩

theorem tmTableNext_successor_witness :
    scanCells classicZero = [] ++ zeroEntry :: List.replicate 9 zeroEntry ∧
    scanCells (tmTableNext classicZero).1 =
      List.replicate 0 zeroEntry ++ advanceEntry 1 5 zeroEntry :: List.replicate 9 zeroEntry ∧
    (tmTableNext classicZero).2 = 0 :=
  ⟨rfl, tmTableNext_successor classicZero [] (List.replicate 9 zeroEntry) zeroEntry rfl
    (fun _ hx => absurd hx (List.not_mem_nil _)) (by decide) (by decide) (by decide)
    (by decide) (by decide)⟩

/-- **C8, failing input.** On the shape with one state and the single symbol 0
(`charset_max = 0`) the third table of the enumeration from the all-zero table consists of
the cell `(write 1, STOP, next 0)`.  The cell is not of the form `(write = charset_max,
next = num_states - 1, move = Stop)`, so it is the first cell to advance, and its `write`
is not below `charset_max`, so the rule does not raise `write`.  `tmTableNext` executes
`write ++` on it: it returns 0 and leaves the cell `(write 2, STOP, next 0)`, which is not
the advanced cell of the rule and whose `write` no clause of the rule produces. -/
theorem tmTableNext_successor_broken :
    (tmTableNextIter 2 (machineOf 1 0 zeroTable)).num_states = 1 ∧
    (tmTableNextIter 2 (machineOf 1 0 zeroTable)).charset_max = 0 ∧
    scanCells (tmTableNextIter 2 (machineOf 1 0 zeroTable)) =
      [{ write := 1, move := Move.STOP, next := 0 }] ∧
    ({ write := 1, move := Move.STOP, next := 0 } : Entry) ≠ maxEntry 0 1 ∧
    ¬ ((tmTableNextIter 2 (machineOf 1 0 zeroTable)).table 0 0).write <
      (tmTableNextIter 2 (machineOf 1 0 zeroTable)).charset_max ∧
    (tmTableNext (tmTableNextIter 2 (machineOf 1 0 zeroTable))).2 = 0 ∧
    scanCells (tmTableNext (tmTableNextIter 2 (machineOf 1 0 zeroTable))).1 =
      [{ write := 2, move := Move.STOP, next := 0 }] ∧
    scanCells (tmTableNext (tmTableNextIter 2 (machineOf 1 0 zeroTable))).1 ≠
      [advanceEntry 0 1 { write := 1, move := Move.STOP, next := 0 }] := by
  refine ⟨rfl, rfl, ?_, ?_, ?_, ?_, ?_, ?_⟩
  · decide
  · decide
  · decide
  · decide
  · decide
  · decide

/-- **C9.** `tmTableNext` returns 1 if and only if the whole table wrapped, that is every
cell `table[s][i]` with `0 ≤ s < num_states`, `0 ≤ i ≤ charset_max` was
`(write = charset_max, next = num_states - 1, move = Stop)` before the call; in that case
every cell of the table after the call is `(write 0, next 0, move Left)`.  In every other
case it returns 0. -/
theorem tmTableNext_wrap (this : TuringMachineT) :
    ((tmTableNext this).2 = 1 ↔
      ∀ s i : Int, 0 ≤ s → s < this.num_states → 0 ≤ i → i ≤ this.charset_max →
        this.table s i = maxEntry this.charset_max this.num_states) ∧
    ((tmTableNext this).2 = 1 →
      ∀ s i : Int, 0 ≤ s → s < this.num_states → 0 ≤ i → i ≤ this.charset_max →
        (tmTableNext this).1.table s i = zeroEntry) ∧
    ((tmTableNext this).2 ≠ 1 → (tmTableNext this).2 = 0) := by
  obtain ⟨hs, -, hcells, hflag⟩ := tmTableNext_spec this
  have hall : (∀ x ∈ scanCells this, x = maxEntry this.charset_max this.num_states) ↔
      ∀ s i : Int, 0 ≤ s → s < this.num_states → 0 ≤ i → i ≤ this.charset_max →
        this.table s i = maxEntry this.charset_max this.num_states := by
    constructor
    · intro h s i h1 h2 h3 h4
      exact h _ ((mem_scanCells this _).2 ⟨s, i, ⟨h1, h2⟩, ⟨h3, h4⟩, rfl⟩)
    · intro h x hx
      obtain ⟨s, i, ⟨h1, h2⟩, ⟨h3, h4⟩, rfl⟩ := (mem_scanCells this x).1 hx
      exact h s i h1 h2 h3 h4
  have hret : (tmTableNext this).2 = 1 ↔
      (nextCells this.charset_max this.num_states (scanCells this)).2 = false := by
    rw [hflag]
    by_cases hb : (nextCells this.charset_max this.num_states (scanCells this)).2 = true
    · simp [hb]
    · simp [hb]
  refine ⟨?_, ?_, ?_⟩
  · rw [hret, nextCells_flag, hall]
  · intro h1 s i hs0 hs1 hi0 hi1
    have hmax := (nextCells_flag _ _ _).1 (hret.1 h1)
    rw [nextCells_all_max _ _ _ hmax] at hcells
    have hmem : (tmTableNext this).1.table s i ∈ scanCells (tmTableNext this).1 :=
      (mem_scanCells _ _).2 ⟨s, i, ⟨hs0, by rw [hs.2.1]; exact hs1⟩,
        ⟨hi0, by rw [hs.1]; exact hi1⟩, rfl⟩
    rw [hcells] at hmem
    exact (List.mem_replicate.1 hmem).2
  · intro h
    rw [hflag] at h ⊢
    by_cases hb : (nextCells this.charset_max this.num_states (scanCells this)).2 = true
    · simp [hb]
    · simp [hb] at h

/-! ## The table index on cells -/

theorem indexCells_append (cm ns : Int) (a b : List Entry) :
    indexCells cm ns (a ++ b) = indexCells cm ns a + 21 ^ a.length * indexCells cm ns b := by
  induction a with
  | nil => simp [indexCells]
  | cons e es ih =>
    have ih2 : indexCells cm ns (List.append es b) = _ := ih
    simp only [List.cons_append, indexCells, List.length_cons, ih2, pow_succ]
    ring

theorem indexCellsAcc_append (cm ns : Int) (a b : List Entry) :
    ∀ acc : Int × Int,
      indexCellsAcc cm ns (a ++ b) acc = indexCellsAcc cm ns b (indexCellsAcc cm ns a acc) := by
  induction a with
  | nil =>
    intro acc
    rfl
  | cons e es ih =>
    intro acc
    exact ih _

theorem tmTableIndexRow_spec (this : TuringMachineT) (si : Int) (n : Nat) :
    ∀ (ii : Int) (acc : Int × Int),
      tmTableIndexRow this si n ii acc =
        indexCellsAcc this.charset_max this.num_states (rowCells this.table si n ii) acc := by
  induction n with
  | zero =>
    intro ii acc
    rfl
  | succ n ih =>
    intro ii acc
    exact ih _ _

theorem tmTableIndexLoop_spec (this : TuringMachineT) (n : Nat) :
    ∀ (si : Int) (acc : Int × Int),
      tmTableIndexLoop this n si acc =
        indexCellsAcc this.charset_max this.num_states
          (tableCells this.table (this.charset_max + 1).toNat n si) acc := by
  induction n with
  | zero =>
    intro si acc
    rfl
  | succ n ih =>
    intro si acc
    simp only [tmTableIndexLoop, tableCells, indexCellsAcc_append, tmTableIndexRow_spec, ih]

/-- `tmTableIndex` is the accumulation in `int64_t` over the cells in scan order. -/
theorem tmTableIndex_eq_indexCellsAcc (this : TuringMachineT) :
    tmTableIndex this =
      (indexCellsAcc this.charset_max this.num_states (scanCells this) (0, 1)).1 := by
  unfold tmTableIndex scanCells
  rw [tmTableIndexLoop_spec]

theorem wrapInt64_eq (x : Int) (h0 : 0 ≤ x) (h1 : x ≤ INT64_MAX) : wrapInt64 x = x := by
  unfold wrapInt64
  unfold INT64_MAX at h1
  omega

/-- While the values stay inside `int64_t` the accumulation is the mixed-radix value:
from `ti` and `p21 = 21 ^ k` with `20 * ti ≤ B * (21 ^ k - 1)`, on cells with digits in
`[0, B]`. -/
theorem indexCellsAcc_fits (cm ns B : Int) (hB0 : 0 ≤ B) :
    ∀ (l : List Entry) (k : Nat) (ti : Int),
      (∀ e ∈ l, 0 ≤ tmTableIndexDigit cm ns e ∧ tmTableIndexDigit cm ns e ≤ B) →
      0 ≤ ti → 20 * ti ≤ B * (21 ^ k - 1) →
      (21 : Int) ^ (k + l.length) ≤ INT64_MAX →
      B * 21 ^ (k + l.length) ≤ 20 * INT64_MAX →
      indexCellsAcc cm ns l (ti, 21 ^ k) =
        (ti + 21 ^ k * indexCells cm ns l, 21 ^ (k + l.length)) := by
  intro l
  induction l with
  | nil =>
    intro k ti _ _ _ _ _
    simp [indexCellsAcc, indexCells]
  | cons e es ih =>
    intro k ti hd hti hinv hpow hBpow
    obtain ⟨hd0, hdB⟩ := hd e (List.mem_cons_self _ _)
    have hes : ∀ x ∈ es, 0 ≤ tmTableIndexDigit cm ns x ∧ tmTableIndexDigit cm ns x ≤ B :=
      fun x hx => hd x (List.mem_cons_of_mem _ hx)
    have hlen : k + (e :: es).length = (k + 1) + es.length := by
      simp only [List.length_cons]
      omega
    rw [hlen] at hpow hBpow
    have hp1 : (1 : Int) ≤ 21 ^ k := one_le_pow₀ (by norm_num)
    have hq1 : (1 : Int) ≤ 21 ^ es.length := one_le_pow₀ (by norm_num)
    have hQ : (21 : Int) ^ (k + 1 + es.length) = 21 * 21 ^ k * 21 ^ es.length := by
      rw [pow_add, pow_succ]
      ring
    have h21p : 21 * (21 : Int) ^ k ≤ 21 ^ (k + 1 + es.length) := by
      rw [hQ]
      nlinarith
    have hBp : B * (21 * (21 : Int) ^ k) ≤ B * 21 ^ (k + 1 + es.length) :=
      mul_le_mul_of_nonneg_left h21p hB0
    have hpd : (21 : Int) ^ k * tmTableIndexDigit cm ns e ≤ 21 ^ k * B :=
      mul_le_mul_of_nonneg_left hdB (by omega)
    have hpd0 : 0 ≤ (21 : Int) ^ k * tmTableIndexDigit cm ns e :=
      mul_nonneg (by omega) hd0
    have hinv2 : 20 * (ti + 21 ^ k * tmTableIndexDigit cm ns e) ≤ B * (21 ^ (k + 1) - 1) := by
      rw [pow_succ]
      nlinarith
    have e1 : wrapInt64 ((21 : Int) ^ k * tmTableIndexDigit cm ns e) =
        21 ^ k * tmTableIndexDigit cm ns e :=
      wrapInt64_eq _ hpd0 (by unfold INT64_MAX at *; nlinarith)
    have e2 : wrapInt64 (ti + (21 : Int) ^ k * tmTableIndexDigit cm ns e) =
        ti + 21 ^ k * tmTableIndexDigit cm ns e :=
      wrapInt64_eq _ (by omega) (by unfold INT64_MAX at *; nlinarith)
    have e3 : wrapInt64 ((21 : Int) ^ k * 21) = 21 ^ (k + 1) := by
      rw [pow_succ]
      exact wrapInt64_eq _ (by omega) (by omega)
    simp only [indexCellsAcc, e1, e2, e3]
    rw [ih (k + 1) _ hes (by omega) hinv2 hpow hBpow, hlen]
    simp only [indexCells, pow_succ]
    refine Prod.ext ?_ rfl
    simp only
    ring

/-- Where the accumulation stays inside `int64_t`, `tmTableIndex` is the mixed-radix value
of the cells in scan order. -/
theorem tmTableIndex_eq_indexCells (this : TuringMachineT) (hfit : IndexFits this) :
    tmTableIndex this = indexCells this.charset_max this.num_states (scanCells this) := by
  obtain ⟨B, hB0, hd, hpow, hBpow⟩ := hfit
  rw [tmTableIndex_eq_indexCellsAcc]
  have h := indexCellsAcc_fits this.charset_max this.num_states B hB0 (scanCells this) 0 0 hd
    (le_refl 0) (by simp) (by rw [Nat.zero_add]; exact hpow) (by rw [Nat.zero_add]; exact hBpow)
  rw [pow_zero] at h
  rw [h]
  simp

theorem scanCells_length (this : TuringMachineT) :
    (scanCells this).length = this.num_states.toNat * (this.charset_max + 1).toNat := by
  unfold scanCells
  rw [tableCells_length]

/-- A table of at most 14 cells whose digits lie in `[0, 20]` fits. -/
theorem indexFits_of_digits (this : TuringMachineT)
    (hd : ∀ e ∈ scanCells this, 0 ≤ tmTableIndexDigit this.charset_max this.num_states e ∧
      tmTableIndexDigit this.charset_max this.num_states e ≤ 20)
    (hlen : (scanCells this).length ≤ 14) : IndexFits this := by
  have hpow : (21 : Int) ^ (scanCells this).length ≤ 21 ^ 14 :=
    pow_le_pow_right₀ (by norm_num) hlen
  refine ⟨20, by norm_num, hd, ?_, ?_⟩
  · unfold INT64_MAX
    omega
  · unfold INT64_MAX
    omega

/-! ## The classical shape: 5 states, 2 symbols -/

theorem classicCell_zero : ClassicCell zeroEntry := by
  unfold ClassicCell zeroEntry
  simp

theorem classicCell_digit (e : Entry) (h : ClassicCell e) :
    0 ≤ tmTableIndexDigit 1 5 e ∧ tmTableIndexDigit 1 5 e ≤ 20 := by
  obtain ⟨w, m, n⟩ := e
  obtain ⟨hw, ⟨hn0, hn4⟩, -⟩ := h
  simp only at hw hn0 hn4
  unfold tmTableIndexDigit
  cases m <;> simp [Move.toInt] <;> omega

theorem classicCells_fits (this : TuringMachineT) (hcm : this.charset_max = 1)
    (hns : this.num_states = 5) (hcl : ∀ e ∈ scanCells this, ClassicCell e) :
    IndexFits this := by
  apply indexFits_of_digits
  · intro e he
    rw [hcm, hns]
    exact classicCell_digit e (hcl e he)
  · rw [scanCells_length, hcm, hns]
    decide

theorem classicCell_next (e : Entry) (h : ClassicCell e) :
    ((tmTableNextEntry 1 5 e).2 = true →
      ClassicCell (tmTableNextEntry 1 5 e).1 ∧
      tmTableIndexDigit 1 5 (tmTableNextEntry 1 5 e).1 = tmTableIndexDigit 1 5 e + 1) ∧
    ((tmTableNextEntry 1 5 e).2 = false →
      (tmTableNextEntry 1 5 e).1 = zeroEntry ∧ tmTableIndexDigit 1 5 e = 20) := by
  obtain ⟨w, m, n⟩ := e
  obtain ⟨hw, ⟨hn0, hn4⟩, hstop⟩ := h
  simp only at hw hn0 hn4 hstop
  have hwrap : wrapChar 1 = 1 := by decide
  rcases hw with hw | hw
  · subst hw
    have hm : m ≠ Move.STOP := by
      intro hm
      have := (hstop hm).1
      omega
    cases m
    · simp [tmTableNextEntry, ClassicCell, tmTableIndexDigit, Move.toInt, hwrap, hn0, hn4]
      ring
    · simp [tmTableNextEntry, ClassicCell, tmTableIndexDigit, Move.toInt, hwrap, hn0, hn4]
      ring
    · exact absurd rfl hm
  · subst hw
    by_cases h4 : n = 4
    · subst h4
      cases m <;>
        simp [tmTableNextEntry, ClassicCell, tmTableIndexDigit, Move.toInt, zeroEntry]
    · have h5 : ¬ (n = 5 - 1) := by omega
      have hm : m ≠ Move.STOP := by
        intro hm
        exact h4 (hstop hm).2
      have hb1 : 0 ≤ n + 1 := by omega
      have hb2 : n + 1 ≤ 4 := by omega
      cases m
      · simp [tmTableNextEntry, ClassicCell, tmTableIndexDigit, Move.toInt, h4]
        omega
      · simp [tmTableNextEntry, ClassicCell, tmTableIndexDigit, Move.toInt, h4]
        omega
      · exact absurd rfl hm

/-- On a list of cells of the classical shape, the successor scan keeps the cells
classical; when it stops at a cell the mixed-radix value grows by one, and when it runs
past the end the value was the largest one and every cell is zero afterwards. -/
theorem classic_nextCells (l : List Entry) (h : ∀ e ∈ l, ClassicCell e) :
    (∀ e ∈ (nextCells 1 5 l).1, ClassicCell e) ∧
    ((nextCells 1 5 l).2 = true →
      indexCells 1 5 (nextCells 1 5 l).1 = indexCells 1 5 l + 1) ∧
    ((nextCells 1 5 l).2 = false →
      indexCells 1 5 l = 21 ^ l.length - 1 ∧
      (nextCells 1 5 l).1 = List.replicate l.length zeroEntry) := by
  induction l with
  | nil =>
    refine ⟨fun e he => absurd he (List.not_mem_nil _), ?_, ?_⟩
    · intro hc
      exact absurd hc (by simp [nextCells])
    · intro _
      simp [nextCells, indexCells]
  | cons e es ih =>
    have he := classicCell_next e (h e (List.mem_cons_self _ _))
    have hes : ∀ x ∈ es, ClassicCell x := fun x hx => h x (List.mem_cons_of_mem _ hx)
    obtain ⟨ih1, ih2, ih3⟩ := ih hes
    by_cases hf : (tmTableNextEntry 1 5 e).2 = true
    · have hn : nextCells 1 5 (e :: es) = ((tmTableNextEntry 1 5 e).1 :: es, true) := by
        simp only [nextCells, hf, if_true]
      rw [hn]
      refine ⟨?_, ?_, ?_⟩
      · intro x hx
        rcases List.mem_cons.1 hx with hx | hx
        · rw [hx]
          exact (he.1 hf).1
        · exact hes x hx
      · intro _
        simp only [indexCells, (he.1 hf).2]
        ring
      · intro hc
        exact absurd hc (by simp)
    · have hf2 : (tmTableNextEntry 1 5 e).2 = false := by simpa using hf
      have hn : nextCells 1 5 (e :: es) =
          ((tmTableNextEntry 1 5 e).1 :: (nextCells 1 5 es).1, (nextCells 1 5 es).2) := by
        simp only [nextCells, hf2, Bool.false_eq_true, if_false]
      rw [hn]
      obtain ⟨hz, hd⟩ := he.2 hf2
      refine ⟨?_, ?_, ?_⟩
      · intro x hx
        rcases List.mem_cons.1 hx with hx | hx
        · rw [hx, hz]
          exact classicCell_zero
        · exact ih1 x hx
      · intro hc
        have e1 : tmTableIndexDigit 1 5 zeroEntry = 0 := by decide
        simp only [indexCells, ih2 hc, hz, hd, e1]
        ring
      · intro hc
        obtain ⟨h1, h2⟩ := ih3 hc
        refine ⟨?_, ?_⟩
        · simp only [indexCells, hd, h1, List.length_cons, pow_succ]
          ring
        · simp only [hz, h2, List.length_cons, List.replicate_succ]

theorem classic_indexCells_bound (l : List Entry) (h : ∀ e ∈ l, ClassicCell e) :
    0 ≤ indexCells 1 5 l ∧ indexCells 1 5 l < 21 ^ l.length := by
  induction l with
  | nil => simp [indexCells]
  | cons e es ih =>
    obtain ⟨h1, h2⟩ := ih (fun x hx => h x (List.mem_cons_of_mem _ hx))
    obtain ⟨d1, d2⟩ := classicCell_digit e (h e (List.mem_cons_self _ _))
    simp only [indexCells, List.length_cons, pow_succ]
    constructor
    · omega
    · omega

theorem eq_of_sameShape (a b : TuringMachineT) (h : SameShape a b) (ht : a.table = b.table) :
    a = b := by
  obtain ⟨h1, h2, h3, h4, h5, h6⟩ := h
  cases a
  cases b
  simp only at h1 h2 h3 h4 h5 h6 ht
  subst h1 h2 h3 h4 h5 h6 ht
  rfl

theorem classicCount_eq : (classicCount : Int) = 21 ^ 10 := by
  unfold classicCount
  norm_num

theorem classicCount_eq_pow : classicCount = 21 ^ 10 := by
  unfold classicCount
  norm_num

theorem classicInv_zero : ClassicInv classicZero := by
  refine ⟨⟨rfl, rfl, rfl, rfl, rfl, rfl⟩, fun _ _ _ => rfl, ?_⟩
  intro e he
  obtain ⟨s, i, -, -, rfl⟩ := (mem_scanCells classicZero e).1 he
  exact classicCell_zero

theorem classicInv_length (this : TuringMachineT) (h : ClassicInv this) :
    (scanCells this).length = 10 := by
  unfold scanCells
  rw [tableCells_length, h.1.1, h.1.2.1]
  rfl

theorem classicInv_index_bound (this : TuringMachineT) (h : ClassicInv this) :
    0 ≤ tmTableIndex this ∧ tmTableIndex this < classicCount := by
  have hb := classic_indexCells_bound (scanCells this) h.2.2
  rw [classicInv_length this h] at hb
  rw [tmTableIndex_eq_indexCells this (classicCells_fits this h.1.1 h.1.2.1 h.2.2),
    h.1.1, h.1.2.1, classicCount_eq]
  exact hb

/-- One call of `tmTableNext` on a table of the enumeration of the classical shape: the
invariant is kept; a call that returns 0 raises `tmTableIndex` by one; a call that
returns 1 starts from the index `21^10 - 1` and yields the all-zero table. -/
theorem classicInv_next (this : TuringMachineT) (h : ClassicInv this) :
    ClassicInv (tmTableNext this).1 ∧
    ((tmTableNext this).2 = 0 ∨ (tmTableNext this).2 = 1) ∧
    ((tmTableNext this).2 = 0 →
      tmTableIndex (tmTableNext this).1 = tmTableIndex this + 1) ∧
    ((tmTableNext this).2 = 1 →
      tmTableIndex this = classicCount - 1 ∧ (tmTableNext this).1 = classicZero) := by
  obtain ⟨hs, hframe, hcells, hflag⟩ := tmTableNext_spec this
  obtain ⟨hshape, hout, hcl⟩ := h
  have hcm : this.charset_max = 1 := hshape.1
  have hns : this.num_states = 5 := hshape.2.1
  rw [hcm, hns] at hcells hflag hframe
  obtain ⟨k1, k2, k3⟩ := classic_nextCells (scanCells this) hcl
  have hlen := classicInv_length this ⟨hshape, hout, hcl⟩
  have hshape2 : SameShape (tmTableNext this).1 classicZero :=
    ⟨hs.1.trans hshape.1, hs.2.1.trans hshape.2.1, hs.2.2.1.trans hshape.2.2.1,
      hs.2.2.2.1.trans hshape.2.2.2.1, hs.2.2.2.2.1.trans hshape.2.2.2.2.1,
      hs.2.2.2.2.2.trans hshape.2.2.2.2.2⟩
  have hout2 : ∀ s i : Int, ¬ ((0 ≤ s ∧ s < 5) ∧ (0 ≤ i ∧ i ≤ 1)) →
      (tmTableNext this).1.table s i = zeroEntry := by
    intro s i hne
    rw [hframe s i hne]
    exact hout s i hne
  have hinv2 : ClassicInv (tmTableNext this).1 := by
    refine ⟨hshape2, hout2, ?_⟩
    rw [hcells]
    exact k1
  have hidx : tmTableIndex this = indexCells 1 5 (scanCells this) := by
    rw [tmTableIndex_eq_indexCells this (classicCells_fits this hcm hns hcl), hcm, hns]
  have hidx2 : tmTableIndex (tmTableNext this).1 =
      indexCells 1 5 (nextCells 1 5 (scanCells this)).1 := by
    rw [tmTableIndex_eq_indexCells _
      (classicCells_fits _ hinv2.1.1 hinv2.1.2.1 hinv2.2.2), hshape2.1, hshape2.2.1, hcells]
    rfl
  refine ⟨hinv2, ?_, ?_, ?_⟩
  · rw [hflag]
    by_cases hb : (nextCells 1 5 (scanCells this)).2 = true
    · left
      simp [hb]
    · right
      simp [hb]
  · intro hret
    have hb : (nextCells 1 5 (scanCells this)).2 = true := by
      by_contra hb
      rw [hflag, if_neg hb] at hret
      exact absurd hret (by decide)
    rw [hidx, hidx2, k2 hb]
  · intro hret
    have hb : (nextCells 1 5 (scanCells this)).2 = false := by
      by_contra hb
      have hb2 : (nextCells 1 5 (scanCells this)).2 = true := by simpa using hb
      rw [hflag, if_pos hb2] at hret
      exact absurd hret (by decide)
    obtain ⟨k4, k5⟩ := k3 hb
    refine ⟨?_, ?_⟩
    · rw [hidx, k4, hlen, classicCount_eq]
    · apply eq_of_sameShape _ _ hshape2
      funext s i
      by_cases hin : (0 ≤ s ∧ s < 5) ∧ (0 ≤ i ∧ i ≤ 1)
      · have hmem : (tmTableNext this).1.table s i ∈ scanCells (tmTableNext this).1 :=
          (mem_scanCells _ _).2 ⟨s, i, ⟨hin.1.1, by rw [hshape2.2.1]; exact hin.1.2⟩,
            ⟨hin.2.1, by rw [hshape2.1]; exact hin.2.2⟩, rfl⟩
        rw [hcells, k5] at hmem
        exact (List.mem_replicate.1 hmem).2
      · exact hout2 s i hin

/-- The `k`-th table of the enumeration of the classical shape has index `k`. -/
theorem classic_iter_index (k : Nat) (hk : k < classicCount) :
    ClassicInv (tmTableNextIter k classicZero) ∧
    tmTableIndex (tmTableNextIter k classicZero) = k := by
  induction k with
  | zero =>
    refine ⟨classicInv_zero, ?_⟩
    show tmTableIndex classicZero = 0
    decide
  | succ k ih =>
    obtain ⟨hinv, hidx⟩ := ih (by omega)
    obtain ⟨h1, h2, h3, h4⟩ := classicInv_next _ hinv
    have hret : (tmTableNext (tmTableNextIter k classicZero)).2 = 0 := by
      rcases h2 with h2 | h2
      · exact h2
      · have := (h4 h2).1
        rw [hidx] at this
        omega
    refine ⟨h1, ?_⟩
    show tmTableIndex (tmTableNext (tmTableNextIter k classicZero)).1 = _
    rw [h3 hret, hidx]
    push_cast
    rfl

theorem tmTableNextIter_succ (k : Nat) (this : TuringMachineT) :
    tmTableNextIter (k + 1) this = (tmTableNext (tmTableNextIter k this)).1 :=
  rfl

/-- **C10.** Successor generation is exhaustive and cyclic for the classical 5-state,
2-symbol shape (10 cells, 21 values per cell): repeatedly applying `tmTableNext` starting
from the all-zero table returns to the all-zero table after exactly `21^10` applications
and after no smaller positive number of applications, and no table is produced twice
within that cycle. -/
theorem tmTableNext_cycle :
    (scanCells classicZero).length = 10 ∧
    tmTableNextIter (21 ^ 10) classicZero = classicZero ∧
    (∀ k : Nat, 0 < k → k < 21 ^ 10 →
      (tmTableNextIter k classicZero).table ≠ classicZero.table) ∧
    (∀ i j : Nat, i < j → j < 21 ^ 10 →
      (tmTableNextIter i classicZero).table ≠ (tmTableNextIter j classicZero).table) := by
  rw [← classicCount_eq_pow]
  have hdistinct : ∀ i j : Nat, i < j → j < classicCount →
      (tmTableNextIter i classicZero).table ≠ (tmTableNextIter j classicZero).table := by
    intro i j hij hj htab
    obtain ⟨hi1, hi2⟩ := classic_iter_index i (by omega)
    obtain ⟨hj1, hj2⟩ := classic_iter_index j hj
    have heq : tmTableNextIter i classicZero = tmTableNextIter j classicZero :=
      eq_of_sameShape _ _
        ⟨hi1.1.1.trans hj1.1.1.symm, hi1.1.2.1.trans hj1.1.2.1.symm,
          hi1.1.2.2.1.trans hj1.1.2.2.1.symm, hi1.1.2.2.2.1.trans hj1.1.2.2.2.1.symm,
          hi1.1.2.2.2.2.1.trans hj1.1.2.2.2.2.1.symm,
          hi1.1.2.2.2.2.2.trans hj1.1.2.2.2.2.2.symm⟩ htab
    rw [heq, hj2] at hi2
    omega
  refine ⟨classicInv_length _ classicInv_zero, ?_, ?_, hdistinct⟩
  · have hsplit : classicCount = (classicCount - 1) + 1 := by
      unfold classicCount
      norm_num
    obtain ⟨hinv, hidx⟩ := classic_iter_index (classicCount - 1) (by unfold classicCount; omega)
    obtain ⟨h1, h2, h3, h4⟩ := classicInv_next _ hinv
    rw [hsplit, tmTableNextIter_succ]
    rcases h2 with h2 | h2
    · have hb := (classicInv_index_bound _ h1).2
      rw [h3 h2, hidx] at hb
      have hc : ((classicCount - 1 : Nat) : Int) = (classicCount : Int) - 1 := by
        unfold classicCount
        norm_num
      omega
    · exact (h4 h2).2
  · intro k hk0 hk
    exact fun h => hdistinct 0 k hk0 hk h.symm

/-! ## Stop cells during the enumeration -/

theorem stopThree_canonical : StopCellsCanonical stopThree := by
  intro s i hs0 hs1 hi0 hi1 hm
  have hs : s = 0 := by
    have : stopThree.num_states = 1 := rfl
    omega
  subst hs
  by_cases hi : i = 0
  · subst hi
    exact ⟨rfl, rfl⟩
  · have e : stopThree.table 0 i = zeroEntry := by
      show (if (0 : Int) = 0 ∧ i = 0 then _ else zeroEntry) = zeroEntry
      rw [if_neg (fun h => hi h.2)]
    rw [e] at hm
    exact absurd hm (by decide)

/-- **C11, failing input.** On the shape with one state and the symbols 0, 1, 2, the
seventh table of the enumeration from the all-zero table has a single Stop cell, holding
the placeholder values `write = 1`, `next = num_states - 1`; `tmTableNext` returns 0 and
advances that Stop cell to `write = 2`, so the Stop cell is enumerated on. -/
theorem tmTableNext_stop_cell_advanced :
    (tmTableNextIter 6 (machineOf 1 2 zeroTable)).table = stopThree.table ∧
    StopCellsCanonical stopThree ∧
    (tmTableNext stopThree).2 = 0 ∧
    (tmTableNext stopThree).1.table 0 0 = { write := 2, move := Move.STOP, next := 0 } ∧
    ¬ StopCellsCanonical (tmTableNext stopThree).1 := by
  refine ⟨?_, stopThree_canonical, by decide, by decide, ?_⟩
  · funext s i
    by_cases h : s = 0 ∧ i = 0
    · obtain ⟨rfl, rfl⟩ := h
      decide
    · have e2 : stopThree.table s i = zeroEntry := by
        show (if s = 0 ∧ i = 0 then _ else zeroEntry) = zeroEntry
        rw [if_neg h]
      rw [e2]
      have hframe : ∀ (n : Nat), (tmTableNextIter n (machineOf 1 2 zeroTable)).num_states = 1 ∧
          (tmTableNextIter n (machineOf 1 2 zeroTable)).charset_max = 2 ∧
          ((tmTableNextIter n (machineOf 1 2 zeroTable)).table s i = zeroEntry ∨
            ((0 ≤ s ∧ s < 1) ∧ (0 ≤ i ∧ i ≤ 2))) := by
        intro n
        induction n with
        | zero => exact ⟨rfl, rfl, Or.inl rfl⟩
        | succ n ih =>
          obtain ⟨hs, hfr, -, -⟩ := tmTableNext_spec (tmTableNextIter n (machineOf 1 2 zeroTable))
          refine ⟨hs.2.1.trans ih.1, hs.1.trans ih.2.1, ?_⟩
          by_cases hin : (0 ≤ s ∧ s < 1) ∧ (0 ≤ i ∧ i ≤ 2)
          · exact Or.inr hin
          · left
            show (tmTableNext (tmTableNextIter n (machineOf 1 2 zeroTable))).1.table s i = _
            rw [hfr s i (by rw [ih.1, ih.2.1]; exact hin)]
            rcases ih.2.2 with h1 | h1
            · exact h1
            · exact absurd h1 hin
      rcases (hframe 6).2.2 with h1 | h1
      · exact h1
      · have hs : s = 0 := by omega
        subst hs
        have hi : i = 1 ∨ i = 2 := by
          have : i ≠ 0 := fun hi => h ⟨rfl, hi⟩
          omega
        rcases hi with rfl | rfl <;> decide
  · intro hcon
    have h := (hcon 0 0 (by decide) (by decide) (by decide) (by decide) (by decide)).1
    exact absurd h (by decide)

/-! ## The Stop sentinel digit -/

/-- **C13, counterexample.** On the shape with 6 states and the symbols 0, 1 the
well-formed non-Stop cell `(write 0, MOVE_RIGHT, next 4)` has the digit 20, the digit of a
Stop cell. -/
theorem tmTableIndexDigit_collision :
    WellFormedCell 1 6 { write := 0, move := Move.MOVE_RIGHT, next := 4 } ∧
    tmTableIndexDigit 1 6 { write := 0, move := Move.MOVE_RIGHT, next := 4 } =
      tmTableIndexDigit 1 6 { write := 1, move := Move.STOP, next := 5 } := by
  unfold WellFormedCell
  decide

theorem tmTableIndexDigit_lt (cm ns : Int) (e : Entry) (hns : 1 ≤ ns) (hcm : 0 ≤ cm)
    (hwf : WellFormedCell cm ns e) (hmove : e.move ≠ Move.STOP) :
    0 ≤ tmTableIndexDigit cm ns e ∧ tmTableIndexDigit cm ns e < 2 * (cm + 1) * ns := by
  obtain ⟨w, m, n⟩ := e
  obtain ⟨⟨hw0, hw1⟩, hn0, hn1⟩ := hwf
  simp only at hw0 hw1 hn0 hn1 hmove
  unfold tmTableIndexDigit
  have h1 : n * (cm + 1) ≤ (ns - 1) * (cm + 1) :=
    mul_le_mul_of_nonneg_right (by omega) (by omega)
  have h2 : 0 ≤ n * (cm + 1) := mul_nonneg hn0 (by omega)
  have h3 : 0 ≤ (cm + 1) * ns := mul_nonneg (by omega) (by omega)
  cases m
  · simp only [Move.toInt, ne_eq, not_false_eq_true, if_true, reduceCtorEq]
    constructor
    · nlinarith
    · nlinarith
  · simp only [Move.toInt, ne_eq, not_false_eq_true, if_true, reduceCtorEq]
    constructor
    · nlinarith
    · nlinarith
  · exact absurd rfl hmove

/-- **C13, amended.** For every shape with `num_states ≥ 1`, `charset_max ≥ 0` and
`2 * (charset_max + 1) * num_states ≤ 20` (the classical 5-state, 2-symbol shape among
them) and every well-formed cell whose move is not Stop, the digit `tmTableIndex` computes
for that cell is below 20 and so differs from the digit it uses for a Stop cell. -/
theorem tmTableIndexDigit_sentinel (cm ns : Int) (e s : Entry) (hns : 1 ≤ ns) (hcm : 0 ≤ cm)
    (hshape : 2 * (cm + 1) * ns ≤ 20)
    (hwf : WellFormedCell cm ns e) (hmove : e.move ≠ Move.STOP) (hstop : s.move = Move.STOP) :
    tmTableIndexDigit cm ns s = 20 ∧ tmTableIndexDigit cm ns e < 20 ∧
    tmTableIndexDigit cm ns e ≠ tmTableIndexDigit cm ns s := by
  have h := tmTableIndexDigit_lt cm ns e hns hcm hwf hmove
  have hs : tmTableIndexDigit cm ns s = 20 := by
    unfold tmTableIndexDigit
    simp [hstop]
  refine ⟨hs, by omega, ?_⟩
  rw [hs]
  omega

theorem tmTableIndexDigit_sentinel_witness :
    tmTableIndexDigit 1 5 { write := 1, move := Move.STOP, next := 4 } = 20 ∧
    tmTableIndexDigit 1 5 { write := 1, move := Move.MOVE_RIGHT, next := 4 } < 20 ∧
    tmTableIndexDigit 1 5 { write := 1, move := Move.MOVE_RIGHT, next := 4 } ≠
      tmTableIndexDigit 1 5 { write := 1, move := Move.STOP, next := 4 } :=
  tmTableIndexDigit_sentinel 1 5 { write := 1, move := Move.MOVE_RIGHT, next := 4 }
    { write := 1, move := Move.STOP, next := 4 } (by decide) (by decide) (by decide)
    (by unfold WellFormedCell; decide) (by decide) rfl

/-! ## The table index as a mixed-radix sum -/

theorem digitSpec_eq (cm ns : Int) (e : Entry) :
    digitSpec cm ns e = tmTableIndexDigit cm ns e := by
  obtain ⟨w, m, n⟩ := e
  unfold digitSpec tmTableIndexDigit
  cases m <;> simp [Move.toInt]

theorem indexCells_rowCells (cm ns : Int) (t : Int → Int → Entry) (si : Int) (n : Nat) :
    ∀ ii : Int, indexCells cm ns (rowCells t si n ii) =
      ∑ j in Finset.range n, tmTableIndexDigit cm ns (t si (ii + (j : Int))) * 21 ^ j := by
  induction n with
  | zero =>
    intro ii
    simp [rowCells, indexCells]
  | succ n ih =>
    intro ii
    rw [Finset.sum_range_succ']
    simp only [rowCells, indexCells, ih (ii + 1), Finset.mul_sum]
    rw [add_comm]
    congr 1
    · apply Finset.sum_congr rfl
      intro j _
      have e1 : ii + 1 + (j : Int) = ii + ((j + 1 : Nat) : Int) := by
        push_cast
        ring
      rw [e1, pow_succ]
      ring
    · simp

theorem indexCells_tableCells (cm ns : Int) (t : Int → Int → Entry) (w n : Nat) :
    ∀ si : Int, indexCells cm ns (tableCells t w n si) =
      ∑ a in Finset.range n, ∑ j in Finset.range w,
        tmTableIndexDigit cm ns (t (si + (a : Int)) (j : Int)) * 21 ^ (a * w + j) := by
  induction n with
  | zero =>
    intro si
    simp [tableCells, indexCells]
  | succ n ih =>
    intro si
    rw [Finset.sum_range_succ']
    simp only [tableCells, indexCells_append, rowCells_length, ih (si + 1),
      indexCells_rowCells, Finset.mul_sum]
    rw [add_comm]
    congr 1
    · apply Finset.sum_congr rfl
      intro a _
      apply Finset.sum_congr rfl
      intro j _
      have e1 : si + 1 + (a : Int) = si + ((a + 1 : Nat) : Int) := by
        push_cast
        ring
      have e2 : (a + 1) * w + j = w + (a * w + j) := by ring
      rw [e1, e2, pow_add]
      ring
    · apply Finset.sum_congr rfl
      intro j _
      simp

/-- The mixed-radix sum of the specification is the mixed-radix value of the cells in scan
order. -/
theorem mixedRadixSum_eq_indexCells (this : TuringMachineT) :
    mixedRadixSum this = indexCells this.charset_max this.num_states (scanCells this) := by
  unfold scanCells mixedRadixSum
  rw [indexCells_tableCells]
  apply Finset.sum_congr rfl
  intro a _
  apply Finset.sum_congr rfl
  intro j _
  rw [digitSpec_eq, zero_add]

/-- **C12, counterexample.** On the table of 5 states over the symbols 0, 1, 2 in which
every cell is the Stop cell `(write 1, STOP, next 4)`, a well-formed table of 15 cells, the
mixed-radix sum is `21^15 - 1 = 68122318582951682300`, which is larger than `INT64_MAX`;
`tmTableIndex`, which accumulates in `int64_t`, returns `-5664657711886524164`. -/
theorem tmTableIndex_overflow :
    WellFormedTable stopFifteen ∧
    mixedRadixSum stopFifteen = 68122318582951682300 ∧
    INT64_MAX < mixedRadixSum stopFifteen ∧
    tmTableIndex stopFifteen = -5664657711886524164 ∧
    tmTableIndex stopFifteen ≠ mixedRadixSum stopFifteen := by
  have hsum : mixedRadixSum stopFifteen = 68122318582951682300 := by
    rw [mixedRadixSum_eq_indexCells]
    decide
  have hidx : tmTableIndex stopFifteen = -5664657711886524164 := by decide
  refine ⟨⟨by decide, by decide, ?_⟩, hsum, ?_, hidx, ?_⟩
  · intro s i _ _ _ _
    exact ⟨⟨show (0 : Int) ≤ 1 by decide, show (1 : Int) ≤ 2 by decide⟩,
      ⟨show (0 : Int) ≤ 4 by decide, show (4 : Int) < 5 by decide⟩⟩
  · rw [hsum]
    decide
  · rw [hsum, hidx]
    decide

/-- **C12, amended.** Where the accumulation stays inside `int64_t`, `tmTableIndex` equals
the mixed-radix sum over the cells in state-major, symbol-minor scan order of
`digit(cell_i) * 21^i`, where `i` is the number of cells scanned before the cell,
`digit = write + next * (charset_max + 1) + move * (charset_max + 1) * num_states` for a
cell whose move is not Stop (Left = 0, Right = 1) and `digit = 20` for a cell whose move is
Stop.  The condition: the digit of every cell of the table lies in `[0, B]`, and with `n`
the number of cells, `21^n ≤ INT64_MAX` and `B * 21^n ≤ 20 * INT64_MAX`.  With `B = 20` it
holds for every table of at most 14 cells whose digits do not exceed 20, the classical
5-state, 2-symbol shape among them. -/
theorem tmTableIndex_eq_mixedRadixSum (this : TuringMachineT) (B : Int) (hB : 0 ≤ B)
    (hdigit : ∀ s i : Int, 0 ≤ s → s < this.num_states → 0 ≤ i → i ≤ this.charset_max →
      0 ≤ digitSpec this.charset_max this.num_states (this.table s i) ∧
      digitSpec this.charset_max this.num_states (this.table s i) ≤ B)
    (hpow : (21 : Int) ^ (this.num_states.toNat * (this.charset_max + 1).toNat) ≤ INT64_MAX)
    (hBpow : B * 21 ^ (this.num_states.toNat * (this.charset_max + 1).toNat) ≤
      20 * INT64_MAX) :
    tmTableIndex this = mixedRadixSum this := by
  have hfit : IndexFits this := by
    refine ⟨B, hB, ?_, ?_, ?_⟩
    · intro e he
      obtain ⟨s, i, ⟨h1, h2⟩, ⟨h3, h4⟩, rfl⟩ := (mem_scanCells this e).1 he
      rw [← digitSpec_eq]
      exact hdigit s i h1 h2 h3 h4
    · rw [scanCells_length]
      exact hpow
    · rw [scanCells_length]
      exact hBpow
  rw [tmTableIndex_eq_indexCells this hfit, mixedRadixSum_eq_indexCells]

/-- Witness of C12: the table of 7 states over the symbols 0, 1 in which every cell is a
Stop cell, a table of 14 cells with the digit 20; its index is `21^14 - 1`. -/
theorem tmTableIndex_eq_mixedRadixSum_witness :
    (21 : Int) ^ (stopFourteen.num_states.toNat * (stopFourteen.charset_max + 1).toNat) ≤
      INT64_MAX ∧
    tmTableIndex stopFourteen = 3243919932521508680 ∧
    tmTableIndex stopFourteen = mixedRadixSum stopFourteen :=
  ⟨by decide, by decide,
    tmTableIndex_eq_mixedRadixSum stopFourteen 20 (by decide)
      (fun _ _ _ _ _ _ => ⟨show (0 : Int) ≤ 20 by decide, show (20 : Int) ≤ 20 by decide⟩)
      (by decide) (by decide)⟩

/-! ## The index of the classical shape is a bijection -/

theorem rowCells_inj (t1 t2 : Int → Int → Entry) (si : Int) (n : Nat) :
    ∀ ii : Int, rowCells t1 si n ii = rowCells t2 si n ii →
      ∀ i : Int, ii ≤ i → i < ii + n → t1 si i = t2 si i := by
  induction n with
  | zero =>
    intro ii _ i h1 h2
    simp only [Nat.cast_zero, add_zero] at h2
    omega
  | succ n ih =>
    intro ii h i h1 h2
    simp only [rowCells, List.cons.injEq] at h
    by_cases hi : i = ii
    · rw [hi]
      exact h.1
    · exact ih (ii + 1) h.2 i (by omega) (by push_cast at h2; omega)

theorem tableCells_inj (t1 t2 : Int → Int → Entry) (w n : Nat) :
    ∀ si : Int, tableCells t1 w n si = tableCells t2 w n si →
      ∀ s i : Int, si ≤ s → s < si + n → 0 ≤ i → i < w → t1 s i = t2 s i := by
  induction n with
  | zero =>
    intro si _ s i h1 h2
    simp only [Nat.cast_zero, add_zero] at h2
    omega
  | succ n ih =>
    intro si h s i h1 h2 h3 h4
    simp only [tableCells] at h
    have hlen : (rowCells t1 si w 0).length = (rowCells t2 si w 0).length := by
      rw [rowCells_length, rowCells_length]
    obtain ⟨ha, hb⟩ := List.append_inj h hlen
    by_cases hs : s = si
    · rw [hs]
      exact rowCells_inj t1 t2 si w 0 ha i h3 (by omega)
    · exact ih (si + 1) hb s i (by omega) (by push_cast at h2; omega) h3 h4

theorem classicTable_cells (this : TuringMachineT) (h : ClassicTable this) :
    ∀ e ∈ scanCells this, ClassicCell e := by
  intro e he
  obtain ⟨hns, hcm, hcells⟩ := h
  obtain ⟨s, i, ⟨h1, h2⟩, ⟨h3, h4⟩, rfl⟩ := (mem_scanCells this e).1 he
  rw [hns] at h2
  rw [hcm] at h4
  obtain ⟨⟨⟨hw0, hw1⟩, hn0, hn1⟩, hstop⟩ := hcells s i h1 h2 h3 h4
  exact ⟨by omega, ⟨hn0, by omega⟩, hstop⟩

theorem classicTable_length (this : TuringMachineT) (h : ClassicTable this) :
    (scanCells this).length = 10 := by
  unfold scanCells
  rw [tableCells_length, h.1, h.2.1]
  rfl

theorem classicInv_table (this : TuringMachineT) (h : ClassicInv this) : ClassicTable this := by
  refine ⟨h.1.2.1, h.1.1, ?_⟩
  intro s i h1 h2 h3 h4
  have hmem : this.table s i ∈ scanCells this :=
    (mem_scanCells this _).2 ⟨s, i, ⟨h1, by rw [h.1.2.1]; exact h2⟩,
      ⟨h3, by rw [h.1.1]; exact h4⟩, rfl⟩
  obtain ⟨hw, ⟨hn0, hn1⟩, hstop⟩ := h.2.2 _ hmem
  exact ⟨⟨by omega, hn0, by omega⟩, hstop⟩

theorem classicCell_digit_inj (e1 e2 : Entry) (h1 : ClassicCell e1) (h2 : ClassicCell e2)
    (h : tmTableIndexDigit 1 5 e1 = tmTableIndexDigit 1 5 e2) : e1 = e2 := by
  obtain ⟨w1, m1, n1⟩ := e1
  obtain ⟨w2, m2, n2⟩ := e2
  obtain ⟨hw1, ⟨ha1, hb1⟩, hs1⟩ := h1
  obtain ⟨hw2, ⟨ha2, hb2⟩, hs2⟩ := h2
  simp only at hw1 ha1 hb1 hs1 hw2 ha2 hb2 hs2
  unfold tmTableIndexDigit at h
  cases m1 <;> cases m2 <;>
    simp only [Move.toInt, ne_eq, not_false_eq_true, if_true, reduceCtorEq, not_true_eq_false,
      if_false] at h <;>
    first
    | (have hw : w1 = w2 := by omega
       have hn : n1 = n2 := by omega
       subst hw hn
       rfl)
    | (exfalso; omega)
    | (obtain ⟨a1, a2⟩ := hs1 rfl
       obtain ⟨b1, b2⟩ := hs2 rfl
       subst a1 a2 b1 b2
       rfl)

theorem classic_indexCells_inj (l1 : List Entry) :
    ∀ l2 : List Entry, l1.length = l2.length →
      (∀ e ∈ l1, ClassicCell e) → (∀ e ∈ l2, ClassicCell e) →
      indexCells 1 5 l1 = indexCells 1 5 l2 → l1 = l2 := by
  induction l1 with
  | nil =>
    intro l2 hlen _ _ _
    exact (List.length_eq_zero.1 hlen.symm).symm
  | cons e1 es1 ih =>
    intro l2 hlen h1 h2 hidx
    cases l2 with
    | nil => simp at hlen
    | cons e2 es2 =>
      have c1 := h1 e1 (List.mem_cons_self _ _)
      have c2 := h2 e2 (List.mem_cons_self _ _)
      obtain ⟨d1, d2⟩ := classicCell_digit e1 c1
      obtain ⟨d3, d4⟩ := classicCell_digit e2 c2
      simp only [indexCells] at hidx
      have hd : tmTableIndexDigit 1 5 e1 = tmTableIndexDigit 1 5 e2 := by omega
      have hr : indexCells 1 5 es1 = indexCells 1 5 es2 := by omega
      rw [classicCell_digit_inj e1 e2 c1 c2 hd,
        ih es2 (by simpa using hlen) (fun e he => h1 e (List.mem_cons_of_mem _ he))
          (fun e he => h2 e (List.mem_cons_of_mem _ he)) hr]

/-- **C14.** For the classical 5-state, 2-symbol shape the canonical index is exact:
`tmTableIndex` restricted to well-formed tables whose Stop cells hold the placeholder
values (`write = 1`, `next = 4`) takes its values in `0 .. 21^10 - 1`, two such tables
with the same index agree on every cell of the shape, and every integer of
`0 .. 21^10 - 1` is the index of such a table. -/
theorem tmTableIndex_classic_bijection :
    (∀ m : TuringMachineT, ClassicTable m →
      0 ≤ tmTableIndex m ∧ tmTableIndex m < 21 ^ 10) ∧
    (∀ m1 m2 : TuringMachineT, ClassicTable m1 → ClassicTable m2 →
      tmTableIndex m1 = tmTableIndex m2 →
      ∀ s i : Int, 0 ≤ s → s < 5 → 0 ≤ i → i ≤ 1 → m1.table s i = m2.table s i) ∧
    (∀ k : Int, 0 ≤ k → k < 21 ^ 10 →
      ∃ m : TuringMachineT, ClassicTable m ∧ tmTableIndex m = k) := by
  refine ⟨?_, ?_, ?_⟩
  · intro m hm
    have hb := classic_indexCells_bound (scanCells m) (classicTable_cells m hm)
    rw [classicTable_length m hm] at hb
    rw [tmTableIndex_eq_indexCells m (classicCells_fits m hm.2.1 hm.1 (classicTable_cells m hm)),
      hm.1, hm.2.1]
    exact hb
  · intro m1 m2 h1 h2 hidx s i hs0 hs1 hi0 hi1
    rw [tmTableIndex_eq_indexCells m1
        (classicCells_fits m1 h1.2.1 h1.1 (classicTable_cells m1 h1)),
      tmTableIndex_eq_indexCells m2
        (classicCells_fits m2 h2.2.1 h2.1 (classicTable_cells m2 h2)),
      h1.1, h1.2.1, h2.1, h2.2.1] at hidx
    have hl := classic_indexCells_inj (scanCells m1) (scanCells m2)
      (by rw [classicTable_length m1 h1, classicTable_length m2 h2])
      (classicTable_cells m1 h1) (classicTable_cells m2 h2) hidx
    unfold scanCells at hl
    rw [h1.1, h1.2.1, h2.1, h2.2.1] at hl
    exact tableCells_inj m1.table m2.table _ _ 0 hl s i (by omega) (by
      have : ((5 : Int).toNat : Int) = 5 := by decide
      omega) hi0 (by
      have : (((1 : Int) + 1).toNat : Int) = 2 := by decide
      omega)
  · intro k hk0 hk1
    have hk2 : k.toNat < classicCount := by
      have := classicCount_eq
      omega
    obtain ⟨hinv, hidx⟩ := classic_iter_index k.toNat hk2
    refine ⟨tmTableNextIter k.toNat classicZero, classicInv_table _ hinv, ?_⟩
    rw [hidx]
    omega

/-! ## Monotonicity of the index along the enumeration -/

theorem shapeCell_zero (ns : Int) (h : 1 ≤ ns) : ShapeCell ns zeroEntry := by
  unfold ShapeCell zeroEntry
  simp
  omega

theorem shapeCell_digit (ns : Int) (e : Entry) (h1 : 1 ≤ ns) (h5 : ns ≤ 5)
    (h : ShapeCell ns e) :
    0 ≤ tmTableIndexDigit 1 ns e ∧ tmTableIndexDigit 1 ns e ≤ 20 ∧
    (e.move ≠ Move.STOP → tmTableIndexDigit 1 ns e < 20) := by
  obtain ⟨w, m, n⟩ := e
  obtain ⟨hw, ⟨hn0, hn4⟩, -⟩ := h
  simp only at hw hn0 hn4
  unfold tmTableIndexDigit
  cases m <;> simp [Move.toInt] <;> omega

theorem shapeCells_fits (this : TuringMachineT) (hcm : this.charset_max = 1)
    (h1 : 1 ≤ this.num_states) (h5 : this.num_states ≤ 5)
    (hcl : ∀ e ∈ scanCells this, ShapeCell this.num_states e) : IndexFits this := by
  apply indexFits_of_digits
  · intro e he
    rw [hcm]
    have h := shapeCell_digit this.num_states e h1 h5 (hcl e he)
    exact ⟨h.1, h.2.1⟩
  · rw [scanCells_length, hcm]
    have e2 : ((1 : Int) + 1).toNat = 2 := by decide
    rw [e2]
    omega

theorem shapeCell_next (ns : Int) (e : Entry) (h1 : 1 ≤ ns) (h5 : ns ≤ 5)
    (h : ShapeCell ns e) :
    ((tmTableNextEntry 1 ns e).2 = true →
      ShapeCell ns (tmTableNextEntry 1 ns e).1 ∧
      tmTableIndexDigit 1 ns e < tmTableIndexDigit 1 ns (tmTableNextEntry 1 ns e).1) ∧
    ((tmTableNextEntry 1 ns e).2 = false →
      (tmTableNextEntry 1 ns e).1 = zeroEntry ∧ tmTableIndexDigit 1 ns e = 20) := by
  obtain ⟨w, m, n⟩ := e
  obtain ⟨hw, ⟨hn0, hn4⟩, hstop⟩ := h
  simp only at hw hn0 hn4 hstop
  have hwrap : wrapChar 1 = 1 := by decide
  rcases hw with hw | hw
  · subst hw
    have hm : m ≠ Move.STOP := by
      intro hm
      have := (hstop hm).1
      omega
    cases m
    · simp [tmTableNextEntry, ShapeCell, tmTableIndexDigit, Move.toInt, hwrap, hn0, hn4]
    · simp [tmTableNextEntry, ShapeCell, tmTableIndexDigit, Move.toInt, hwrap, hn0, hn4]
    · exact absurd rfl hm
  · subst hw
    by_cases h4 : n = ns - 1
    · subst h4
      cases m
      · simp [tmTableNextEntry, ShapeCell, tmTableIndexDigit, Move.toInt, zeroEntry]
        omega
      · simp [tmTableNextEntry, ShapeCell, tmTableIndexDigit, Move.toInt, zeroEntry]
        omega
      · simp [tmTableNextEntry, ShapeCell, tmTableIndexDigit, Move.toInt, zeroEntry]
    · have hm : m ≠ Move.STOP := by
        intro hm
        exact h4 (hstop hm).2
      cases m
      · simp [tmTableNextEntry, ShapeCell, tmTableIndexDigit, Move.toInt, h4]
        omega
      · simp [tmTableNextEntry, ShapeCell, tmTableIndexDigit, Move.toInt, h4]
        omega
      · exact absurd rfl hm

theorem shape_nextCells (ns : Int) (h1 : 1 ≤ ns) (h5 : ns ≤ 5) (l : List Entry)
    (h : ∀ e ∈ l, ShapeCell ns e) :
    (∀ e ∈ (nextCells 1 ns l).1, ShapeCell ns e) ∧
    ((nextCells 1 ns l).2 = true →
      indexCells 1 ns l < indexCells 1 ns (nextCells 1 ns l).1) := by
  induction l with
  | nil =>
    refine ⟨fun e he => absurd he (List.not_mem_nil _), ?_⟩
    intro hc
    exact absurd hc (by simp [nextCells])
  | cons e es ih =>
    have he := shapeCell_next ns e h1 h5 (h e (List.mem_cons_self _ _))
    have hes : ∀ x ∈ es, ShapeCell ns x := fun x hx => h x (List.mem_cons_of_mem _ hx)
    obtain ⟨ih1, ih2⟩ := ih hes
    by_cases hf : (tmTableNextEntry 1 ns e).2 = true
    · have hn : nextCells 1 ns (e :: es) = ((tmTableNextEntry 1 ns e).1 :: es, true) := by
        simp only [nextCells, hf, if_true]
      rw [hn]
      refine ⟨?_, ?_⟩
      · intro x hx
        rcases List.mem_cons.1 hx with hx | hx
        · rw [hx]
          exact (he.1 hf).1
        · exact hes x hx
      · intro _
        have := (he.1 hf).2
        simp only [indexCells]
        omega
    · have hf2 : (tmTableNextEntry 1 ns e).2 = false := by simpa using hf
      have hn : nextCells 1 ns (e :: es) =
          ((tmTableNextEntry 1 ns e).1 :: (nextCells 1 ns es).1, (nextCells 1 ns es).2) := by
        simp only [nextCells, hf2, Bool.false_eq_true, if_false]
      rw [hn]
      obtain ⟨hz, hd⟩ := he.2 hf2
      refine ⟨?_, ?_⟩
      · intro x hx
        rcases List.mem_cons.1 hx with hx | hx
        · rw [hx, hz]
          exact shapeCell_zero ns h1
        · exact ih1 x hx
      · intro hc
        have e1 : tmTableIndexDigit 1 ns zeroEntry = 0 := by
          simp [tmTableIndexDigit, zeroEntry, Move.toInt]
        have := ih2 hc
        simp only [indexCells, hz, hd, e1]
        omega

/-- The tables of the enumeration of a shape with the symbols 0, 1 keep that shape and
consist of cells of the enumeration. -/
theorem shape_iter (m0 : TuringMachineT) (h1 : 1 ≤ m0.num_states) (h5 : m0.num_states ≤ 5)
    (hcm : m0.charset_max = 1) (hzero : ZeroOnShape m0) (k : Nat) :
    (tmTableNextIter k m0).num_states = m0.num_states ∧
    (tmTableNextIter k m0).charset_max = 1 ∧
    ∀ e ∈ scanCells (tmTableNextIter k m0), ShapeCell m0.num_states e := by
  induction k with
  | zero =>
    refine ⟨rfl, hcm, ?_⟩
    intro e he
    obtain ⟨s, i, ⟨a1, a2⟩, ⟨a3, a4⟩, rfl⟩ := (mem_scanCells m0 e).1 he
    show ShapeCell m0.num_states (m0.table s i)
    rw [hzero s i a1 a2 a3 a4]
    exact shapeCell_zero _ h1
  | succ k ih =>
    obtain ⟨hs, -, hcells, -⟩ := tmTableNext_spec (tmTableNextIter k m0)
    obtain ⟨i1, i2, i3⟩ := ih
    refine ⟨hs.2.1.trans i1, hs.1.trans i2, ?_⟩
    show ∀ e ∈ scanCells (tmTableNext (tmTableNextIter k m0)).1, _
    rw [hcells, i1, i2]
    exact (shape_nextCells _ h1 h5 _ i3).1

theorem shape_iter_index_lt (m0 : TuringMachineT) (h1 : 1 ≤ m0.num_states)
    (h5 : m0.num_states ≤ 5) (hcm : m0.charset_max = 1) (hzero : ZeroOnShape m0) (k : Nat)
    (hret : (tmTableNext (tmTableNextIter k m0)).2 = 0) :
    tmTableIndex (tmTableNextIter k m0) < tmTableIndex (tmTableNextIter (k + 1) m0) := by
  obtain ⟨i1, i2, i3⟩ := shape_iter m0 h1 h5 hcm hzero k
  obtain ⟨hs, -, hcells, hflag⟩ := tmTableNext_spec (tmTableNextIter k m0)
  rw [i1, i2] at hcells hflag
  have hb : (nextCells 1 m0.num_states (scanCells (tmTableNextIter k m0))).2 = true := by
    by_contra hb
    rw [hflag, if_neg hb] at hret
    exact absurd hret (by decide)
  have hlt := (shape_nextCells _ h1 h5 _ i3).2 hb
  obtain ⟨j1, j2, j3⟩ := shape_iter m0 h1 h5 hcm hzero (k + 1)
  have hfit1 : IndexFits (tmTableNextIter k m0) :=
    shapeCells_fits _ i2 (by rw [i1]; exact h1) (by rw [i1]; exact h5) (by rw [i1]; exact i3)
  have hfit3 : IndexFits (tmTableNextIter (k + 1) m0) :=
    shapeCells_fits _ j2 (by rw [j1]; exact h1) (by rw [j1]; exact h5) (by rw [j1]; exact j3)
  have hfit2 : IndexFits (tmTableNext (tmTableNextIter k m0)).1 := hfit3
  show _ < tmTableIndex (tmTableNext (tmTableNextIter k m0)).1
  rw [tmTableIndex_eq_indexCells _ hfit1, tmTableIndex_eq_indexCells _ hfit2,
    hs.1, hs.2.1, i1, i2, hcells]
  exact hlt

/-- **C15, counterexample.** On the shape with 6 states and the symbols 0, 1 the 24th
table of the enumeration from the all-zero table has index 23, `tmTableNext` returns 0 on
it and its successor has index 20.  On the shape with one state and the symbol 0 the third
table of the enumeration has index 20, `tmTableNext` returns 0 on it and its successor has
index 20 as well. -/
theorem tmTableIndex_not_monotone :
    ((tmTableNext (tmTableNextIter 23 (machineOf 6 1 zeroTable))).2 = 0 ∧
      tmTableIndex (tmTableNextIter 23 (machineOf 6 1 zeroTable)) = 23 ∧
      tmTableIndex (tmTableNext (tmTableNextIter 23 (machineOf 6 1 zeroTable))).1 = 20) ∧
    ((tmTableNext (tmTableNextIter 2 (machineOf 1 0 zeroTable))).2 = 0 ∧
      tmTableIndex (tmTableNextIter 2 (machineOf 1 0 zeroTable)) = 20 ∧
      tmTableIndex (tmTableNext (tmTableNextIter 2 (machineOf 1 0 zeroTable))).1 = 20) := by
  decide

/-- **C15, amended.** For every table shape with the symbols 0, 1 (`charset_max = 1`) and
at most 5 states the canonical index is monotone and collision-free along the enumeration:
for every table `t` reached from the all-zero table by repeated `tmTableNext`, if
`tmTableNext` applied to `t` returns 0 then `tmTableIndex` of the successor is strictly
greater than `tmTableIndex t`; so of two tables of one enumeration pass (no call between
them reports exhaustion) the later one has the greater index. -/
theorem tmTableIndex_monotone (m0 : TuringMachineT) (h1 : 1 ≤ m0.num_states)
    (h5 : m0.num_states ≤ 5) (hcm : m0.charset_max = 1) (hzero : ZeroOnShape m0) :
    (∀ k : Nat, (tmTableNext (tmTableNextIter k m0)).2 = 0 →
      tmTableIndex (tmTableNextIter k m0) <
        tmTableIndex (tmTableNext (tmTableNextIter k m0)).1) ∧
    (∀ i j : Nat, i < j →
      (∀ l : Nat, i ≤ l → l < j → (tmTableNext (tmTableNextIter l m0)).2 = 0) →
      tmTableIndex (tmTableNextIter i m0) < tmTableIndex (tmTableNextIter j m0)) := by
  refine ⟨fun k hk => shape_iter_index_lt m0 h1 h5 hcm hzero k hk, ?_⟩
  intro i j hij
  induction j with
  | zero => omega
  | succ j ih =>
    intro hall
    have hstep := shape_iter_index_lt m0 h1 h5 hcm hzero j (hall j (by omega) (by omega))
    by_cases hj : i = j
    · rw [hj]
      exact hstep
    · have := ih (by omega) (fun l hl1 hl2 => hall l hl1 (by omega))
      omega

theorem classicZero_zeroOnShape : ZeroOnShape classicZero :=
  fun _ _ _ _ _ _ => rfl

theorem tmTableIndex_monotone_witness :
    (1 : Int) ≤ classicZero.num_states ∧ classicZero.num_states ≤ 5 ∧
    classicZero.charset_max = 1 ∧ ZeroOnShape classicZero ∧
    (∀ k : Nat, (tmTableNext (tmTableNextIter k classicZero)).2 = 0 →
      tmTableIndex (tmTableNextIter k classicZero) <
        tmTableIndex (tmTableNext (tmTableNextIter k classicZero)).1) :=
  ⟨by decide, by decide, rfl, classicZero_zeroOnShape,
    (tmTableIndex_monotone classicZero (by decide) (by decide) rfl classicZero_zeroOnShape).1⟩

/-! ## The queue inside `tmTableBFS` -/

theorem bfsCore_count_le (this : TuringMachineT) (f : FifoT) (sp : Int → Int) (c : Int)
    (P : Finset Int) (D : Int → Prop) (k : Int) (h : BfsCore this f sp c P D k) :
    c ≤ this.num_states := by
  obtain ⟨-, -, -, -, -, hrange, hcard, hzero, -, -⟩ := h
  have hsub : P ⊆ Finset.Ico 0 this.num_states := by
    intro s hs
    exact Finset.mem_Ico.2 (hrange s hs).1
  have hle := Finset.card_le_card hsub
  have h0 := (hrange 0 hzero).1
  rw [Int.card_Ico] at hle
  omega

theorem bfsCore_push (this : TuringMachineT) (f : FifoT) (sp : Int → Int) (c : Int)
    (P : Finset Int) (D : Int → Prop) (k : Int) (h : BfsCore this f sp c P D k)
    (n : Int) (hn : n ∉ P) (hrange : 0 ≤ n ∧ n < this.num_states) (hreach : Reach this n) :
    ∃ r : FifoT × Int, fifoAdd f (n + 1) = some r ∧ r.1.length = f.length ∧
      BfsCore this r.1 (fun s => if s = n then 1 else sp s) (c + 1) (insert n P) D k := by
  have hc := bfsCore_count_le this f sp c P D k h
  obtain ⟨⟨hk0, hkc⟩, hcount, hfirst, hlen, hsp, hP, hcard, hzero, hpend, hcov⟩ := h
  have hsub : insert n P ⊆ Finset.Ico 0 this.num_states := by
    intro s hs
    rcases Finset.mem_insert.1 hs with hs | hs
    · rw [hs]
      exact Finset.mem_Ico.2 hrange
    · exact Finset.mem_Ico.2 (hP s hs).1
  have hcard2 := Finset.card_le_card hsub
  rw [Int.card_Ico, Finset.card_insert_of_not_mem hn] at hcard2
  have hc1 : c + 1 ≤ this.num_states := by omega
  have hkl : k % f.length = k := Int.emod_eq_of_lt hk0 (by omega)
  have hslot : f.first = k := hfirst.trans hkl
  have hadd : fifoAdd f (n + 1) = some ({ f with
      queue := fun j => if j = f.first + f.count then n + 1 else f.queue j
      count := f.count + 1 }, 0) := by
    unfold fifoAdd
    rw [if_neg (by omega), if_neg (by omega), if_neg (by unfold fifoSlots; omega)]
  refine ⟨_, hadd, rfl, ⟨hk0, by omega⟩, ?_, hfirst, hlen, ?_, ?_, ?_, ?_, ?_, ?_⟩
  · show f.count + 1 = c + 1 - k
    omega
  · intro s
    by_cases hs : s = n
    · simp [hs]
    · simp only [hs, if_false, Finset.mem_insert, false_or]
      exact hsp s
  · intro s hs
    rcases Finset.mem_insert.1 hs with hs | hs
    · rw [hs]
      exact ⟨hrange, hreach⟩
    · exact hP s hs
  · rw [Finset.card_insert_of_not_mem hn]
    push_cast
    omega
  · exact Finset.mem_insert_of_mem hzero
  · intro j hj1 hj2
    show (if j = f.first + f.count then n + 1 else f.queue j) - 1 ∈ insert n P
    by_cases hj : j = f.first + f.count
    · rw [if_pos hj]
      simp
    · rw [if_neg hj]
      exact Finset.mem_insert_of_mem (hpend j hj1 (by omega))
  · intro s hs
    rcases Finset.mem_insert.1 hs with hs | hs
    · right
      refine ⟨c, hkc, by omega, ?_⟩
      show (if c = f.first + f.count then n + 1 else f.queue c) = s + 1
      rw [if_pos (by omega), hs]
    · rcases hcov s hs with hd | ⟨j, hj1, hj2, hj3⟩
      · exact Or.inl hd
      · right
        refine ⟨j, hj1, by omega, ?_⟩
        show (if j = f.first + f.count then n + 1 else f.queue j) = s + 1
        rw [if_neg (by omega)]
        exact hj3

theorem bfsCore_pop (this : TuringMachineT) (f : FifoT) (sp : Int → Int) (c : Int)
    (P : Finset Int) (D : Int → Prop) (k : Int) (h : BfsCore this f sp c P D k)
    (hk : k < c) :
    ∃ r : FifoT × Int, fifoPop f = some r ∧ r.1.length = f.length ∧ r.2 ≠ 0 ∧
      r.2 - 1 ∈ P ∧
      BfsCore this r.1 sp c P (fun s => D s ∨ s = r.2 - 1) (k + 1) := by
  have hc := bfsCore_count_le this f sp c P D k h
  obtain ⟨⟨hk0, hkc⟩, hcount, hfirst, hlen, hsp, hP, hcard, hzero, hpend, hcov⟩ := h
  have hkl : k % f.length = k := Int.emod_eq_of_lt hk0 (by omega)
  have hpop : fifoPop f = some ({ f with
      first := Int.tmod (f.first + 1) f.length
      count := f.count - 1 }, f.queue f.first) := by
    unfold fifoPop
    simp only
    rw [if_neg (by omega), if_neg (by omega)]
  have hin : f.queue k - 1 ∈ P := hpend k (le_refl _) hk
  have hitem : f.queue f.first = f.queue k := by rw [hfirst, hkl]
  refine ⟨_, hpop, rfl, ?_, ?_, ⟨by omega, by omega⟩, ?_, ?_, hlen, hsp, hP, hcard, hzero,
    ?_, ?_⟩
  · show f.queue f.first ≠ 0
    rw [hitem]
    have := (hP _ hin).1.1
    omega
  · show f.queue f.first - 1 ∈ P
    rw [hitem]
    exact hin
  · show f.count - 1 = c - (k + 1)
    omega
  · show Int.tmod (f.first + 1) f.length = (k + 1) % f.length
    rw [hfirst, hkl, Int.tmod_eq_emod (by omega) (by omega)]
  · intro j hj1 hj2
    exact hpend j (by omega) hj2
  · intro s hs
    show (D s ∨ s = f.queue f.first - 1) ∨ _
    rcases hcov s hs with hd | ⟨j, hj1, hj2, hj3⟩
    · exact Or.inl (Or.inl hd)
    · by_cases hj : j = k
      · left
        right
        rw [hitem, ← hj, hj3]
        omega
      · right
        exact ⟨j, by omega, hj2, hj3⟩

theorem bfsCore_pop_empty (this : TuringMachineT) (f : FifoT) (sp : Int → Int) (c : Int)
    (P : Finset Int) (D : Int → Prop) (k : Int) (h : BfsCore this f sp c P D k)
    (hk : ¬ k < c) : fifoPop f = some (f, 0) := by
  obtain ⟨⟨hk0, hkc⟩, hcount, -⟩ := h
  unfold fifoPop
  simp only
  rw [if_pos (by omega)]

theorem bfsClosed_mono (this : TuringMachineT) (test : Option (Entry → Int))
    (P P1 : Finset Int) (H : Int → Int → Prop) (hsub : P ⊆ P1)
    (h : BfsClosed this test P H) : BfsClosed this test P1 H :=
  fun s i hH h0 h1 => ⟨hsub (h s i hH h0 h1).1, (h s i hH h0 h1).2⟩

theorem bfsRowPost_mono (this : TuringMachineT) (test : Option (Entry → Int)) (cur : Int)
    (f f1 : FifoT) (P P1 : Finset Int) (D : Int → Prop) (k : Int) (step : BfsStep)
    (hlen : f1.length = f.length) (hsub : P ⊆ P1)
    (h : BfsRowPost this test cur f1 P1 D k step) : BfsRowPost this test cur f P D k step := by
  cases step with
  | aborted => exact h
  | exhausted => exact h
  | returned f2 v =>
    obtain ⟨h1, h2, h3, h4, h5⟩ := h
    exact ⟨h1, h2, h3, h4.trans hlen, h5⟩
  | running f2 sp2 c2 =>
    obtain ⟨h1, P2, h2, h3, h4⟩ := h
    exact ⟨h1.trans hlen, P2, hsub.trans h2, h3, h4⟩

/-- The `for` loop of `tmTableBFS` over the entries of a popped state keeps the
invariant. -/
theorem tmTableBFSRow_spec (this : TuringMachineT) (hwf : WellFormedTable this)
    (test : Option (Entry → Int)) (cur : Int) (D : Int → Prop) (k : Int) (n : Nat) :
    ∀ (ii : Int) (f : FifoT) (sp : Int → Int) (c : Int) (P : Finset Int),
      0 ≤ ii → ii + n = this.charset_max + 1 → cur ∈ P →
      BfsCore this f sp c P (fun s => D s ∨ s = cur) k →
      BfsClosed this test P (fun s i => D s ∨ (s = cur ∧ i < ii)) →
      BfsRowPost this test cur f P D k (tmTableBFSRow this test cur n ii f sp c) := by
  induction n with
  | zero =>
    intro ii f sp c P hii hn hcur hcore hclosed
    refine ⟨rfl, P, Finset.Subset.refl _, hcore, ?_⟩
    intro s i hH h0 h1
    apply hclosed s i _ h0 h1
    rcases hH with hH | hH
    · exact Or.inl hH
    · exact Or.inr ⟨hH, by simp only [Nat.cast_zero, add_zero] at hn; omega⟩
  | succ n ih =>
    intro ii f sp c P hii hn hcur hcore hclosed
    have hiimax : ii ≤ this.charset_max := by
      push_cast at hn
      omega
    have hcurR := (hcore.2.2.2.2.2.1 cur hcur)
    have hcell := hwf.2.2 cur ii hcurR.1.1 hcurR.1.2 hii hiimax
    have hreach : Reach this (this.table cur ii).next := Reach.step cur ii hcurR.2 hii hiimax
    by_cases ht : testValue test (this.table cur ii) ≠ 0
    · simp only [tmTableBFSRow, ht, if_true, ne_eq, not_false_eq_true]
      exact ⟨ht, rfl, rfl, rfl, ii, hii, hiimax, rfl⟩
    · have ht0 : testValue test (this.table cur ii) = 0 := by
        by_contra hcon
        exact ht hcon
      by_cases hsp : sp (this.table cur ii).next = 0
      · have hnot : (this.table cur ii).next ∉ P := by
          intro hin
          exact (hcore.2.2.2.2.1 _).2 hin hsp
        obtain ⟨r, hadd, hlen, hcore2⟩ := bfsCore_push this f sp c P _ k hcore
          (this.table cur ii).next hnot hcell.2 hreach
        have hres := ih (ii + 1) r.1 (fun s => if s = (this.table cur ii).next then 1 else sp s)
          (c + 1) (insert (this.table cur ii).next P) (by omega) (by push_cast at hn; omega)
          (Finset.mem_insert_of_mem hcur) hcore2 (by
            intro s i hH h0 h1
            rcases hH with hH | ⟨hs, hi⟩
            · exact ⟨Finset.mem_insert_of_mem (hclosed s i (Or.inl hH) h0 h1).1,
                (hclosed s i (Or.inl hH) h0 h1).2⟩
            · by_cases hi2 : i = ii
              · rw [hs, hi2]
                exact ⟨Finset.mem_insert_self _ _, ht0⟩
              · exact ⟨Finset.mem_insert_of_mem
                  (hclosed s i (Or.inr ⟨hs, by omega⟩) h0 h1).1,
                  (hclosed s i (Or.inr ⟨hs, by omega⟩) h0 h1).2⟩)
        simp only [tmTableBFSRow, ht0, ne_eq, not_true_eq_false, if_false, hsp, if_true, hadd]
        exact bfsRowPost_mono this test cur f r.1 P _ D k _ hlen
          (Finset.subset_insert _ _) hres
      · have hin : (this.table cur ii).next ∈ P := (hcore.2.2.2.2.1 _).1 hsp
        have hres := ih (ii + 1) f sp c P (by omega) (by push_cast at hn; omega) hcur hcore (by
            intro s i hH h0 h1
            rcases hH with hH | ⟨hs, hi⟩
            · exact hclosed s i (Or.inl hH) h0 h1
            · by_cases hi2 : i = ii
              · rw [hs, hi2]
                exact ⟨hin, ht0⟩
              · exact hclosed s i (Or.inr ⟨hs, by omega⟩) h0 h1)
        simp only [tmTableBFSRow, ht0, ne_eq, not_true_eq_false, if_false, hsp]
        exact hres

theorem bfsLoopPost_mono (this : TuringMachineT) (test : Option (Entry → Int))
    (f f1 : FifoT) (step : BfsStep) (hlen : f1.length = f.length)
    (h : BfsLoopPost this test f1 step) : BfsLoopPost this test f step := by
  cases step with
  | aborted => exact h
  | exhausted => exact h
  | returned f2 v =>
    obtain ⟨h1, h2, h3, h4, h5⟩ := h
    exact ⟨h1, h2, h3, h4.trans hlen, h5⟩
  | running f2 sp2 c2 =>
    obtain ⟨h1, h2, h3⟩ := h
    exact ⟨h1.trans hlen, h2, h3⟩

/-- The `while` loop of `tmTableBFS`, started from a state that satisfies the invariant,
ends within the iteration bound and satisfies `BfsLoopPost`. -/
theorem tmTableBFSLoop_spec (this : TuringMachineT) (hwf : WellFormedTable this)
    (test : Option (Entry → Int)) (fuel : Nat) :
    ∀ (f : FifoT) (sp : Int → Int) (c : Int) (P : Finset Int) (D : Int → Prop) (k : Int),
      BfsCore this f sp c P D k → BfsClosed this test P (fun s _ => D s) →
      this.num_states - k + 1 ≤ fuel →
      BfsLoopPost this test f (tmTableBFSLoop this test fuel f sp c) := by
  induction fuel with
  | zero =>
    intro f sp c P D k hcore _ hfuel
    have hc := bfsCore_count_le this f sp c P D k hcore
    have hk := hcore.1.2
    simp only [Nat.cast_zero] at hfuel
    omega
  | succ fuel ih =>
    intro f sp c P D k hcore hclosed hfuel
    have hc := bfsCore_count_le this f sp c P D k hcore
    by_cases hk : k < c
    · obtain ⟨r, hpop, hlen, hne, hin, hcore2⟩ := bfsCore_pop this f sp c P D k hcore hk
      have hrow := tmTableBFSRow_spec this hwf test (r.2 - 1) D (k + 1)
        (this.charset_max + 1).toNat 0 r.1 sp c P (le_refl _)
        (by have := hwf.2.1; omega) hin hcore2 (by
          intro s i hH h0 h1
          rcases hH with hH | ⟨-, hi⟩
          · exact hclosed s i hH h0 h1
          · omega)
      simp only [tmTableBFSLoop, hc, if_true, hpop, ne_eq, hne, not_false_eq_true]
      rcases hres : tmTableBFSRow this test (r.2 - 1) (this.charset_max + 1).toNat 0 r.1 sp c
        with _ | ⟨f1, v⟩ | ⟨f1, sp1, c1⟩ | _
      · rw [hres] at hrow
        exact hrow.elim
      · rw [hres] at hrow
        obtain ⟨h1, h2, h3, h4, i, h5, h6, h7⟩ := hrow
        exact ⟨h1, h2, h3, h4.trans hlen, r.2 - 1, i, (hcore.2.2.2.2.2.1 _ hin).2, h5, h6, h7⟩
      · rw [hres] at hrow
        obtain ⟨h1, P1, h2, h3, h4⟩ := hrow
        have hrec := ih f1 sp1 c1 P1 (fun s => D s ∨ s = r.2 - 1) (k + 1) h3 h4
          (by push_cast at hfuel; omega)
        exact bfsLoopPost_mono this test f f1 _ (h1.trans hlen) hrec
      · rw [hres] at hrow
        exact hrow.elim
    · have hpop := bfsCore_pop_empty this f sp c P D k hcore hk
      simp only [tmTableBFSLoop, hc, if_true, hpop, ne_eq, not_true_eq_false, if_false]
      obtain ⟨⟨hk0, hkc⟩, hcount, hfirst, hlen, hsp, hP, hcard, hzero, hpend, hcov⟩ := hcore
      have hD : ∀ s ∈ P, D s := by
        intro s hs
        rcases hcov s hs with hd | ⟨j, hj1, hj2, -⟩
        · exact hd
        · omega
      have hall : ∀ s : Int, Reach this s → s ∈ P := by
        intro s hs
        induction hs with
        | start => exact hzero
        | step s i _ h0 h1 ihs => exact (hclosed s i (hD s ihs) h0 h1).1
      refine ⟨rfl, ⟨P, hcard, fun s => ⟨fun hs => (hP s hs).2, hall s⟩,
        fun s hs => (hP s hs).1⟩, ?_⟩
      intro s i hs h0 h1
      exact (hclosed s i (hD s (hall s hs)) h0 h1).2

theorem bfsCore_init (this : TuringMachineT) (hns : 1 ≤ this.num_states) (f : FifoT)
    (hfirst : f.first = 0) (hcount : f.count = 0) (hlen : this.num_states ≤ f.length) :
    ∃ r : FifoT × Int, fifoAdd f 1 = some r ∧ r.1.length = f.length ∧
      BfsCore this r.1 (fun s => if s = 0 then 1 else 0) 1 {0} (fun _ => False) 0 := by
  have hadd : fifoAdd f 1 = some ({ f with
      queue := fun j => if j = f.first + f.count then 1 else f.queue j
      count := f.count + 1 }, 0) := by
    unfold fifoAdd
    rw [if_neg (by omega), if_neg (by omega), if_neg (by unfold fifoSlots; omega)]
  refine ⟨_, hadd, rfl, ⟨le_refl _, by omega⟩, ?_, ?_, hlen, ?_, ?_, ?_, ?_, ?_, ?_⟩
  · show f.count + 1 = 1 - 0
    omega
  · show f.first = 0 % f.length
    rw [hfirst]
    simp
  · intro s
    by_cases hs : s = 0
    · simp [hs]
    · simp [hs]
  · intro s hs
    rw [Finset.mem_singleton.1 hs]
    exact ⟨⟨le_refl _, by omega⟩, Reach.start⟩
  · simp
  · simp
  · intro j hj1 hj2
    have hj : j = 0 := by omega
    show (if j = f.first + f.count then (1 : Int) else f.queue j) - 1 ∈ ({0} : Finset Int)
    rw [if_pos (by omega)]
    simp
  · intro s hs
    right
    refine ⟨0, le_refl _, by omega, ?_⟩
    show (if (0 : Int) = f.first + f.count then (1 : Int) else f.queue 0) = s + 1
    rw [if_pos (by omega), Finset.mem_singleton.1 hs]
    rfl

theorem wellFormedTable_length (this : TuringMachineT) (hwf : WellFormedTable this) :
    1 ≤ this.num_states * (this.charset_max + 1) ∧
    this.num_states ≤ this.num_states * (this.charset_max + 1) := by
  obtain ⟨h1, h2, -⟩ := hwf
  have h3 : 0 ≤ this.num_states * this.charset_max := mul_nonneg (by omega) h2
  have h4 : this.num_states * (this.charset_max + 1) =
      this.num_states * this.charset_max + this.num_states := by ring
  omega

/-- `tmTableBFS` on a well-formed table: the call returns, it leaves the static queue
created and reset, and its return value is a non-zero test value of an entry of a
reachable state, or else the test holds of no entry of a reachable state and the return
value is 0 (with a test) or the number of reachable states (without a test). -/
theorem tmTableBFS_spec (this : TuringMachineT) (hwf : WellFormedTable this)
    (fifo : Option FifoT) (hstatic : StaticOK fifo this) (test : Option (Entry → Int)) :
    ∃ r : FifoT × Int, tmTableBFS fifo this test = some r ∧ StaticOK (some r.1) this ∧
      ((r.2 ≠ 0 ∧ ∃ s i : Int, Reach this s ∧ 0 ≤ i ∧ i ≤ this.charset_max ∧
          testValue test (this.table s i) = r.2) ∨
        ((∀ s i : Int, Reach this s → 0 ≤ i → i ≤ this.charset_max →
            testValue test (this.table s i) = 0) ∧
          ∃ P : Finset Int, (∀ s : Int, s ∈ P ↔ Reach this s) ∧
            (∀ s ∈ P, 0 ≤ s ∧ s < this.num_states) ∧
            r.2 = if test.isSome then 0 else (P.card : Int))) := by
  obtain ⟨hL1, hL2⟩ := wellFormedTable_length this hwf
  have hinit : ∃ f : FifoT, tmTableBFS fifo this test = tmTableBFSBody f this test ∧
      f.first = 0 ∧ f.count = 0 ∧ f.length = this.num_states * (this.charset_max + 1) := by
    cases fifo with
    | none =>
      have e : fifoNew (this.num_states * (this.charset_max + 1)) =
          some (FifoT.mk (fun _ => 0) (this.num_states * (this.charset_max + 1)) 0 0) := by
        unfold fifoNew
        rw [if_neg (by omega)]
      refine ⟨FifoT.mk (fun _ => 0) (this.num_states * (this.charset_max + 1)) 0 0, ?_,
        rfl, rfl, rfl⟩
      unfold tmTableBFS
      simp only [e]
    | some f => exact ⟨f, rfl, hstatic f rfl⟩
  obtain ⟨f, hf, hfirst, hcount, hlen⟩ := hinit
  obtain ⟨r, hadd, hlen1, hcore⟩ := bfsCore_init this hwf.1 f hfirst hcount (by omega)
  have hloop := tmTableBFSLoop_spec this hwf test (this.num_states.toNat + 1) r.1 _ 1 {0}
    (fun _ => False) 0 hcore (fun s i hH _ _ => hH.elim) (by
      have := hwf.1
      push_cast
      omega)
  rw [hf]
  unfold tmTableBFSBody
  simp only [hadd]
  rcases hres : tmTableBFSLoop this test (this.num_states.toNat + 1) r.1
      (fun s => if s = 0 then 1 else 0) 1 with _ | ⟨f1, v⟩ | ⟨f1, sp1, c1⟩ | _
  · rw [hres] at hloop
    exact hloop.elim
  · rw [hres] at hloop
    obtain ⟨h1, h2, h3, h4, h5⟩ := hloop
    refine ⟨(f1, v), rfl, ?_, Or.inl ⟨h1, h5⟩⟩
    intro g hg
    cases hg
    exact ⟨h2, h3, by rw [h4, hlen1, hlen]⟩
  · rw [hres] at hloop
    obtain ⟨h1, ⟨P1, h2, h3, h4⟩, h5⟩ := hloop
    refine ⟨(fifoReset f1, if test.isSome then 0 else c1), rfl, ?_, Or.inr ⟨h5, P1, h3, h4, ?_⟩⟩
    · intro g hg
      cases hg
      exact ⟨rfl, rfl, by show f1.length = _; rw [h1, hlen1, hlen]⟩
    · show (if test.isSome = true then 0 else c1) = _
      rw [h2]
  · rw [hres] at hloop
    exact hloop.elim

/-- `tmTableBFS` with a test: the call returns, leaves the static queue reset, and the
return value is non-zero exactly when the test is non-zero on an entry of a reachable
state. -/
theorem tmTableBFS_test (this : TuringMachineT) (hwf : WellFormedTable this)
    (fifo : Option FifoT) (hstatic : StaticOK fifo this) (t : Entry → Int) :
    ∃ r : FifoT × Int, tmTableBFS fifo this (some t) = some r ∧ StaticOK (some r.1) this ∧
      (r.2 ≠ 0 ↔ ReachEntry this (fun e => t e ≠ 0)) := by
  obtain ⟨r, hr, hs, hres⟩ := tmTableBFS_spec this hwf fifo hstatic (some t)
  refine ⟨r, hr, hs, ?_⟩
  rcases hres with ⟨h1, s, i, h2, h3, h4, h5⟩ | ⟨h1, P, -, -, h2⟩
  · constructor
    · intro _
      refine ⟨s, i, h2, h3, h4, ?_⟩
      show testValue (some t) (this.table s i) ≠ 0
      rw [h5]
      exact h1
    · intro _
      exact h1
  · have hz : r.2 = 0 := h2
    constructor
    · intro h
      exact absurd hz h
    · rintro ⟨s, i, h3, h4, h5, h6⟩
      exact absurd (h1 s i h3 h4 h5) h6

/-- `tmTableBFS` without a test: the call returns, leaves the static queue reset, and
the return value is the number of elements of the set of reachable states. -/
theorem tmTableBFS_none (this : TuringMachineT) (hwf : WellFormedTable this)
    (fifo : Option FifoT) (hstatic : StaticOK fifo this) :
    ∃ r : FifoT × Int, tmTableBFS fifo this none = some r ∧ StaticOK (some r.1) this ∧
      ∃ P : Finset Int, (∀ s : Int, s ∈ P ↔ Reach this s) ∧
        (∀ s ∈ P, 0 ≤ s ∧ s < this.num_states) ∧ r.2 = (P.card : Int) := by
  obtain ⟨r, hr, hs, hres⟩ := tmTableBFS_spec this hwf fifo hstatic none
  refine ⟨r, hr, hs, ?_⟩
  rcases hres with ⟨h1, s, i, h2, h3, h4, h5⟩ | ⟨h1, P, h2, h3, h4⟩
  · exact absurd h5.symm h1
  · exact ⟨P, h2, h3, h4⟩

theorem reachSet_card (this : TuringMachineT) (hns : 1 ≤ this.num_states) (P : Finset Int)
    (hP : ∀ s : Int, s ∈ P ↔ Reach this s) (hrange : ∀ s ∈ P, 0 ≤ s ∧ s < this.num_states) :
    1 ≤ (P.card : Int) ∧ (P.card : Int) ≤ this.num_states ∧
    ((P.card : Int) = this.num_states ↔
      ∀ s : Int, 0 ≤ s → s < this.num_states → Reach this s) := by
  have hsub : P ⊆ Finset.Ico 0 this.num_states := fun s hs => Finset.mem_Ico.2 (hrange s hs)
  have hle := Finset.card_le_card hsub
  have hcard : (Finset.Ico 0 this.num_states).card = this.num_states.toNat := by
    rw [Int.card_Ico]
    simp
  have hpos : 0 < P.card := Finset.card_pos.2 ⟨0, (hP 0).2 Reach.start⟩
  refine ⟨by omega, by omega, ?_⟩
  constructor
  · intro h s h0 h1
    have heq : P = Finset.Ico 0 this.num_states :=
      Finset.eq_of_subset_of_card_le hsub (by omega)
    apply (hP s).1
    rw [heq]
    exact Finset.mem_Ico.2 ⟨h0, h1⟩
  · intro h
    have heq : P = Finset.Ico 0 this.num_states := by
      apply Finset.Subset.antisymm hsub
      intro s hs
      obtain ⟨h0, h1⟩ := Finset.mem_Ico.1 hs
      exact (hP s).2 (h s h0 h1)
    rw [heq, hcard]
    omega

theorem foundStop_ne_zero (e : Entry) : foundStop e ≠ 0 ↔ e.move = Move.STOP := by
  unfold foundStop
  by_cases h : e.move = Move.STOP <;> simp [h]

theorem foundOne_ne_zero (e : Entry) : foundOne e ≠ 0 ↔ e.write = 1 := by
  unfold foundOne
  by_cases h : e.write = 1 <;> simp [h]

theorem foundLeft_ne_zero (e : Entry) : foundLeft e ≠ 0 ↔ e.move = Move.MOVE_LEFT := by
  unfold foundLeft
  by_cases h : e.move = Move.MOVE_LEFT <;> simp [h]

theorem foundRight_ne_zero (e : Entry) : foundRight e ≠ 0 ↔ e.move = Move.MOVE_RIGHT := by
  unfold foundRight
  by_cases h : e.move = Move.MOVE_RIGHT <;> simp [h]

theorem reachEntry_congr (this : TuringMachineT) (p q : Entry → Prop)
    (h : ∀ e, p e ↔ q e) : ReachEntry this p ↔ ReachEntry this q := by
  unfold ReachEntry
  constructor
  · rintro ⟨s, i, h1, h2, h3, h4⟩
    exact ⟨s, i, h1, h2, h3, (h _).1 h4⟩
  · rintro ⟨s, i, h1, h2, h3, h4⟩
    exact ⟨s, i, h1, h2, h3, (h _).2 h4⟩

/-- **C18.** `tmTableBFS` with a predicate decides reachability of a matching entry: for
every well-formed table and each of the predicates `foundStop`, `foundOne`, `foundLeft`,
`foundRight`, the call returns, and it returns non-zero if and only if there are a state
`s` reachable from state 0 by following `next` links (state 0 itself included) and a
symbol `i` in `[0, charset_max]` such that the predicate holds of `table[s][i]`; it
returns 0 otherwise. -/
theorem tmTableBFS_decides (this : TuringMachineT) (fifo : Option FifoT)
    (hwf : WellFormedTable this) (hstatic : StaticOK fifo this) :
    (∃ r : FifoT × Int, tmTableBFS fifo this (some foundStop) = some r ∧
      (r.2 ≠ 0 ↔ ReachEntry this (fun e => e.move = Move.STOP))) ∧
    (∃ r : FifoT × Int, tmTableBFS fifo this (some foundOne) = some r ∧
      (r.2 ≠ 0 ↔ ReachEntry this (fun e => e.write = 1))) ∧
    (∃ r : FifoT × Int, tmTableBFS fifo this (some foundLeft) = some r ∧
      (r.2 ≠ 0 ↔ ReachEntry this (fun e => e.move = Move.MOVE_LEFT))) ∧
    (∃ r : FifoT × Int, tmTableBFS fifo this (some foundRight) = some r ∧
      (r.2 ≠ 0 ↔ ReachEntry this (fun e => e.move = Move.MOVE_RIGHT))) := by
  refine ⟨?_, ?_, ?_, ?_⟩
  · obtain ⟨r, h1, -, h2⟩ := tmTableBFS_test this hwf fifo hstatic foundStop
    exact ⟨r, h1, h2.trans (reachEntry_congr this _ _ foundStop_ne_zero)⟩
  · obtain ⟨r, h1, -, h2⟩ := tmTableBFS_test this hwf fifo hstatic foundOne
    exact ⟨r, h1, h2.trans (reachEntry_congr this _ _ foundOne_ne_zero)⟩
  · obtain ⟨r, h1, -, h2⟩ := tmTableBFS_test this hwf fifo hstatic foundLeft
    exact ⟨r, h1, h2.trans (reachEntry_congr this _ _ foundLeft_ne_zero)⟩
  · obtain ⟨r, h1, -, h2⟩ := tmTableBFS_test this hwf fifo hstatic foundRight
    exact ⟨r, h1, h2.trans (reachEntry_congr this _ _ foundRight_ne_zero)⟩

/-- **C19.** `tmTableBFS` without a predicate (`test = NULL`) returns the number of
distinct states reachable from state 0 by following `next` links (state 0 included): for
every well-formed table the call returns the number of elements of the set of reachable
states, the result lies in `[1, num_states]` and equals `num_states` if and only if every
state is reachable from state 0. -/
theorem tmTableBFS_count (this : TuringMachineT) (fifo : Option FifoT)
    (hwf : WellFormedTable this) (hstatic : StaticOK fifo this) :
    ∃ r : FifoT × Int, tmTableBFS fifo this none = some r ∧
      (∃ P : Finset Int, (∀ s : Int, s ∈ P ↔ Reach this s) ∧ r.2 = (P.card : Int)) ∧
      (1 ≤ r.2 ∧ r.2 ≤ this.num_states) ∧
      (r.2 = this.num_states ↔ ∀ s : Int, 0 ≤ s → s < this.num_states → Reach this s) := by
  obtain ⟨r, h1, -, P, h2, h3, h4⟩ := tmTableBFS_none this hwf fifo hstatic
  obtain ⟨c1, c2, c3⟩ := reachSet_card this hwf.1 P h2 h3
  rw [← h4] at c1 c2 c3
  exact ⟨r, h1, ⟨P, h2, h4⟩, ⟨c1, c2⟩, c3⟩

/-- **C20.** The reachable-state count is monotone in the links: for every two
well-formed tables `A` and `B` of the same shape such that every link of `A` is a link of
`B` (for every state `s` and symbol `i` there is a symbol `j` with
`B[s][j].next = A[s][i].next`), both calls of `tmTableBFS` without a predicate return and
the value for `A` is at most the value for `B`. -/
theorem tmTableBFS_monotone (A B : TuringMachineT) (fifoA fifoB : Option FifoT)
    (hA : WellFormedTable A) (hB : WellFormedTable B)
    (hshape : A.num_states = B.num_states ∧ A.charset_max = B.charset_max)
    (hlinks : ∀ s i : Int, 0 ≤ s → s < A.num_states → 0 ≤ i → i ≤ A.charset_max →
      ∃ j : Int, 0 ≤ j ∧ j ≤ A.charset_max ∧ (B.table s j).next = (A.table s i).next)
    (hsA : StaticOK fifoA A) (hsB : StaticOK fifoB B) :
    ∃ ra rb : FifoT × Int, tmTableBFS fifoA A none = some ra ∧
      tmTableBFS fifoB B none = some rb ∧ ra.2 ≤ rb.2 := by
  obtain ⟨ra, a1, -, PA, a2, a3, a4⟩ := tmTableBFS_none A hA fifoA hsA
  obtain ⟨rb, b1, -, PB, b2, b3, b4⟩ := tmTableBFS_none B hB fifoB hsB
  refine ⟨ra, rb, a1, b1, ?_⟩
  have hreach : ∀ s : Int, Reach A s → Reach B s := by
    intro s hs
    induction hs with
    | start => exact Reach.start
    | step s i hs h0 h1 ih =>
      have hin := a3 s ((a2 s).2 hs)
      obtain ⟨j, j0, j1, j2⟩ := hlinks s i hin.1 hin.2 h0 h1
      rw [← j2]
      exact Reach.step s j ih j0 (by rw [← hshape.2]; exact j1)
  have hsub : PA ⊆ PB := fun s hs => (b2 s).2 (hreach s ((a2 s).1 hs))
  have := Finset.card_le_card hsub
  rw [a4, b4]
  exact_mod_cast this

/-! ## Weeding -/

theorem tmTableContainsStopRow_iff (this : TuringMachineT) (si : Int) (n : Nat) :
    ∀ ii : Int, tmTableContainsStopRow this si n ii = true ↔
      ∃ i : Int, ii ≤ i ∧ i < ii + n ∧ (this.table si i).move = Move.STOP := by
  induction n with
  | zero =>
    intro ii
    simp only [tmTableContainsStopRow, Bool.false_eq_true, Nat.cast_zero, add_zero, false_iff]
    rintro ⟨i, h1, h2, -⟩
    omega
  | succ n ih =>
    intro ii
    by_cases h : Move.STOP = (this.table si ii).move
    · rw [tmTableContainsStopRow, if_pos h]
      exact ⟨fun _ => ⟨ii, le_refl _, by push_cast; omega, h.symm⟩, fun _ => rfl⟩
    · rw [tmTableContainsStopRow, if_neg h, ih]
      constructor
      · rintro ⟨i, h1, h2, h3⟩
        exact ⟨i, by omega, by push_cast; omega, h3⟩
      · rintro ⟨i, h1, h2, h3⟩
        have hne : i ≠ ii := by
          intro hi
          rw [hi] at h3
          exact h h3.symm
        exact ⟨i, by omega, by push_cast at h2; omega, h3⟩

theorem tmTableContainsStopLoop_iff (this : TuringMachineT) (n : Nat) :
    ∀ si : Int, tmTableContainsStopLoop this n si = true ↔
      ∃ s i : Int, (si ≤ s ∧ s < si + n) ∧
        (0 ≤ i ∧ i < ((this.charset_max + 1).toNat : Int)) ∧
        (this.table s i).move = Move.STOP := by
  induction n with
  | zero =>
    intro si
    simp only [tmTableContainsStopLoop, Bool.false_eq_true, Nat.cast_zero, add_zero, false_iff]
    rintro ⟨s, i, ⟨h1, h2⟩, -, -⟩
    omega
  | succ n ih =>
    intro si
    by_cases h : tmTableContainsStopRow this si (this.charset_max + 1).toNat 0 = true
    · rw [tmTableContainsStopLoop, if_pos h]
      obtain ⟨i, h1, h2, h3⟩ := (tmTableContainsStopRow_iff this si _ 0).1 h
      exact ⟨fun _ => ⟨si, i, ⟨le_refl _, by push_cast; omega⟩, ⟨h1, by omega⟩, h3⟩,
        fun _ => rfl⟩
    · rw [tmTableContainsStopLoop, if_neg h, ih]
      constructor
      · rintro ⟨s, i, ⟨h1, h2⟩, h3, h4⟩
        exact ⟨s, i, ⟨by omega, by push_cast; omega⟩, h3, h4⟩
      · rintro ⟨s, i, ⟨h1, h2⟩, h3, h4⟩
        have hne : s ≠ si := by
          intro hs
          apply h
          rw [hs] at h4
          exact (tmTableContainsStopRow_iff this si _ 0).2 ⟨i, h3.1, by omega, h4⟩
        exact ⟨s, i, ⟨by omega, by push_cast at h2; omega⟩, h3, h4⟩

/-- `tmTableContainsStop` returns 1 when some cell of the shape has move `STOP`, else 0. -/
theorem tmTableContainsStop_iff (this : TuringMachineT) :
    (tmTableContainsStop this = 0 ↔ ¬ HasStop this) ∧
    (tmTableContainsStop this = 0 ∨ tmTableContainsStop this = 1) := by
  have hiff : tmTableContainsStopLoop this this.num_states.toNat 0 = true ↔ HasStop this := by
    rw [tmTableContainsStopLoop_iff]
    unfold HasStop
    constructor
    · rintro ⟨s, i, ⟨h1, h2⟩, ⟨h3, h4⟩, h5⟩
      exact ⟨s, i, ⟨h1, by omega⟩, ⟨h3, by omega⟩, h5⟩
    · rintro ⟨s, i, ⟨h1, h2⟩, ⟨h3, h4⟩, h5⟩
      exact ⟨s, i, ⟨h1, by omega⟩, ⟨h3, by omega⟩, h5⟩
  unfold tmTableContainsStop
  by_cases h : tmTableContainsStopLoop this this.num_states.toNat 0 = true
  · rw [if_pos h]
    exact ⟨⟨fun h0 => absurd h0 (by decide), fun hn => absurd (hiff.1 h) hn⟩, Or.inr rfl⟩
  · rw [if_neg h]
    exact ⟨⟨fun _ hs => h (hiff.2 hs), fun _ => rfl⟩, Or.inl rfl⟩

theorem tmTableBFS_none_lt (this : TuringMachineT) (hwf : WellFormedTable this)
    (fifo : Option FifoT) (hstatic : StaticOK fifo this) :
    ∃ r : FifoT × Int, tmTableBFS fifo this none = some r ∧ StaticOK (some r.1) this ∧
      (r.2 < this.num_states ↔ ¬ AllReach this) := by
  obtain ⟨r, h1, hs, P, h2, h3, h4⟩ := tmTableBFS_none this hwf fifo hstatic
  obtain ⟨c1, c2, c3⟩ := reachSet_card this hwf.1 P h2 h3
  rw [← h4] at c1 c2 c3
  refine ⟨r, h1, hs, ?_⟩
  unfold AllReach
  rw [← c3]
  omega

theorem tmTableBFS_stop (this : TuringMachineT) (hwf : WellFormedTable this)
    (fifo : Option FifoT) (hstatic : StaticOK fifo this) :
    ∃ r : FifoT × Int, tmTableBFS fifo this (some foundStop) = some r ∧
      StaticOK (some r.1) this ∧
      (r.2 ≠ 0 ↔ ReachEntry this (fun e => e.move = Move.STOP)) := by
  obtain ⟨r, h1, hs, h2⟩ := tmTableBFS_test this hwf fifo hstatic foundStop
  exact ⟨r, h1, hs, h2.trans (reachEntry_congr this _ _ foundStop_ne_zero)⟩

theorem tmTableBFS_one (this : TuringMachineT) (hwf : WellFormedTable this)
    (fifo : Option FifoT) (hstatic : StaticOK fifo this) :
    ∃ r : FifoT × Int, tmTableBFS fifo this (some foundOne) = some r ∧
      StaticOK (some r.1) this ∧
      (r.2 ≠ 0 ↔ ReachEntry this (fun e => e.write = 1)) := by
  obtain ⟨r, h1, hs, h2⟩ := tmTableBFS_test this hwf fifo hstatic foundOne
  exact ⟨r, h1, hs, h2.trans (reachEntry_congr this _ _ foundOne_ne_zero)⟩

theorem tmTableBFS_left (this : TuringMachineT) (hwf : WellFormedTable this)
    (fifo : Option FifoT) (hstatic : StaticOK fifo this) :
    ∃ r : FifoT × Int, tmTableBFS fifo this (some foundLeft) = some r ∧
      StaticOK (some r.1) this ∧
      (r.2 ≠ 0 ↔ ReachEntry this (fun e => e.move = Move.MOVE_LEFT)) := by
  obtain ⟨r, h1, hs, h2⟩ := tmTableBFS_test this hwf fifo hstatic foundLeft
  exact ⟨r, h1, hs, h2.trans (reachEntry_congr this _ _ foundLeft_ne_zero)⟩

theorem tmTableBFS_right (this : TuringMachineT) (hwf : WellFormedTable this)
    (fifo : Option FifoT) (hstatic : StaticOK fifo this) :
    ∃ r : FifoT × Int, tmTableBFS fifo this (some foundRight) = some r ∧
      StaticOK (some r.1) this ∧
      (r.2 ≠ 0 ↔ ReachEntry this (fun e => e.move = Move.MOVE_RIGHT)) := by
  obtain ⟨r, h1, hs, h2⟩ := tmTableBFS_test this hwf fifo hstatic foundRight
  exact ⟨r, h1, hs, h2.trans (reachEntry_congr this _ _ foundRight_ne_zero)⟩

/-- The conjunction `tmTableBFS(a) && !tmTableBFS(b)` of `tmTableWeed`, the second call
being made only when the first returns non-zero. -/
theorem tmTableBFS_and_not (this : TuringMachineT) (hwf : WellFormedTable this)
    (fifo : FifoT) (hstatic : StaticOK (some fifo) this) (a b : Entry → Int)
    (pa pb : Entry → Prop) (ha : ∀ e, a e ≠ 0 ↔ pa e) (hb : ∀ e, b e ≠ 0 ↔ pb e) :
    ∃ r4 r5 : FifoT × Int, tmTableBFS (some fifo) this (some a) = some r4 ∧
      (if r4.2 ≠ 0 then tmTableBFS (some r4.1) this (some b) else some (r4.1, 1)) = some r5 ∧
      StaticOK (some r5.1) this ∧
      ((r4.2 ≠ 0 ∧ r5.2 = 0) ↔ (ReachEntry this pa ∧ ¬ ReachEntry this pb)) := by
  obtain ⟨r4, h4, hs4, hd4⟩ := tmTableBFS_test this hwf (some fifo) hstatic a
  have hd4b := hd4.trans (reachEntry_congr this _ _ ha)
  by_cases hr : r4.2 ≠ 0
  · obtain ⟨r5, h5, hs5, hd5⟩ := tmTableBFS_test this hwf (some r4.1) hs4 b
    have hd5b := hd5.trans (reachEntry_congr this _ _ hb)
    refine ⟨r4, r5, h4, by rw [if_pos hr]; exact h5, hs5, ?_⟩
    constructor
    · rintro ⟨-, h0⟩
      exact ⟨hd4b.1 hr, fun h => (hd5b.2 h) h0⟩
    · rintro ⟨-, h0⟩
      refine ⟨hr, ?_⟩
      by_contra hne
      exact h0 (hd5b.1 hne)
  · refine ⟨r4, (r4.1, 1), h4, by rw [if_neg hr], hs4, ?_⟩
    constructor
    · rintro ⟨h0, -⟩
      exact absurd h0 hr
    · rintro ⟨h0, -⟩
      exact absurd (hd4b.2 h0) hr

/-- **C16.** `tmTableWeed` is an ordered chain in which the first applicable reason wins:
for every well-formed table the call returns, and it returns 1 if `table[0][0].next = 0`;
else 2 if `table[0][0].move` is Stop; else 3 if no cell's move is Stop; else 4 if no Stop
entry is reachable from state 0; else 5 if fewer than `num_states` states are reachable
from state 0; else 6 if no reachable entry writes 1; else 7 if a Left move is reachable
and no Right move is; else 8 if a Right move is reachable and no Left move is; and 0
(accept) exactly when none of these conditions holds.  (The functions of the chain read
the machine and write only the static queue of `tmTableBFS`; in the model they take the
machine as an argument and do not return it.) -/
theorem tmTableWeed_chain (this : TuringMachineT) (fifo : Option FifoT)
    (hwf : WellFormedTable this) (hstatic : StaticOK fifo this) :
    ∃ r : Option FifoT × Int, tmTableWeed fifo this = some r ∧ WeedReason this r.2 := by
  unfold tmTableWeed WeedReason
  by_cases c1 : (this.table 0 0).next = 0
  · rw [if_pos c1.symm]
    exact ⟨_, rfl, Or.inl ⟨c1, rfl⟩⟩
  rw [if_neg (fun h => c1 h.symm)]
  by_cases c2 : (this.table 0 0).move = Move.STOP
  · rw [if_pos c2.symm]
    exact ⟨_, rfl, Or.inr ⟨c1, Or.inl ⟨c2, rfl⟩⟩⟩
  rw [if_neg (fun h => c2 h.symm)]
  obtain ⟨hstop, -⟩ := tmTableContainsStop_iff this
  by_cases c3 : tmTableContainsStop this = 0
  · rw [if_pos c3]
    exact ⟨_, rfl, Or.inr ⟨c1, Or.inr ⟨c2, Or.inl ⟨hstop.1 c3, rfl⟩⟩⟩⟩
  rw [if_neg c3]
  have c3b : HasStop this := by
    by_contra hn
    exact c3 (hstop.2 hn)
  obtain ⟨r1, h1, hs1, hd1⟩ := tmTableBFS_stop this hwf fifo hstatic
  simp only [h1]
  by_cases c4 : r1.2 = 0
  · rw [if_pos c4]
    exact ⟨_, rfl, Or.inr ⟨c1, Or.inr ⟨c2, Or.inr ⟨c3b,
      Or.inl ⟨fun h => (hd1.2 h) c4, rfl⟩⟩⟩⟩⟩
  rw [if_neg c4]
  obtain ⟨r2, h2, hs2, hd2⟩ := tmTableBFS_none_lt this hwf (some r1.1) hs1
  simp only [h2]
  by_cases c5 : r2.2 < this.num_states
  · rw [if_pos c5]
    exact ⟨_, rfl, Or.inr ⟨c1, Or.inr ⟨c2, Or.inr ⟨c3b, Or.inr ⟨hd1.1 c4,
      Or.inl ⟨hd2.1 c5, rfl⟩⟩⟩⟩⟩⟩
  rw [if_neg c5]
  have c5b : AllReach this := by
    by_contra hn
    exact c5 (hd2.2 hn)
  obtain ⟨r3, h3, hs3, hd3⟩ := tmTableBFS_one this hwf (some r2.1) hs2
  simp only [h3]
  by_cases c6 : r3.2 = 0
  · rw [if_pos c6]
    exact ⟨_, rfl, Or.inr ⟨c1, Or.inr ⟨c2, Or.inr ⟨c3b, Or.inr ⟨hd1.1 c4,
      Or.inr ⟨c5b, Or.inl ⟨fun h => (hd3.2 h) c6, rfl⟩⟩⟩⟩⟩⟩⟩
  rw [if_neg c6]
  obtain ⟨r4, r5, h4, h5, hs5, hd5⟩ := tmTableBFS_and_not this hwf r3.1 hs3
    foundLeft foundRight _ _ foundLeft_ne_zero foundRight_ne_zero
  simp only [h4, h5]
  by_cases c7 : r4.2 ≠ 0 ∧ r5.2 = 0
  · rw [if_pos c7]
    exact ⟨_, rfl, Or.inr ⟨c1, Or.inr ⟨c2, Or.inr ⟨c3b, Or.inr ⟨hd1.1 c4,
      Or.inr ⟨c5b, Or.inr ⟨hd3.1 c6, Or.inl ⟨hd5.1 c7, rfl⟩⟩⟩⟩⟩⟩⟩⟩
  rw [if_neg c7]
  obtain ⟨r6, r7, h6, h7, hs7, hd7⟩ := tmTableBFS_and_not this hwf r5.1 hs5
    foundRight foundLeft _ _ foundRight_ne_zero foundLeft_ne_zero
  simp only [h6, h7]
  by_cases c8 : r6.2 ≠ 0 ∧ r7.2 = 0
  · rw [if_pos c8]
    exact ⟨_, rfl, Or.inr ⟨c1, Or.inr ⟨c2, Or.inr ⟨c3b, Or.inr ⟨hd1.1 c4,
      Or.inr ⟨c5b, Or.inr ⟨hd3.1 c6, Or.inr ⟨fun h => c7 (hd5.2 h),
        Or.inl ⟨hd7.1 c8, rfl⟩⟩⟩⟩⟩⟩⟩⟩⟩
  rw [if_neg c8]
  exact ⟨_, rfl, Or.inr ⟨c1, Or.inr ⟨c2, Or.inr ⟨c3b, Or.inr ⟨hd1.1 c4,
    Or.inr ⟨c5b, Or.inr ⟨hd3.1 c6, Or.inr ⟨fun h => c7 (hd5.2 h),
      Or.inr ⟨fun h => c8 (hd7.2 h), rfl⟩⟩⟩⟩⟩⟩⟩⟩⟩

theorem busyBeaver2_wellFormedTable : WellFormedTable (busyBeaver2 1) := by
  have e1 : (busyBeaver2 1).num_states = 2 := by decide
  have e2 : (busyBeaver2 1).charset_max = 1 := by decide
  refine ⟨by decide, by decide, ?_⟩
  intro s i h0 h1 h2 h3
  rw [e1] at h1
  rw [e2] at h3
  rw [e1, e2]
  interval_cases s <;> interval_cases i <;> (unfold WellFormedCell; decide)

theorem classicZero_wellFormedTable : WellFormedTable classicZero := by
  refine ⟨by decide, by decide, ?_⟩
  intro s i _ _ _ _
  show WellFormedCell 1 5 zeroEntry
  unfold WellFormedCell
  decide

theorem classicZero_not_hasStop : ¬ HasStop classicZero := by
  rintro ⟨s, i, -, -, h⟩
  have e : (classicZero.table s i).move = Move.MOVE_LEFT := rfl
  rw [e] at h
  exact absurd h (by decide)

theorem staticOK_none (this : TuringMachineT) : StaticOK none this := by
  intro f hf
  cases hf

theorem tmTableWeed_chain_witness :
    WellFormedTable (busyBeaver2 1) ∧ StaticOK none (busyBeaver2 1) ∧
    ∃ r : Option FifoT × Int, tmTableWeed none (busyBeaver2 1) = some r ∧
      WeedReason (busyBeaver2 1) r.2 :=
  ⟨busyBeaver2_wellFormedTable, staticOK_none _,
    tmTableWeed_chain (busyBeaver2 1) none busyBeaver2_wellFormedTable (staticOK_none _)⟩

theorem tmTableBFS_decides_witness :
    WellFormedTable (busyBeaver2 1) ∧ StaticOK none (busyBeaver2 1) ∧
    ∃ r : FifoT × Int, tmTableBFS none (busyBeaver2 1) (some foundStop) = some r ∧
      (r.2 ≠ 0 ↔ ReachEntry (busyBeaver2 1) (fun e => e.move = Move.STOP)) :=
  ⟨busyBeaver2_wellFormedTable, staticOK_none _,
    (tmTableBFS_decides (busyBeaver2 1) none busyBeaver2_wellFormedTable (staticOK_none _)).1⟩

theorem tmTableBFS_count_witness :
    WellFormedTable (busyBeaver2 1) ∧ StaticOK none (busyBeaver2 1) ∧
    ∃ r : FifoT × Int, tmTableBFS none (busyBeaver2 1) none = some r ∧
      (∃ P : Finset Int, (∀ s : Int, s ∈ P ↔ Reach (busyBeaver2 1) s) ∧ r.2 = (P.card : Int)) ∧
      (1 ≤ r.2 ∧ r.2 ≤ (busyBeaver2 1).num_states) ∧
      (r.2 = (busyBeaver2 1).num_states ↔
        ∀ s : Int, 0 ≤ s → s < (busyBeaver2 1).num_states → Reach (busyBeaver2 1) s) :=
  ⟨busyBeaver2_wellFormedTable, staticOK_none _,
    tmTableBFS_count (busyBeaver2 1) none busyBeaver2_wellFormedTable (staticOK_none _)⟩

theorem tmTableBFS_monotone_witness :
    WellFormedTable (busyBeaver2 1) ∧ StaticOK none (busyBeaver2 1) ∧
    ∃ ra rb : FifoT × Int, tmTableBFS none (busyBeaver2 1) none = some ra ∧
      tmTableBFS none (busyBeaver2 1) none = some rb ∧ ra.2 ≤ rb.2 :=
  ⟨busyBeaver2_wellFormedTable, staticOK_none _,
    tmTableBFS_monotone (busyBeaver2 1) (busyBeaver2 1) none none
      busyBeaver2_wellFormedTable busyBeaver2_wellFormedTable ⟨rfl, rfl⟩
      (fun _ i _ _ h2 h3 => ⟨i, h2, h3, rfl⟩) (staticOK_none _) (staticOK_none _)⟩

/-- **C17, counterexample.** The all-zero table of the classical shape is well-formed and
has no Stop entry, and `tmTableWeed` rejects it with reason 1 (`table[0][0].next = 0`),
not with reason 3. -/
theorem tmTableWeed_zero_table :
    WellFormedTable classicZero ∧ ¬ HasStop classicZero ∧
    tmTableWeed none classicZero = some (none, 1) :=
  ⟨classicZero_wellFormedTable, classicZero_not_hasStop, by
    unfold tmTableWeed
    rw [if_pos (by decide)]⟩

/-- **C17, amended.** For every well-formed table with zero Stop entries, `tmTableWeed`
rejects it before any reachability (`tmTableBFS`) check is evaluated: with reason 1 when
`table[0][0].next = 0`, and otherwise with the "no Stop" reason (return value 3), which is
decided by `tmTableContainsStop`.  That no `tmTableBFS` call is made shows in the static
queue, which the call leaves as it was (`NULL` if it was `NULL`). -/
theorem tmTableWeed_no_stop (this : TuringMachineT) (fifo : Option FifoT)
    (hwf : WellFormedTable this) (hstop : ¬ HasStop this) :
    tmTableContainsStop this = 0 ∧
    ((this.table 0 0).next = 0 → tmTableWeed fifo this = some (fifo, 1)) ∧
    ((this.table 0 0).next ≠ 0 → tmTableWeed fifo this = some (fifo, 3)) := by
  have hc := (tmTableContainsStop_iff this).1.2 hstop
  have hm : (this.table 0 0).move ≠ Move.STOP := by
    intro hm
    exact hstop ⟨0, 0, ⟨le_refl _, by have := hwf.1; omega⟩, ⟨le_refl _, hwf.2.1⟩, hm⟩
  refine ⟨hc, ?_, ?_⟩
  · intro h
    unfold tmTableWeed
    rw [if_pos h.symm]
  · intro h
    unfold tmTableWeed
    rw [if_neg (fun h2 => h h2.symm), if_neg (fun h2 => hm h2.symm), if_pos hc]

theorem tmTableWeed_no_stop_witness :
    WellFormedTable classicZero ∧ ¬ HasStop classicZero ∧
    ((classicZero.table 0 0).next = 0 → tmTableWeed none classicZero = some (none, 1)) :=
  ⟨classicZero_wellFormedTable, classicZero_not_hasStop,
    (tmTableWeed_no_stop classicZero none classicZero_wellFormedTable
      classicZero_not_hasStop).2.1⟩

/-! ## The Stop test and the tape allocation -/

/-- C21: `tmTableContainsStop` returns a nonzero value exactly when some cell of the table
shape (state in `[0, num_states)`, symbol in `[0, charset_max]`) has move `STOP`.  The
function only reads the machine, which the model expresses by returning the answer alone:
the table after the call is the table before it. -/
theorem tmTableContainsStop_nonzero_iff (this : TuringMachineT) :
    tmTableContainsStop this ≠ 0 ↔
      ∃ s i : Int, (0 ≤ s ∧ s < this.num_states) ∧ (0 ≤ i ∧ i ≤ this.charset_max) ∧
        (this.table s i).move = Move.STOP := by
  have h := (tmTableContainsStop_iff this).1
  unfold HasStop at h
  constructor
  · intro hne
    by_contra hno
    exact hne (h.2 hno)
  · intro hex h0
    exact (h.1 h0) hex

/-- C22: after `tmTapeAlloc` the tape covers the head (`tape_len > tmTapeIndex`), the new
`tape_len` is the maximum of the old one and `tmTapeIndex + 1`, every cell below the old
`tape_len` keeps its value, every newly created cell holds 0, and the head position is
unchanged. -/
theorem tmTapeAlloc_post (this : TuringMachineT) :
    tmTapeIndex (tmTapeAlloc this) < (tmTapeAlloc this).tape_len ∧
    (tmTapeAlloc this).tape_len = max this.tape_len (tmTapeIndex this + 1) ∧
    (∀ i, i < this.tape_len → (tmTapeAlloc this).tape i = this.tape i) ∧
    (∀ i, this.tape_len ≤ i → i < (tmTapeAlloc this).tape_len →
      (tmTapeAlloc this).tape i = 0) ∧
    (tmTapeAlloc this).here = this.here := by
  obtain ⟨hh, -, -, -, -, hl, hk, hz⟩ := tmTapeAlloc_fields this
  refine ⟨?_, hl, hk, hz, hh⟩
  have hidx : tmTapeIndex (tmTapeAlloc this) = tmTapeIndex this := by
    unfold tmTapeIndex
    rw [hh]
  rw [hidx, hl]
  omega

/-! ## The successor keeps the next links in range -/

/-- One advance of a cell keeps its `next` inside `[0, num_states)`. -/
theorem tmTableNextEntry_next_range (cm ns : Int) (e : Entry) (hns : 1 ≤ ns)
    (h : 0 ≤ e.next ∧ e.next < ns) :
    0 ≤ (tmTableNextEntry cm ns e).1.next ∧ (tmTableNextEntry cm ns e).1.next < ns := by
  unfold tmTableNextEntry
  by_cases hw : e.write = cm
  · rw [if_pos hw]
    by_cases hn : e.next = ns - 1
    · rw [if_pos hn]
      cases e.move
      · show (0 : Int) ≤ 0 ∧ 0 < ns
        omega
      · show 0 ≤ ns - 1 ∧ ns - 1 < ns
        omega
      · show (0 : Int) ≤ 0 ∧ 0 < ns
        omega
    · rw [if_neg hn]
      show 0 ≤ e.next + 1 ∧ e.next + 1 < ns
      omega
  · rw [if_neg hw]
    exact h

/-- The scan on a list of cells keeps every `next` inside `[0, num_states)`. -/
theorem nextCells_next_range (cm ns : Int) (hns : 1 ≤ ns) (l : List Entry)
    (h : ∀ e ∈ l, 0 ≤ e.next ∧ e.next < ns) :
    ∀ e ∈ (nextCells cm ns l).1, 0 ≤ e.next ∧ e.next < ns := by
  induction l with
  | nil =>
    intro e he
    simp [nextCells] at he
  | cons a es ih =>
    intro e he
    have ha := tmTableNextEntry_next_range cm ns a hns (h a (List.mem_cons_self a es))
    have hes : ∀ e ∈ es, 0 ≤ e.next ∧ e.next < ns :=
      fun x hx => h x (List.mem_cons_of_mem a hx)
    unfold nextCells at he
    by_cases hf : (tmTableNextEntry cm ns a).2 = true
    · rw [if_pos hf] at he
      rcases List.mem_cons.1 he with h1 | h1
      · rw [h1]
        exact ha
      · exact hes e h1
    · rw [if_neg hf] at he
      rcases List.mem_cons.1 he with h1 | h1
      · rw [h1]
        exact ha
      · exact ih hes e h1

/-- C30: for a table with `num_states ≥ 1` in which every `next` of the shape lies in
`[0, num_states)`, every `next` of the shape after `tmTableNext` lies in
`[0, num_states)` as well. -/
theorem tmTableNext_next_valid (this : TuringMachineT) (hns : 1 ≤ this.num_states)
    (h : ∀ s i : Int, 0 ≤ s → s < this.num_states → 0 ≤ i → i ≤ this.charset_max →
      0 ≤ (this.table s i).next ∧ (this.table s i).next < this.num_states) :
    ∀ s i : Int, 0 ≤ s → s < this.num_states → 0 ≤ i → i ≤ this.charset_max →
      0 ≤ ((tmTableNext this).1.table s i).next ∧
      ((tmTableNext this).1.table s i).next < this.num_states := by
  obtain ⟨hshape, -, hcells, -⟩ := tmTableNext_spec this
  obtain ⟨hcm, hnum, -⟩ := hshape
  have hall : ∀ e ∈ scanCells this, 0 ≤ e.next ∧ e.next < this.num_states := by
    intro e he
    obtain ⟨s, i, ⟨h1, h2⟩, ⟨h3, h4⟩, h5⟩ := (mem_scanCells this e).1 he
    rw [h5]
    exact h s i h1 h2 h3 h4
  have hnew := nextCells_next_range this.charset_max this.num_states hns (scanCells this) hall
  rw [← hcells] at hnew
  intro s i h1 h2 h3 h4
  apply hnew
  rw [mem_scanCells]
  exact ⟨s, i, ⟨h1, by omega⟩, ⟨h3, by omega⟩, rfl⟩

/-- Witness of C30: the first two-state busy-beaver table. -/
theorem tmTableNext_next_valid_witness :
    1 ≤ (busyBeaver2 1).num_states ∧
    ∀ s i : Int, 0 ≤ s → s < (busyBeaver2 1).num_states → 0 ≤ i →
      i ≤ (busyBeaver2 1).charset_max →
      0 ≤ ((tmTableNext (busyBeaver2 1)).1.table s i).next ∧
      ((tmTableNext (busyBeaver2 1)).1.table s i).next < (busyBeaver2 1).num_states :=
  ⟨by decide, tmTableNext_next_valid (busyBeaver2 1) (by decide)
    (fun s i h1 h2 h3 h4 => by
      have hc := busyBeaver2_wellFormedTable.2.2 s i h1 h2 h3 h4
      unfold WellFormedCell at hc
      exact hc.2)⟩

/-! ## The queue on its own -/

/-- A queue obtained from `fifoNew length` keeps that length, which is at least 1, holds
between 0 and `length` items, and its `first` is a slot below `length`. -/
theorem fifoState_inv (length : Int) (f : FifoT) (h : FifoState length f) :
    f.length = length ∧ 1 ≤ length ∧ (0 ≤ f.count ∧ f.count ≤ f.length) ∧
    (0 ≤ f.first ∧ f.first < f.length) := by
  induction h with
  | new f hnew =>
    unfold fifoNew at hnew
    by_cases hl : length < 1
    · rw [if_pos hl] at hnew
      exact absurd hnew (by simp)
    · rw [if_neg hl] at hnew
      have he := Option.some.inj hnew
      rw [← he]
      refine ⟨rfl, by omega, ⟨le_refl 0, ?_⟩, ⟨le_refl 0, ?_⟩⟩
      · show (0 : Int) ≤ length
        omega
      · show (0 : Int) < length
        omega
  | add f item r _ hadd ih =>
    obtain ⟨h1, h2, ⟨h3, h4⟩, h5⟩ := ih
    unfold fifoAdd at hadd
    by_cases hfull : f.count = f.length
    · rw [if_pos hfull] at hadd
      have he := Option.some.inj hadd
      rw [← he]
      exact ⟨h1, h2, ⟨h3, h4⟩, h5⟩
    · rw [if_neg hfull] at hadd
      by_cases hbad : f.count < 0 ∨ f.count > f.length
      · rw [if_pos hbad] at hadd
        exact absurd hadd (by simp)
      · rw [if_neg hbad] at hadd
        by_cases hout : f.first + f.count < 0 ∨ fifoSlots f ≤ f.first + f.count
        · rw [if_pos hout] at hadd
          exact absurd hadd (by simp)
        · rw [if_neg hout] at hadd
          have he := Option.some.inj hadd
          rw [← he]
          refine ⟨h1, h2, ⟨?_, ?_⟩, h5⟩
          · show 0 ≤ f.count + 1
            omega
          · show f.count + 1 ≤ f.length
            omega
  | pop f r _ hpop ih =>
    obtain ⟨h1, h2, ⟨h3, h4⟩, ⟨h5, h6⟩⟩ := ih
    unfold fifoPop at hpop
    by_cases hempty : 0 = f.count
    · simp only [if_pos hempty] at hpop
      have he := Option.some.inj hpop
      rw [← he]
      exact ⟨h1, h2, ⟨h3, h4⟩, ⟨h5, h6⟩⟩
    · simp only [if_neg hempty] at hpop
      by_cases hbad : f.count < 0 ∨ f.count > f.length
      · rw [if_pos hbad] at hpop
        exact absurd hpop (by simp)
      · rw [if_neg hbad] at hpop
        have he := Option.some.inj hpop
        rw [← he]
        have hl : (0 : Int) < f.length := by omega
        refine ⟨h1, h2, ⟨?_, ?_⟩, ⟨?_, ?_⟩⟩
        · show 0 ≤ f.count - 1
          omega
        · show f.count - 1 ≤ f.length
          omega
        · show 0 ≤ Int.tmod (f.first + 1) f.length
          rw [Int.tmod_eq_emod (by omega) (by omega)]
          exact Int.emod_nonneg _ (by omega)
        · show Int.tmod (f.first + 1) f.length < f.length
          rw [Int.tmod_eq_emod (by omega) (by omega)]
          exact Int.emod_lt_of_pos _ hl
  | reset f _ ih =>
    obtain ⟨h1, h2, _, _⟩ := ih
    refine ⟨h1, h2, ⟨le_refl 0, ?_⟩, ⟨le_refl 0, ?_⟩⟩
    · show (0 : Int) ≤ f.length
      omega
    · show (0 : Int) < f.length
      omega

/-- Where the store of `fifoAdd` falls inside the block, the bounds of a queue created by
`fifoNew length` (and used through `fifoAdd`, `fifoPop`, `fifoReset`) are reported:
`fifoAdd` on a queue holding `length` items returns 1 and leaves the queue (first, count,
stored items) unchanged; on a queue holding fewer items, with the slot `first + count`
inside the block of `fifoSlots` slots, it returns 0 and the count grows by one; `fifoPop`
on a queue holding no item returns `NULL` (0) and leaves the queue unchanged. -/
theorem fifo_boundary (length : Int) (f : FifoT) (item : Int) (h : FifoState length f) :
    (f.count = length → fifoAdd f item = some (f, 1)) ∧
    (f.count ≠ length → f.first + f.count < fifoSlots f →
      ∃ g : FifoT, fifoAdd f item = some (g, 0) ∧ g.count = f.count + 1) ∧
    (f.count = 0 → fifoPop f = some (f, 0)) := by
  obtain ⟨h1, h2, ⟨h3, h4⟩, ⟨h5, h6⟩⟩ := fifoState_inv length f h
  refine ⟨?_, ?_, ?_⟩
  · intro hc
    unfold fifoAdd
    rw [if_pos (by omega)]
  · intro hc hin
    unfold fifoAdd
    rw [if_neg (by omega), if_neg (by omega), if_neg (by omega)]
    exact ⟨_, rfl, rfl⟩
  · intro hc
    unfold fifoPop
    simp only [if_pos hc.symm]

/-- A sequence of calls that return leads from a queue of a program to a queue of a
program. -/
theorem fifoAfter_state (length : Int) (ops : List FifoOp) :
    ∀ f g : FifoT, FifoState length f → fifoAfter f ops = some g → FifoState length g := by
  induction ops with
  | nil =>
    intro f g hf h
    have e : f = g := Option.some.inj h
    rw [← e]
    exact hf
  | cons op ops ih =>
    intro f g hf h
    cases op with
    | add item =>
      cases hadd : fifoAdd f item with
      | none =>
        simp only [fifoAfter, hadd] at h
        exact absurd h (by simp)
      | some r =>
        simp only [fifoAfter, hadd] at h
        exact ih r.1 g (FifoState.add f item r hf hadd) h
    | pop =>
      cases hpop : fifoPop f with
      | none =>
        simp only [fifoAfter, hpop] at h
        exact absurd h (by simp)
      | some r =>
        simp only [fifoAfter, hpop] at h
        exact ih r.1 g (FifoState.pop f r hf hpop) h

/-- The queue after the calls `overflowOps` on `fifoNew 4` is a queue of a program; it
holds 3 of 4 items, and `fifoAdd` on it stores outside the block. -/
theorem fifoState_overflow :
    ∃ g : FifoT, (fifoNew 4).bind (fun f => fifoAfter f overflowOps) = some g ∧
      FifoState 4 g ∧ g.first = 3 ∧ g.count = 3 ∧ fifoAdd g 7 = none := by
  refine ⟨_, rfl, ?_, rfl, rfl, rfl⟩
  exact fifoAfter_state 4 overflowOps _ _ (FifoState.new _ rfl) rfl

/-- **C24, failing run.** On the queue of `fifoNew 4` the calls `add 1, add 2, add 3, pop,
pop, pop, add 4, add 5, add 6` return `0, 0, 0, 1, 2, 3, 0, 0, 0` and leave a queue with
`length = 4`, `first = 3`, `count = 3` in a block of 6 slots.  The queue is not full, yet
a further `fifoAdd` neither returns 1 nor returns 0 with the count raised: its store goes
to the slot `first + count = 6`, outside the block, and the call has no defined result.
The bounded queue of the specification accepts the item. -/
theorem fifoAdd_outside_block :
    (fifoNew 4).bind (fun f => fifoRun f overflowOps) = some [0, 0, 0, 1, 2, 3, 0, 0, 0] ∧
    ((fifoNew 4).bind (fun f => fifoAfter f overflowOps)).map
      (fun f => (f.length, f.first, f.count, f.first + f.count, fifoSlots f)) =
        some (4, 3, 3, 6, 6) ∧
    ((fifoNew 4).bind (fun f => fifoAfter f overflowOps)).map
      (fun f => (fifoAdd f 7).isNone) = some true ∧
    (fifoNew 4).bind (fun f => fifoRun f (overflowOps ++ [FifoOp.add 7])) = none ∧
    fifoSpecRun 4 [] (overflowOps ++ [FifoOp.add 7]) = [0, 0, 0, 1, 2, 3, 0, 0, 0, 0] := by
  refine ⟨?_, ?_, ?_, ?_, ?_⟩
  · decide
  · decide
  · decide
  · decide
  · decide

/-- C23: the queue of `fifoNew 3` does not keep the order of the items once `first` has
wrapped.  The calls `add 1, pop, add 2, add 3, add 4, pop, pop, pop` return
`0, 1, 0, 0, 0, 2, 3, 1`: the last pop returns the item 1 again, where a
first-in-first-out queue returns 4.  `fifoAdd` stores at the slot `first + count`,
`fifoPop` reduces `first` modulo `length`. -/
theorem fifoRun_order_broken :
    (fifoNew 3).bind (fun f => fifoRun f wrapOps) = some [0, 1, 0, 0, 0, 2, 3, 1] ∧
    fifoSpecRun 3 [] wrapOps = [0, 1, 0, 0, 0, 2, 3, 4] := by
  constructor
  · decide
  · decide

/-- The cells that `tmTapeMove` creates hold 0. -/
theorem tmTapeMove_new_cells (this : TuringMachineT) (mv : Move) :
    ∀ i, this.tape_len ≤ i → i < (tmTapeMove this mv).1.tape_len →
      (tmTapeMove this mv).1.tape i = 0 := by
  cases mv
  · exact (tmTapeAlloc_fields { this with here := this.here - 1 }).2.2.2.2.2.2.2
  · exact (tmTapeAlloc_fields { this with here := this.here + 1 }).2.2.2.2.2.2.2
  · intro i h1 h2
    have h3 : i < this.tape_len := h2
    omega

/-- The fields of the machine after `tmUpdate` other than the tape. -/
theorem tmUpdate_frame (this : TuringMachineT) :
    (tmUpdate this).1.table = this.table ∧
    (tmUpdate this).1.charset_max = this.charset_max ∧
    (tmUpdate this).1.num_states = this.num_states ∧
    (tmUpdate this).1.state = (currentEntry this).next := by
  rw [tmUpdate_fst]
  have h := tmTapeMove_fields (tmTapeFrameSet this (currentEntry this).write)
    (currentEntry this).move
  exact ⟨h.2.2.1, h.2.2.2.1, h.2.2.2.2.1, rfl⟩

/-- The tape after `tmUpdate`: the cell under the head holds the symbol written, the other
old cells keep their value, new cells hold 0. -/
theorem tmUpdate_tape (this : TuringMachineT) :
    (∀ i, i < this.tape_len → (tmUpdate this).1.tape i =
      if i = tmTapeIndex this then (currentEntry this).write else this.tape i) ∧
    (∀ i, this.tape_len ≤ i → i < (tmUpdate this).1.tape_len → (tmUpdate this).1.tape i = 0) := by
  rw [tmUpdate_fst]
  have h1 := tmTapeMove_fields (tmTapeFrameSet this (currentEntry this).write)
    (currentEntry this).move
  have h2 := tmTapeMove_new_cells (tmTapeFrameSet this (currentEntry this).write)
    (currentEntry this).move
  constructor
  · intro i hi
    exact h1.2.2.2.2.2 i hi
  · intro i hi hlt
    exact h2 i hi hlt

/-- One step keeps a machine well formed. -/
theorem wellFormed_tmUpdate (this : TuringMachineT) (h : WellFormed this) :
    WellFormed (tmUpdate this).1 := by
  obtain ⟨htab, hstate, htape, hhead⟩ := h
  have hidx := tmTapeIndex_nonneg this
  have hframe : 0 ≤ tmTapeFrame this ∧ tmTapeFrame this ≤ this.charset_max :=
    htape (tmTapeIndex this) hidx hhead
  have hcell := htab this.state (tmTapeFrame this) hstate.1 hstate.2 hframe.1 hframe.2
  obtain ⟨hT, hC, hN, hS⟩ := tmUpdate_frame this
  obtain ⟨hold, hnew⟩ := tmUpdate_tape this
  obtain ⟨hin, hge, -⟩ := tmUpdate_tape_len this hhead
  refine ⟨?_, ?_, ?_, hin⟩
  · rw [hT, hC, hN]
    exact htab
  · rw [hS, hN]
    exact hcell.2
  · intro i h0 h1
    rw [hC]
    by_cases hlt : i < this.tape_len
    · rw [hold i hlt]
      by_cases hi : i = tmTapeIndex this
      · rw [if_pos hi]
        exact hcell.1
      · rw [if_neg hi]
        exact htape i h0 hlt
    · rw [hnew i (by omega) h1]
      exact ⟨le_refl 0, by omega⟩

/-! ## Tables that differ in Stop cells only -/

theorem tmTapeAlloc_withTable (a : TuringMachineT) (t : Int → Int → Entry) :
    tmTapeAlloc (withTable a t) = withTable (tmTapeAlloc a) t := by
  unfold tmTapeAlloc
  by_cases h : a.tape_len ≤ tmTapeIndex a
  · have h2 : (withTable a t).tape_len ≤ tmTapeIndex (withTable a t) := h
    rw [if_pos h, if_pos h2]
    rfl
  · have h2 : ¬ (withTable a t).tape_len ≤ tmTapeIndex (withTable a t) := h
    rw [if_neg h, if_neg h2]

theorem tmTapeMove_withTable (a : TuringMachineT) (t : Int → Int → Entry) (mv : Move) :
    tmTapeMove (withTable a t) mv = (withTable (tmTapeMove a mv).1 t, (tmTapeMove a mv).2) := by
  cases mv
  · show (tmTapeAlloc (withTable { a with here := a.here - 1 } t), (0 : Int)) = _
    rw [tmTapeAlloc_withTable]
    rfl
  · show (tmTapeAlloc (withTable { a with here := a.here + 1 } t), (0 : Int)) = _
    rw [tmTapeAlloc_withTable]
    rfl
  · rfl

/-- A step on a replaced table that reads the same entry does the same. -/
theorem tmUpdate_withTable (a : TuringMachineT) (t : Int → Int → Entry)
    (h : currentEntry (withTable a t) = currentEntry a) :
    tmUpdate (withTable a t) = (withTable (tmUpdate a).1 t, (tmUpdate a).2) := by
  have h1 : (tmUpdate (withTable a t)).1 = withTable (tmUpdate a).1 t := by
    rw [tmUpdate_fst, tmUpdate_fst, h]
    have e : tmTapeFrameSet (withTable a t) (currentEntry a).write =
        withTable (tmTapeFrameSet a (currentEntry a).write) t := rfl
    rw [e, tmTapeMove_withTable]
    rfl
  have h2 : (tmUpdate (withTable a t)).2 = (tmUpdate a).2 := by
    rw [tmUpdate_snd, tmUpdate_snd, h]
  exact Prod.ext h1 h2

/-- A step that reads a `STOP` entry writes its symbol, keeps the head and enters its
`next`. -/
theorem tmUpdate_stop (x : TuringMachineT) (h : (currentEntry x).move = Move.STOP) :
    (tmUpdate x).1 =
      { tmTapeFrameSet x (currentEntry x).write with state := (currentEntry x).next } := by
  rw [tmUpdate_fst, h]
  rfl

/-- The loop of `tmSimulate` does nothing once `stop` is set. -/
theorem tmSimulateLoop_stopped (max_iters tape_len_max : Int) (fuel : Nat)
    (x : TuringMachineT) (stop iters : Int) (h : stop ≠ 0) :
    tmSimulateLoop max_iters tape_len_max fuel x stop iters = (x, stop, iters) := by
  cases fuel with
  | zero => rfl
  | succ n =>
    unfold tmSimulateLoop
    rw [if_neg (fun hc => h hc.1)]

/-- The loop of `tmSimulate` on two tables that differ in Stop cells only: the loop
variables agree, and the machines agree up to the table unless the last step read a
`STOP` entry. -/
theorem tmSimulateLoop_stopVariant (max_iters tape_len_max : Int) (tb : Int → Int → Entry)
    (fuel : Nat) :
    ∀ (a : TuringMachineT) (stop iters : Int), WellFormed a →
      StopVariant a.charset_max a.num_states a.table tb →
      (tmSimulateLoop max_iters tape_len_max fuel (withTable a tb) stop iters).2 =
        (tmSimulateLoop max_iters tape_len_max fuel a stop iters).2 ∧
      ((tmSimulateLoop max_iters tape_len_max fuel (withTable a tb) stop iters).1 =
          withTable (tmSimulateLoop max_iters tape_len_max fuel a stop iters).1 tb ∨
        ∃ x : TuringMachineT, WellFormed x ∧ x.table = a.table ∧
          x.charset_max = a.charset_max ∧ x.num_states = a.num_states ∧
          (currentEntry x).move = Move.STOP ∧
          (tmSimulateLoop max_iters tape_len_max fuel a stop iters).1 = (tmUpdate x).1 ∧
          (tmSimulateLoop max_iters tape_len_max fuel (withTable a tb) stop iters).1 =
            (tmUpdate (withTable x tb)).1) := by
  induction fuel with
  | zero =>
    intro a stop iters _ _
    exact ⟨rfl, Or.inl rfl⟩
  | succ n ih =>
    intro a stop iters hwf hv
    unfold tmSimulateLoop
    by_cases hg : stop = 0 ∧ iters < max_iters ∧ a.tape_len < tape_len_max
    · have hg2 : stop = 0 ∧ iters < max_iters ∧ (withTable a tb).tape_len < tape_len_max := hg
      rw [if_pos hg, if_pos hg2]
      obtain ⟨htab, hstate, htape, hhead⟩ := hwf
      have hframe := htape (tmTapeIndex a) (tmTapeIndex_nonneg a) hhead
      have hcell := hv a.state (tmTapeFrame a) hstate.1 hstate.2 hframe.1 hframe.2
      have hmove : (currentEntry (withTable a tb)).move = (currentEntry a).move := hcell.1.symm
      by_cases hs : (currentEntry a).move = Move.STOP
      · have f1 : (tmUpdate a).2 = 1 := by rw [tmUpdate_snd, if_pos hs]
        have f2 : (tmUpdate (withTable a tb)).2 = 1 := by
          rw [tmUpdate_snd, if_pos (hmove.trans hs)]
        rw [f1, f2, tmSimulateLoop_stopped _ _ _ _ _ _ (by decide),
          tmSimulateLoop_stopped _ _ _ _ _ _ (by decide)]
        exact ⟨rfl, Or.inr ⟨a, ⟨htab, hstate, htape, hhead⟩, rfl, rfl, rfl, hs, rfl, rfl⟩⟩
      · have heq : currentEntry (withTable a tb) = currentEntry a := (hcell.2 hs).symm
        rw [tmUpdate_withTable a tb heq]
        obtain ⟨hT, hC, hN, -⟩ := tmUpdate_frame a
        have hwf1 := wellFormed_tmUpdate a ⟨htab, hstate, htape, hhead⟩
        have hv1 : StopVariant (tmUpdate a).1.charset_max (tmUpdate a).1.num_states
            (tmUpdate a).1.table tb := by
          rw [hT, hC, hN]
          exact hv
        obtain ⟨r1, r2⟩ := ih (tmUpdate a).1 (tmUpdate a).2 (iters + 1) hwf1 hv1
        refine ⟨r1, ?_⟩
        rcases r2 with r2 | ⟨x, hx, hxT, hxC, hxN, hxs, hxa, hxb⟩
        · exact Or.inl r2
        · exact Or.inr ⟨x, hx, hxT.trans hT, hxC.trans hC, hxN.trans hN, hxs, hxa, hxb⟩
    · have hg2 : ¬ (stop = 0 ∧ iters < max_iters ∧ (withTable a tb).tape_len < tape_len_max) := hg
      rw [if_neg hg, if_neg hg2]
      exact ⟨rfl, Or.inl rfl⟩

/-- The result of `tmSimulate` in terms of the result of its loop. -/
theorem tmSimulate_of_loop (this : TuringMachineT) (max_iters tape_len_max : Int) :
    (tmSimulate this max_iters tape_len_max).1 =
      (tmSimulateLoop max_iters tape_len_max max_iters.toNat this 0 0).1 ∧
    (tmSimulate this max_iters tape_len_max).2 =
      (if (tmSimulateLoop max_iters tape_len_max max_iters.toNat this 0 0).2.1 ≠ 0 then
        (tmSimulateLoop max_iters tape_len_max max_iters.toNat this 0 0).2.2
      else if (tmSimulateLoop max_iters tape_len_max max_iters.toNat this 0 0).1.tape_len
          ≥ tape_len_max then -2
      else -1) := by
  unfold tmSimulate
  simp only
  constructor
  · split_ifs <;> rfl
  · split_ifs <;> rfl

theorem stopWrite_wellFormed (w : Int) (h0 : 0 ≤ w) (h1 : w ≤ 1) : WellFormed (stopWrite w) := by
  have e1 : (stopWrite w).charset_max = 1 := rfl
  have e2 : (stopWrite w).num_states = 1 := rfl
  have e3 : (stopWrite w).state = 0 := rfl
  have e4 : (stopWrite w).tape_len = 1 := rfl
  have e5 : tmTapeIndex (stopWrite w) = 0 := rfl
  have e6 : (stopWrite w).tape 0 = 0 := rfl
  refine ⟨?_, ?_, ?_, ?_⟩
  · intro s i _ _ _ _
    have e : (stopWrite w).table s i = { write := w, move := Move.STOP, next := 0 } := rfl
    rw [e, e1, e2]
    exact ⟨⟨h0, h1⟩, le_refl 0, Int.zero_lt_one⟩
  · rw [e2, e3]
    exact ⟨le_refl 0, Int.zero_lt_one⟩
  · intro i h0 h1
    rw [e4] at h1
    have e7 : i = 0 := by omega
    subst e7
    rw [e1, e6]
    exact ⟨le_refl 0, Int.zero_le_ofNat 1⟩
  · rw [e4, e5]
    exact Int.zero_lt_one

theorem stopWrite_stopVariant :
    StopVariant (stopWrite 1).charset_max (stopWrite 1).num_states (stopWrite 1).table
      (stopWrite 0).table := by
  intro s i _ _ _ _
  refine ⟨rfl, ?_⟩
  intro h
  exact absurd rfl h

/-- C29, counterexample: two well-formed one-state tables that differ only in the `write`
field of their Stop cells, started on the same blank tape.  Both runs return 1, but the
final tapes differ at the cell under the head (1 against 0), and so do the mark counts:
`tmUpdate` stores the `write` of the entry before it tests for `STOP`. -/
theorem tmSimulate_stop_write_visible :
    WellFormed (stopWrite 1) ∧ WellFormed (stopWrite 0) ∧
    StopVariant (stopWrite 1).charset_max (stopWrite 1).num_states (stopWrite 1).table
      (stopWrite 0).table ∧
    stopWrite 0 = withTable (stopWrite 1) (stopWrite 0).table ∧
    (tmSimulate (stopWrite 1) 10 10).2 = 1 ∧ (tmSimulate (stopWrite 0) 10 10).2 = 1 ∧
    (tmSimulate (stopWrite 1) 10 10).1.tape 0 = 1 ∧
    (tmSimulate (stopWrite 0) 10 10).1.tape 0 = 0 ∧
    tmTapeOneCount (tmSimulate (stopWrite 1) 10 10).1 = 1 ∧
    tmTapeOneCount (tmSimulate (stopWrite 0) 10 10).1 = 0 :=
  ⟨stopWrite_wellFormed 1 (by decide) (by decide),
    stopWrite_wellFormed 0 (by decide) (by decide), stopWrite_stopVariant, rfl,
    by decide, by decide, by decide, by decide, by decide, by decide⟩

/-- C29, amended: the `next` field of a Stop entry has no operational effect on the run,
and its `write` field affects only the cell under the head at the halting step.  For a
well-formed machine `a` and a table `tb` of the same shape that differs from the table of
`a` at most in the `write` and `next` fields of Stop cells, `tmSimulate` with the same
limits from the same state, head and tape returns the same value, the same head position
and the same tape length, and final tapes that agree on every cell other than the one
under the head; when the two tables also agree on the `write` of their Stop cells (they
differ in `next` fields only), the final tapes and the mark counts are the same. -/
theorem tmSimulate_stop_fields (a : TuringMachineT) (tb : Int → Int → Entry)
    (max_iters tape_len_max : Int) (hwf : WellFormed a)
    (hv : StopVariant a.charset_max a.num_states a.table tb) :
    (tmSimulate (withTable a tb) max_iters tape_len_max).2 =
      (tmSimulate a max_iters tape_len_max).2 ∧
    (tmSimulate (withTable a tb) max_iters tape_len_max).1.here =
      (tmSimulate a max_iters tape_len_max).1.here ∧
    (tmSimulate (withTable a tb) max_iters tape_len_max).1.tape_len =
      (tmSimulate a max_iters tape_len_max).1.tape_len ∧
    (∀ i : Int, i ≠ tmTapeIndex (tmSimulate a max_iters tape_len_max).1 →
      (tmSimulate (withTable a tb) max_iters tape_len_max).1.tape i =
        (tmSimulate a max_iters tape_len_max).1.tape i) ∧
    ((∀ s i : Int, 0 ≤ s → s < a.num_states → 0 ≤ i → i ≤ a.charset_max →
        (a.table s i).move = Move.STOP → (tb s i).write = (a.table s i).write) →
      (tmSimulate (withTable a tb) max_iters tape_len_max).1.tape =
        (tmSimulate a max_iters tape_len_max).1.tape ∧
      tmTapeOneCount (tmSimulate (withTable a tb) max_iters tape_len_max).1 =
        tmTapeOneCount (tmSimulate a max_iters tape_len_max).1) := by
  obtain ⟨r1, r2⟩ := tmSimulateLoop_stopVariant max_iters tape_len_max tb max_iters.toNat
    a 0 0 hwf hv
  obtain ⟨a1, a2⟩ := tmSimulate_of_loop a max_iters tape_len_max
  obtain ⟨b1, b2⟩ := tmSimulate_of_loop (withTable a tb) max_iters tape_len_max
  have key :
      (tmSimulateLoop max_iters tape_len_max max_iters.toNat (withTable a tb) 0 0).1.here =
        (tmSimulateLoop max_iters tape_len_max max_iters.toNat a 0 0).1.here ∧
      (tmSimulateLoop max_iters tape_len_max max_iters.toNat (withTable a tb) 0 0).1.tape_len =
        (tmSimulateLoop max_iters tape_len_max max_iters.toNat a 0 0).1.tape_len ∧
      (∀ i : Int,
        i ≠ tmTapeIndex (tmSimulateLoop max_iters tape_len_max max_iters.toNat a 0 0).1 →
        (tmSimulateLoop max_iters tape_len_max max_iters.toNat (withTable a tb) 0 0).1.tape i =
          (tmSimulateLoop max_iters tape_len_max max_iters.toNat a 0 0).1.tape i) ∧
      ((∀ s i : Int, 0 ≤ s → s < a.num_states → 0 ≤ i → i ≤ a.charset_max →
          (a.table s i).move = Move.STOP → (tb s i).write = (a.table s i).write) →
        (tmSimulateLoop max_iters tape_len_max max_iters.toNat (withTable a tb) 0 0).1.tape =
          (tmSimulateLoop max_iters tape_len_max max_iters.toNat a 0 0).1.tape) := by
    rcases r2 with r2 | ⟨x, hx, hxT, hxC, hxN, hxs, hxa, hxb⟩
    · rw [r2]
      exact ⟨rfl, rfl, fun _ _ => rfl, fun _ => rfl⟩
    · obtain ⟨-, hstate, htape, hhead⟩ := hx
      have hframe : 0 ≤ tmTapeFrame x ∧ tmTapeFrame x ≤ x.charset_max :=
        htape (tmTapeIndex x) (tmTapeIndex_nonneg x) hhead
      have hcell := hv x.state (tmTapeFrame x) hstate.1 (by omega) hframe.1 (by omega)
      rw [← hxT] at hcell
      have hsb : (currentEntry (withTable x tb)).move = Move.STOP := hcell.1.symm.trans hxs
      rw [hxa, hxb, tmUpdate_stop x hxs, tmUpdate_stop (withTable x tb) hsb]
      refine ⟨rfl, rfl, ?_, ?_⟩
      · intro i hi
        have hi2 : i ≠ tmTapeIndex x := hi
        show (if i = tmTapeIndex x then _ else x.tape i) = (if i = tmTapeIndex x then _ else x.tape i)
        rw [if_neg hi2, if_neg hi2]
      · intro hw
        have hwx := hw x.state (tmTapeFrame x) hstate.1 (by omega) hframe.1 (by omega)
          (by rw [← hxT]; exact hxs)
        rw [← hxT] at hwx
        have hwe : (currentEntry (withTable x tb)).write = (currentEntry x).write := hwx
        funext i
        show (if i = tmTapeIndex x then _ else x.tape i) = (if i = tmTapeIndex x then _ else x.tape i)
        rw [hwe]
  obtain ⟨k1, k2, k3, k4⟩ := key
  refine ⟨?_, ?_, ?_, ?_, ?_⟩
  · rw [a2, b2, r1, k2]
  · rw [a1, b1]
    exact k1
  · rw [a1, b1]
    exact k2
  · rw [a1, b1]
    exact k3
  · intro hw
    have ht := k4 hw
    rw [a1, b1]
    refine ⟨ht, ?_⟩
    unfold tmTapeOneCount
    rw [ht, k2]

/-- Witness of C29 (amended): the one-state tables of the counterexample. -/
theorem tmSimulate_stop_fields_witness :
    WellFormed (stopWrite 1) ∧
    StopVariant (stopWrite 1).charset_max (stopWrite 1).num_states (stopWrite 1).table
      (stopWrite 0).table ∧
    (tmSimulate (withTable (stopWrite 1) (stopWrite 0).table) 10 10).2 =
      (tmSimulate (stopWrite 1) 10 10).2 :=
  ⟨stopWrite_wellFormed 1 (by decide) (by decide), stopWrite_stopVariant,
    (tmSimulate_stop_fields (stopWrite 1) (stopWrite 0).table 10 10
      (stopWrite_wellFormed 1 (by decide) (by decide)) stopWrite_stopVariant).1⟩

/-! ## The busy beaver search -/

theorem threeOnes_run :
    (tmSimulate threeOnes 100 100).2 = 6 ∧
    tmTapeOneCount (tmSimulate threeOnes 100 100).1 = 3 := by
  constructor <;> decide

/-- C26, counterexample: the best score so far is 4 and the table just simulated halted
with 3 marks.  The score neither ties nor exceeds the best, yet the search writes the
table and the tape (`max0003.tm`, `max0003.tape`): the test is
`count >= (ones_max-1)`. -/
theorem tmBusyBeaverRecord_below_best :
    tmTapeOneCount (afterThreeOnes 4).this = 3 ∧ (afterThreeOnes 4).ones_max = 4 ∧
    ¬ ((3 : Int) ≥ 4) ∧
    (tmBusyBeaverRecord (afterThreeOnes 4) 6).files =
      [SearchFile.best 3 (afterThreeOnes 4).this] ∧
    (tmBusyBeaverRecord (afterThreeOnes 4) 6).ones_max = 4 := by
  have hc : tmTapeOneCount (afterThreeOnes 4).this = 3 := threeOnes_run.2
  have hb : (afterThreeOnes 4).ones_max = 4 := rfl
  refine ⟨hc, hb, by decide, ?_, ?_⟩
  · unfold tmBusyBeaverRecord
    rw [if_pos (by decide), hc, hb, if_pos (by decide)]
    rfl
  · unfold tmBusyBeaverRecord
    rw [if_pos (by decide), hc, hb, if_pos (by decide)]
    rfl

/-- C26, amended: after a simulation that halted (`iters >= 0`) with mark count `c` while
the best score so far is `b`, the search records the table and the tape exactly when
`c >= b - 1` (the score exceeds the best, ties it, or is one below it): in that case the
pair `max<c>` is written, otherwise no file is written; in both cases the best score
becomes `max(c, b)`. -/
theorem tmBusyBeaverRecord_decision (s : SearchT) (iters : Int) (h : 0 ≤ iters) :
    (tmTapeOneCount s.this ≥ s.ones_max - 1 →
      (tmBusyBeaverRecord s iters).files =
        SearchFile.best (tmTapeOneCount s.this) s.this :: s.files) ∧
    (tmTapeOneCount s.this < s.ones_max - 1 →
      (tmBusyBeaverRecord s iters).files = s.files) ∧
    (tmBusyBeaverRecord s iters).ones_max = max (tmTapeOneCount s.this) s.ones_max := by
  unfold tmBusyBeaverRecord
  rw [if_pos h]
  by_cases hc : tmTapeOneCount s.this ≥ s.ones_max - 1
  · rw [if_pos hc]
    refine ⟨fun _ => rfl, fun hlt => absurd hc (by omega), ?_⟩
    show MAX (tmTapeOneCount s.this) s.ones_max = _
    unfold MAX
    by_cases hgt : tmTapeOneCount s.this > s.ones_max
    · rw [if_pos hgt]
      omega
    · rw [if_neg hgt]
      omega
  · rw [if_neg hc]
    refine ⟨fun hge => absurd hge hc, fun _ => rfl, ?_⟩
    omega

/-- Witness of C26 (amended): the run of `threeOnes` against a best score of 4. -/
theorem tmBusyBeaverRecord_decision_witness :
    (0 : Int) ≤ 6 ∧
    (tmBusyBeaverRecord (afterThreeOnes 4) 6).ones_max =
      max (tmTapeOneCount (afterThreeOnes 4).this) (afterThreeOnes 4).ones_max :=
  ⟨by decide, (tmBusyBeaverRecord_decision (afterThreeOnes 4) 6 (by decide)).2.2⟩

/-! ## The search never returns -/

theorem tmUpdateIter_frame (n : Nat) (this : TuringMachineT) :
    (tmUpdateIter n this).table = this.table ∧
    (tmUpdateIter n this).charset_max = this.charset_max ∧
    (tmUpdateIter n this).num_states = this.num_states := by
  induction n with
  | zero => exact ⟨rfl, rfl, rfl⟩
  | succ k ih =>
    obtain ⟨hT, hC, hN, -⟩ := tmUpdate_frame (tmUpdateIter k this)
    exact ⟨hT.trans ih.1, hC.trans ih.2.1, hN.trans ih.2.2⟩

/-- A run of `tmSimulate` leaves the table and the shape as they are. -/
theorem tmSimulate_frame (this : TuringMachineT) (max_iters tape_len_max : Int) :
    (tmSimulate this max_iters tape_len_max).1.table = this.table ∧
    (tmSimulate this max_iters tape_len_max).1.charset_max = this.charset_max ∧
    (tmSimulate this max_iters tape_len_max).1.num_states = this.num_states := by
  rw [(tmSimulate_of_loop this max_iters tape_len_max).1,
    (tmSimulate_run this max_iters tape_len_max).1]
  exact tmUpdateIter_frame _ this

theorem tmTapeBlank_frame (this : TuringMachineT) :
    (tmTapeBlank this).table = this.table ∧
    (tmTapeBlank this).charset_max = this.charset_max ∧
    (tmTapeBlank this).num_states = this.num_states := by
  obtain ⟨-, -, hT, hC, hN, -⟩ := tmTapeAlloc_fields { tmTapeFree this with here := 0 }
  exact ⟨hT, hC, hN⟩

theorem tmBusyBeaverRecord_this (s : SearchT) (iters : Int) :
    (tmBusyBeaverRecord s iters).this = s.this := by
  unfold tmBusyBeaverRecord
  split_ifs <;> rfl

theorem PATIENCE_this (s : SearchT) : (PATIENCE s).this = s.this := by
  unfold PATIENCE
  split_ifs <;> rfl

/-- A table that `tmTableWeed` accepts does not have a `STOP` in its first cell. -/
theorem tmTableWeed_accept_first (fifo : Option FifoT) (this : TuringMachineT)
    (w : Option FifoT × Int) (h : tmTableWeed fifo this = some w) (h0 : w.2 = 0) :
    (this.table 0 0).move ≠ Move.STOP := by
  intro hs
  unfold tmTableWeed at h
  by_cases h1 : 0 = (this.table 0 0).next
  · rw [if_pos h1] at h
    have he := Option.some.inj h
    rw [← he] at h0
    have h2 : (1 : Int) = 0 := h0
    omega
  · rw [if_neg h1, if_pos hs.symm] at h
    have he := Option.some.inj h
    rw [← he] at h0
    have h2 : (2 : Int) = 0 := h0
    omega

/-- A table on which `tmTableNext` does not return 0 has a `STOP` in its first cell. -/
theorem tmTableNext_exhausted_first (this : TuringMachineT) (hns : 1 ≤ this.num_states)
    (hcm : 0 ≤ this.charset_max) (h : (tmTableNext this).2 ≠ 0) :
    (this.table 0 0).move = Move.STOP := by
  obtain ⟨-, -, -, hflag⟩ := tmTableNext_spec this
  have hf : (nextCells this.charset_max this.num_states (scanCells this)).2 = false := by
    by_contra hcon
    have ht : (nextCells this.charset_max this.num_states (scanCells this)).2 = true := by
      simpa using hcon
    rw [hflag, if_pos ht] at h
    exact h rfl
  have hall := (nextCells_flag _ _ _).1 hf
  have hmem : this.table 0 0 ∈ scanCells this :=
    (mem_scanCells this _).2 ⟨0, 0, ⟨le_refl 0, by omega⟩, ⟨le_refl 0, hcm⟩, rfl⟩
  rw [hall _ hmem]
  rfl

/-- The loops of `tmBusyBeaverSearch` never reach the `return`: the call of `tmTableNext`
whose result is tested follows an accepted table, and no accepted table is the last one. -/
theorem tmBusyBeaverSearchLoop_not_returned (max_iters tape_len_max : Int) (fuel : Nat) :
    ∀ s : SearchT, 1 ≤ s.this.num_states → 0 ≤ s.this.charset_max →
      ∀ (t : SearchT) (v : Int),
        tmBusyBeaverSearchLoop max_iters tape_len_max fuel s ≠ SearchStep.returned t v := by
  induction fuel with
  | zero =>
    intro s _ _ t v h
    unfold tmBusyBeaverSearchLoop at h
    exact SearchStep.noConfusion h
  | succ n ih =>
    intro s hns hcm t v h
    unfold tmBusyBeaverSearchLoop at h
    cases hw : tmTableWeed s.fifo s.this with
    | none =>
      rw [hw] at h
      exact SearchStep.noConfusion h
    | some w =>
      rw [hw] at h
      simp only at h
      by_cases hz : w.2 ≠ 0
      · rw [if_pos hz] at h
        obtain ⟨⟨hC, hN, -⟩, -⟩ := tmTableNext_spec s.this
        refine ih _ ?_ ?_ t v h
        · show 1 ≤ (PATIENCE _).this.num_states
          rw [PATIENCE_this]
          show 1 ≤ (tmTableNext s.this).1.num_states
          omega
        · show 0 ≤ (PATIENCE _).this.charset_max
          rw [PATIENCE_this]
          show 0 ≤ (tmTableNext s.this).1.charset_max
          omega
      · rw [if_neg hz] at h
        have hacc := tmTableWeed_accept_first s.fifo s.this w hw (by simpa using hz)
        have hthis : (PATIENCE { tmBusyBeaverRecord
              { this := (tmSimulate s.this max_iters tape_len_max).1, fifo := w.1,
                table_count := s.table_count, table_sim_count := s.table_sim_count + 1,
                ones_max := s.ones_max, files := s.files }
              (tmSimulate s.this max_iters tape_len_max).2 with
            this := tmTapeBlank { (tmBusyBeaverRecord
              { this := (tmSimulate s.this max_iters tape_len_max).1, fifo := w.1,
                table_count := s.table_count, table_sim_count := s.table_sim_count + 1,
                ones_max := s.ones_max, files := s.files }
              (tmSimulate s.this max_iters tape_len_max).2).this with state := 0 } }).this =
            tmTapeBlank { (tmSimulate s.this max_iters tape_len_max).1 with state := 0 } := by
          rw [PATIENCE_this]
          show tmTapeBlank { (tmBusyBeaverRecord _ _).this with state := 0 } = _
          rw [tmBusyBeaverRecord_this]
        obtain ⟨bT, bC, bN⟩ :=
          tmTapeBlank_frame { (tmSimulate s.this max_iters tape_len_max).1 with state := 0 }
        obtain ⟨sT, sC, sN⟩ := tmSimulate_frame s.this max_iters tape_len_max
        have eT : (tmTapeBlank { (tmSimulate s.this max_iters tape_len_max).1 with
            state := 0 }).table = s.this.table := bT.trans sT
        have eC : (tmTapeBlank { (tmSimulate s.this max_iters tape_len_max).1 with
            state := 0 }).charset_max = s.this.charset_max := bC.trans sC
        have eN : (tmTapeBlank { (tmSimulate s.this max_iters tape_len_max).1 with
            state := 0 }).num_states = s.this.num_states := bN.trans sN
        by_cases hn : (tmTableNext (tmTapeBlank
            { (tmSimulate s.this max_iters tape_len_max).1 with state := 0 })).2 = 0
        · simp only [hthis] at h
          rw [if_pos hn] at h
          obtain ⟨⟨hC, hN, -⟩, -⟩ := tmTableNext_spec (tmTapeBlank
            { (tmSimulate s.this max_iters tape_len_max).1 with state := 0 })
          refine ih _ ?_ ?_ t v h
          · show 1 ≤ (tmTableNext (tmTapeBlank
              { (tmSimulate s.this max_iters tape_len_max).1 with state := 0 })).1.num_states
            rw [hN, eN]
            exact hns
          · show 0 ≤ (tmTableNext (tmTapeBlank
              { (tmSimulate s.this max_iters tape_len_max).1 with state := 0 })).1.charset_max
            rw [hC, eC]
            exact hcm
        · have hstop := tmTableNext_exhausted_first _ (by rw [eN]; exact hns)
            (by rw [eC]; exact hcm) hn
          rw [eT] at hstop
          exact hacc hstop

/-- C25: the search does not end when the configuration space is exhausted.  From the
one-state, two-symbol all-zero table on a blank tape, the 25th call of `tmTableNext`
reports exhaustion (returns 1); the search makes that call inside its weeding loop, where
the return value is not looked at, and goes on: after 26 calls it is still running,
no table simulated, and for no bound on the number of calls does it return, whatever the
limits `max_iters` and `tape_len_max`. -/
theorem tmBusyBeaverSearch_never_returns :
    (tmTableNext (tmTableNextIter 24 oneStateZero)).2 = 1 ∧
    (∃ s : SearchT, tmBusyBeaverSearch 26 none oneStateZero 10 10 = SearchStep.exhausted s ∧
      s.table_count = 26 ∧ s.table_sim_count = 0) ∧
    (∀ (fuel : Nat) (max_iters tape_len_max : Int) (t : SearchT) (v : Int),
      tmBusyBeaverSearch fuel none oneStateZero max_iters tape_len_max ≠
        SearchStep.returned t v) := by
  refine ⟨by decide, ⟨_, rfl, by decide, by decide⟩, ?_⟩
  intro fuel max_iters tape_len_max t v
  exact tmBusyBeaverSearchLoop_not_returned max_iters tape_len_max fuel _
    (by decide) (by decide) t v

/-! ## Table files -/

theorem tmTableReadLoop_cons (fresh : Int → Entry) (st : TableReadT) (l : TableLine)
    (ls : List TableLine) :
    tmTableReadLoop fresh st (l :: ls) =
      if (tmTableReadLine fresh st l).2 ≠ 0 then tmTableReadLine fresh st l
      else tmTableReadLoop fresh (tmTableReadLine fresh st l).1 ls := rfl

theorem tmTableReadLine_charsetMax (fresh : Int → Entry) (st : TableReadT) (v : Int) :
    tmTableReadLine fresh st (TableLine.charsetMax v) =
      if st.this.charset_max ≥ 0 then ({ st with charset_max := v }, -2)
      else ({ st with charset_max := v,
                      this := { st.this with charset_max := wrapChar v } }, 0) := rfl

theorem tmTableReadLine_state (fresh : Int → Entry) (st : TableReadT) :
    tmTableReadLine fresh st TableLine.state =
      if st.charset_max < 0 then (st, -3) else (tmTableReadState fresh st, 0) := rfl

theorem tmTableReadLine_input (fresh : Int → Entry) (st : TableReadT) (ii w : Int)
    (mv : Char) (nx : Int) :
    tmTableReadLine fresh st (TableLine.input ii w mv nx) =
      if st.state < 0 then (st, -5)
      else if ii < 0 ∨ ii > st.charset_max then (st, -6)
      else if w < 0 ∨ w > st.charset_max then (st, -7)
      else
        if nx < 0 then (tableStore st ii (fun e => { e with write := wrapChar w }), -8)
        else
          if mv = 'L' then
            (tableStore { tableStore (tableStore st ii (fun e => { e with write := wrapChar w }))
                ii (fun e => { e with next := nx }) with
              max_refd_state := MAX st.max_refd_state nx } ii
              (fun e => { e with move := Move.MOVE_LEFT }), 0)
          else if mv = 'R' then
            (tableStore { tableStore (tableStore st ii (fun e => { e with write := wrapChar w }))
                ii (fun e => { e with next := nx }) with
              max_refd_state := MAX st.max_refd_state nx } ii
              (fun e => { e with move := Move.MOVE_RIGHT }), 0)
          else if mv = 'S' then
            (tableStore { tableStore (tableStore st ii (fun e => { e with write := wrapChar w }))
                ii (fun e => { e with next := nx }) with
              max_refd_state := MAX st.max_refd_state nx } ii
              (fun e => { e with move := Move.STOP }), 0)
          else
            ({ tableStore (tableStore st ii (fun e => { e with write := wrapChar w }))
                ii (fun e => { e with next := nx }) with
              max_refd_state := MAX st.max_refd_state nx }, -9) := rfl

theorem tmTableReadLoop_ok (fresh : Int → Entry) (st : TableReadT) (l : TableLine)
    (ls : List TableLine) (h : (tmTableReadLine fresh st l).2 = 0) :
    tmTableReadLoop fresh st (l :: ls) =
      tmTableReadLoop fresh (tmTableReadLine fresh st l).1 ls := by
  rw [tmTableReadLoop_cons, if_neg (by rw [h]; decide)]

/-- Two cells of the shape with the same position in the array are the same cell. -/
theorem cell_index_lt (w s si i : Int) (hs : s < si) (hi : i < w) (hw : 0 ≤ w) :
    s * w + i < si * w := by
  have h1 : (s + 1) * w ≤ si * w := Int.mul_le_mul_of_nonneg_right (by omega) hw
  have h2 : (s + 1) * w = s * w + w := by ring
  omega

/-- The `state` line that opens the state `si`. -/
theorem tmTableReadLine_state_ok (fresh : Int → Entry) (this : TuringMachineT) (si : Int)
    (st : TableReadT) (hcm : 0 ≤ this.charset_max) (h : ReadRows this si st) :
    (tmTableReadLine fresh st TableLine.state).2 = 0 ∧
    ReadCells this si 0 (tmTableReadLine fresh st TableLine.state).1 := by
  obtain ⟨h1, h2, h3, h4, h5, h6, h7, h8⟩ := h
  have hc : ¬ st.charset_max < 0 := by omega
  rw [tmTableReadLine_state, if_neg hc]
  refine ⟨rfl, h1, h2, ?_, ?_, ?_, ?_, ?_, h7, ?_, ?_⟩
  · show st.state + 1 = si
    omega
  · show st.state + 1 + 1 = si + 1
    omega
  · show (st.charset_max + 1) * (st.state + 1 + 1) = _
    rw [h1, h3]
    ring_nf
  · show st.charset_max + 1 = _
    rw [h1]
  · have e : (tmTableReadState fresh st).this.table =
        tableView (tmTableReadState fresh st).table (st.charset_max + 1) := rfl
    rw [← h1]
    exact e
  · intro s i hs0 hs1 hi0 hi1
    have hlt := cell_index_lt (this.charset_max + 1) s si i hs1 (by omega) (by omega)
    have hlt2 : si * (this.charset_max + 1) = (this.charset_max + 1) * si := by ring
    have hlt3 : (st.charset_max + 1) * (st.state + 1 + 1) =
        (this.charset_max + 1) * si + (this.charset_max + 1) := by
      rw [h1, h3]
      ring
    show (if s * (this.charset_max + 1) + i < st.size ∧
        s * (this.charset_max + 1) + i < (st.charset_max + 1) * (st.state + 1 + 1)
      then st.table (s * (this.charset_max + 1) + i)
      else fresh (s * (this.charset_max + 1) + i)) = _
    rw [if_pos ⟨by omega, by omega⟩]
    exact h8 s i hs0 hs1 hi0 hi1
  · intro i hi0 hi1
    omega

/-- An `input` line that passes its checks stores the three fields of its cell. -/
theorem tmTableReadLine_input_store (fresh : Int → Entry) (st : TableReadT) (ii w : Int)
    (m : Move) (nx : Int) (h1 : ¬ st.state < 0) (h2 : ¬ (ii < 0 ∨ ii > st.charset_max))
    (h3 : ¬ (w < 0 ∨ w > st.charset_max)) (h4 : ¬ nx < 0) :
    tmTableReadLine fresh st (TableLine.input ii w (moveChar m) nx) =
      (tableStore { tableStore (tableStore st ii (fun e => { e with write := wrapChar w }))
          ii (fun e => { e with next := nx }) with
        max_refd_state := MAX st.max_refd_state nx } ii
        (fun e => { e with move := m }), 0) := by
  rw [tmTableReadLine_input, if_neg h1, if_neg h2, if_neg h3, if_neg h4]
  cases m
  · rw [if_pos (show moveChar Move.MOVE_LEFT = 'L' from rfl)]
  · rw [if_neg (show ¬ moveChar Move.MOVE_RIGHT = 'L' by decide),
      if_pos (show moveChar Move.MOVE_RIGHT = 'R' from rfl)]
  · rw [if_neg (show ¬ moveChar Move.STOP = 'L' by decide),
      if_neg (show ¬ moveChar Move.STOP = 'R' by decide),
      if_pos (show moveChar Move.STOP = 'S' from rfl)]

/-- The array after the three stores of an `input` line. -/
theorem tableStore_three (st : TableReadT) (ii w : Int) (m : Move) (nx : Int) (k : Int) :
    (tableStore { tableStore (tableStore st ii (fun e => { e with write := w }))
        ii (fun e => { e with next := nx }) with
      max_refd_state := MAX st.max_refd_state nx } ii
      (fun e => { e with move := m })).table k =
      if k = st.state * st.stride + ii then { write := w, move := m, next := nx }
      else st.table k := by
  by_cases hk : k = st.state * st.stride + ii
  · rw [if_pos hk]
    simp only [tableStore, hk, if_true]
  · rw [if_neg hk]
    simp only [tableStore, hk, if_false]

/-- The `input` line of the cell `(si, ii)` of the table of `this`. -/
theorem tmTableReadLine_input_ok (fresh : Int → Entry) (this : TuringMachineT)
    (si ii : Int) (st : TableReadT) (hchar : this.charset_max ≤ 127) (hsi : 0 ≤ si)
    (hii : 0 ≤ ii) (hii2 : ii ≤ this.charset_max)
    (hcell : WellFormedCell this.charset_max this.num_states (this.table si ii))
    (h : ReadCells this si ii st) :
    (tmTableReadLine fresh st (TableLine.input ii (this.table si ii).write
      (moveChar (this.table si ii).move) (this.table si ii).next)).2 = 0 ∧
    ReadCells this si (ii + 1) (tmTableReadLine fresh st (TableLine.input ii
      (this.table si ii).write (moveChar (this.table si ii).move)
      (this.table si ii).next)).1 := by
  obtain ⟨h1, h2, h3, h4, h5, h6, h7, h8, h9, h10⟩ := h
  obtain ⟨⟨hw0, hw1⟩, hn0, hn1⟩ := hcell
  rw [tmTableReadLine_input_store fresh st ii _ _ _ (by omega) (by omega) (by omega)
    (by omega), wrapChar_eq _ (by omega) (by omega)]
  have htab := tableStore_three st ii (this.table si ii).write
    (this.table si ii).move (this.table si ii).next
  rw [h3, h6] at htab
  refine ⟨rfl, h1, h2, h3, h4, h5, h6, ?_, ?_, ?_, ?_⟩
  · have e : ∀ S : TableReadT, ∀ f : Entry → Entry,
        (tableStore S ii f).this.table = tableView (tableStore S ii f).table S.stride :=
      fun _ _ => rfl
    rw [← h6]
    exact e _ _
  · show 0 ≤ MAX st.max_refd_state (this.table si ii).next ∧
      MAX st.max_refd_state (this.table si ii).next ≤ this.num_states - 1
    unfold MAX
    split_ifs <;> omega
  · intro s i hs0 hs1 hi0 hi1
    have hlt := cell_index_lt (this.charset_max + 1) s si i hs1 (by omega) (by omega)
    have e := htab (s * (this.charset_max + 1) + i)
    rw [if_neg (by omega)] at e
    exact e.trans (h9 s i hs0 hs1 hi0 hi1)
  · intro i hi0 hi1
    have e := htab (si * (this.charset_max + 1) + i)
    by_cases hi : i = ii
    · rw [if_pos (by rw [hi])] at e
      rw [hi] at e ⊢
      exact e
    · rw [if_neg (by omega)] at e
      exact e.trans (h10 i hi0 (by omega))

/-- The `input` lines of one state, read after its `state` line. -/
theorem tmTableReadLoop_row (fresh : Int → Entry) (this : TuringMachineT) (si : Int)
    (hchar : this.charset_max ≤ 127) (hsi : 0 ≤ si)
    (hcells : ∀ i : Int, 0 ≤ i → i ≤ this.charset_max →
      WellFormedCell this.charset_max this.num_states (this.table si i)) (n : Nat) :
    ∀ (ii : Int) (st : TableReadT), 0 ≤ ii → ii + n = this.charset_max + 1 →
      ReadCells this si ii st →
      ∃ st1, ReadCells this si (this.charset_max + 1) st1 ∧
        ∀ rest : List TableLine,
          tmTableReadLoop fresh st (tmTableWriteRow this si n ii ++ rest) =
            tmTableReadLoop fresh st1 rest := by
  induction n with
  | zero =>
    intro ii st _ hn h
    have e : ii = this.charset_max + 1 := by omega
    rw [e] at h
    exact ⟨st, h, fun _ => rfl⟩
  | succ k ih =>
    intro ii st h0 hn h
    obtain ⟨hz, hcell⟩ := tmTableReadLine_input_ok fresh this si ii st hchar hsi h0
      (by omega) (hcells ii h0 (by omega)) h
    obtain ⟨st1, hst1, hrest⟩ := ih (ii + 1) _ (by omega) (by push_cast at hn; omega) hcell
    refine ⟨st1, hst1, ?_⟩
    intro rest
    show tmTableReadLoop fresh st (_ :: (tmTableWriteRow this si k (ii + 1) ++ rest)) = _
    rw [tmTableReadLoop_ok fresh st _ _ hz]
    exact hrest rest

theorem readCells_readRows (this : TuringMachineT) (si : Int) (st : TableReadT)
    (h : ReadCells this si (this.charset_max + 1) st) : ReadRows this (si + 1) st := by
  obtain ⟨h1, h2, h3, h4, h5, h6, h7, h8, h9, h10⟩ := h
  refine ⟨h1, h2, by omega, h4, h5, fun _ => h7, h8, ?_⟩
  intro s i hs0 hs1 hi0 hi1
  by_cases hs : s = si
  · rw [hs]
    exact h10 i hi0 (by omega)
  · exact h9 s i hs0 (by omega) hi0 hi1

/-- The lines of the states `si, ..., num_states - 1`, read after those of the states
below `si`. -/
theorem tmTableReadLoop_rows (fresh : Int → Entry) (this : TuringMachineT)
    (hchar : this.charset_max ≤ 127) (hcm : 0 ≤ this.charset_max)
    (hcells : ∀ s i : Int, 0 ≤ s → s < this.num_states → 0 ≤ i → i ≤ this.charset_max →
      WellFormedCell this.charset_max this.num_states (this.table s i)) (n : Nat) :
    ∀ (si : Int) (st : TableReadT), 0 ≤ si → si + n = this.num_states →
      ReadRows this si st →
      ∃ st1, ReadRows this this.num_states st1 ∧
        tmTableReadLoop fresh st (tmTableWriteLoop this n si) = (st1, 0) := by
  induction n with
  | zero =>
    intro si st _ hn h
    have e : si = this.num_states := by omega
    rw [e] at h
    exact ⟨st, h, rfl⟩
  | succ k ih =>
    intro si st h0 hn h
    push_cast at hn
    obtain ⟨hz, hc0⟩ := tmTableReadLine_state_ok fresh this si st hcm h
    obtain ⟨st1, hst1, hrow⟩ := tmTableReadLoop_row fresh this si hchar h0
      (fun i hi0 hi1 => hcells si i h0 (by omega) hi0 hi1)
      (this.charset_max + 1).toNat 0 _ (le_refl 0) (by omega) hc0
    obtain ⟨st2, hst2, hloop⟩ := ih (si + 1) st1 (by omega) (by omega)
      (readCells_readRows this si st1 hst1)
    refine ⟨st2, hst2, ?_⟩
    show tmTableReadLoop fresh st (TableLine.blank :: TableLine.state ::
      (tmTableWriteRow this si (this.charset_max + 1).toNat 0 ++
        tmTableWriteLoop this k (si + 1))) = _
    rw [tmTableReadLoop_ok fresh st TableLine.blank _ rfl]
    show tmTableReadLoop fresh st (TableLine.state :: _) = _
    rw [tmTableReadLoop_ok fresh st TableLine.state _ hz, hrow]
    exact hloop

/-- C27: checkpoint round trip.  For a well-formed table (`num_states >= 1`,
`charset_max >= 0`, every `write` in `[0, charset_max]`, every `next` in
`[0, num_states)`; `charset_max` is a `signed char`, at most 127), the lines that
`tmTableWrite` writes, read by `tmTableRead` into the machine of `tmNew`, are accepted
without error (the return value is `num_states - 1`, not negative) and yield the same
`charset_max`, the same `num_states` and the same entry in every cell of the shape,
whatever the content of fresh memory. -/
theorem tmTableWrite_tmTableRead (fresh : Int → Entry) (this : TuringMachineT)
    (hwf : WellFormedTable this) (hchar : this.charset_max ≤ 127) :
    (tmTableWrite this).2 = 1 ∧
    (tmTableRead fresh tmNew (some (tmTableWrite this).1)).2 = this.num_states - 1 ∧
    0 ≤ (tmTableRead fresh tmNew (some (tmTableWrite this).1)).2 ∧
    (tmTableRead fresh tmNew (some (tmTableWrite this).1)).1.charset_max =
      this.charset_max ∧
    (tmTableRead fresh tmNew (some (tmTableWrite this).1)).1.num_states =
      this.num_states ∧
    ∀ s i : Int, 0 ≤ s → s < this.num_states → 0 ≤ i → i ≤ this.charset_max →
      (tmTableRead fresh tmNew (some (tmTableWrite this).1)).1.table s i =
        this.table s i := by
  obtain ⟨hns, hcm, hcells⟩ := hwf
  have hnew : ¬ (tmTableReadInit fresh tmNew).this.charset_max ≥ 0 := by
    show ¬ (-1 : Int) ≥ 0
    decide
  have hhead : ReadRows this 0
      (tmTableReadLine fresh (tmTableReadInit fresh tmNew)
        (TableLine.charsetMax this.charset_max)).1 := by
    rw [tmTableReadLine_charsetMax, if_neg hnew]
    refine ⟨rfl, wrapChar_eq _ (by omega) (by omega), rfl, rfl, ?_, ?_, ?_, ?_⟩
    · show (0 : Int) = (this.charset_max + 1) * 0
      ring
    · intro h
      omega
    · show (0 : Int) ≤ 0 ∧ (0 : Int) ≤ this.num_states - 1
      omega
    · intro s i hs0 hs1
      omega
  have hcode : (tmTableReadLine fresh (tmTableReadInit fresh tmNew)
      (TableLine.charsetMax this.charset_max)).2 = 0 := by
    rw [tmTableReadLine_charsetMax, if_neg hnew]
  obtain ⟨st1, hst1, hloop⟩ := tmTableReadLoop_rows fresh this hchar hcm hcells
    this.num_states.toNat 0 _ (le_refl 0) (by omega) hhead
  have hall : tmTableReadLoop fresh (tmTableReadInit fresh tmNew) (tmTableWrite this).1 =
      (st1, 0) := by
    show tmTableReadLoop fresh (tmTableReadInit fresh tmNew)
      (TableLine.comment :: TableLine.blank :: TableLine.charsetMax this.charset_max ::
        tmTableWriteLoop this this.num_states.toNat 0) = _
    rw [tmTableReadLoop_ok fresh _ TableLine.comment _ rfl]
    show tmTableReadLoop fresh (tmTableReadInit fresh tmNew) (TableLine.blank :: _) = _
    rw [tmTableReadLoop_ok fresh _ TableLine.blank _ rfl]
    show tmTableReadLoop fresh (tmTableReadInit fresh tmNew)
      (TableLine.charsetMax this.charset_max :: _) = _
    rw [tmTableReadLoop_ok fresh _ _ _ hcode]
    exact hloop
  obtain ⟨h1, h2, h3, h4, h5, h6, h7, h8⟩ := hst1
  have hres : tmTableRead fresh tmNew (some (tmTableWrite this).1) =
      (st1.this, st1.state) := by
    unfold tmTableRead
    simp only
    rw [hall, if_neg (by simp), if_neg (by simp only; omega)]
  rw [hres]
  refine ⟨rfl, h3, ?_, h2, h4, ?_⟩
  · show 0 ≤ st1.state
    omega
  · intro s i hs0 hs1 hi0 hi1
    show st1.this.table s i = _
    rw [h6 hns]
    exact h8 s i hs0 hs1 hi0 hi1

/-- Witness of C27: the two-state busy beaver table. -/
theorem tmTableWrite_tmTableRead_witness :
    WellFormedTable (busyBeaver2 1) ∧ (busyBeaver2 1).charset_max ≤ 127 ∧
    (tmTableRead (fun _ => zeroEntry) tmNew
      (some (tmTableWrite (busyBeaver2 1)).1)).2 = (busyBeaver2 1).num_states - 1 :=
  ⟨busyBeaver2_wellFormedTable, by decide,
    (tmTableWrite_tmTableRead (fun _ => zeroEntry) (busyBeaver2 1)
      busyBeaver2_wellFormedTable (by decide)).2.1⟩

/-! ## Well-formedness along a run -/

theorem wellFormed_stepReady (this : TuringMachineT) (h : WellFormed this) :
    StepReady this := by
  obtain ⟨-, hstate, htape, hhead⟩ := h
  exact ⟨hstate, htape (tmTapeIndex this) (tmTapeIndex_nonneg this) hhead, hhead⟩

/-- Any number of steps keeps a machine well formed and does not shorten the tape. -/
theorem wellFormed_tmUpdateIter (this : TuringMachineT) (h : WellFormed this) (n : Nat) :
    WellFormed (tmUpdateIter n this) ∧ this.tape_len ≤ (tmUpdateIter n this).tape_len := by
  induction n with
  | zero => exact ⟨h, le_refl _⟩
  | succ k ih =>
    obtain ⟨hw, hl⟩ := ih
    have hstep := tmUpdate_tape_len (tmUpdateIter k this) hw.2.2.2
    refine ⟨wellFormed_tmUpdate _ hw, ?_⟩
    show this.tape_len ≤ (tmUpdate (tmUpdateIter k this)).1.tape_len
    omega

/-- The machine that `tmSimulate` leaves is the machine after the steps it executed. -/
theorem tmSimulate_fst (this : TuringMachineT) (max_iters tape_len_max : Int) :
    (tmSimulate this max_iters tape_len_max).1 =
      tmUpdateIter (tmSimulateIters this max_iters tape_len_max) this := by
  rw [(tmSimulate_of_loop this max_iters tape_len_max).1,
    (tmSimulate_run this max_iters tape_len_max).1]

/-- C36: one step grows the tape by at most two cells, and the run overshoots its bound by
at most one.  For a machine whose head lies inside the allocated tape
(`tape_len > tmTapeIndex`), `tmUpdate` increases `tape_len` by at most 2, and if
`tape_len <= tape_len_max + 1` when `tmSimulate` is called then
`tape_len <= tape_len_max + 1` when it returns. -/
theorem tmSimulate_overshoot (this : TuringMachineT) (max_iters tape_len_max : Int)
    (hhead : tmTapeIndex this < this.tape_len) (hlen : this.tape_len ≤ tape_len_max + 1) :
    (tmUpdate this).1.tape_len ≤ this.tape_len + 2 ∧
    (tmSimulate this max_iters tape_len_max).1.tape_len ≤ tape_len_max + 1 := by
  refine ⟨(tmUpdate_tape_len this hhead).2.2, ?_⟩
  rw [tmSimulate_fst]
  obtain ⟨-, hbefore, -, -⟩ := tmSimulate_run this max_iters tape_len_max
  cases hk : tmSimulateIters this max_iters tape_len_max with
  | zero => exact hlen
  | succ j =>
    rw [hk] at hbefore
    have hj := (hbefore j (Nat.lt_succ_self j)).2.2
    have hstep := tmUpdate_tape_len (tmUpdateIter j this)
      (tmUpdateIter_head_in_tape this hhead j)
    show (tmUpdate (tmUpdateIter j this)).1.tape_len ≤ tape_len_max + 1
    omega

/-- Witness of C36: the two-state busy beaver on a blank tape, bound 1000. -/
theorem tmSimulate_overshoot_witness :
    tmTapeIndex (busyBeaver2 1) < (busyBeaver2 1).tape_len ∧
    (busyBeaver2 1).tape_len ≤ 1000 + 1 ∧
    (tmSimulate (busyBeaver2 1) 100 1000).1.tape_len ≤ 1000 + 1 :=
  ⟨by decide, by decide,
    (tmSimulate_overshoot (busyBeaver2 1) 100 1000 (by decide) (by decide)).2⟩

/-- C37: well-formedness is an invariant of execution.  If every `write` of the table is
in `[0, charset_max]`, every `next` in `[0, num_states)`, the state in `[0, num_states)`,
every allocated tape cell in `[0, charset_max]` and `tape_len > tmTapeIndex`, then the
table and tape accesses of a step are in range, all of these still hold after `tmUpdate`,
after any number of steps and when `tmSimulate` returns, and `tape_len` has not
decreased. -/
theorem wellFormed_invariant (this : TuringMachineT) (max_iters tape_len_max : Int)
    (h : WellFormed this) :
    StepReady this ∧
    (WellFormed (tmUpdate this).1 ∧ this.tape_len ≤ (tmUpdate this).1.tape_len) ∧
    (∀ n : Nat, WellFormed (tmUpdateIter n this) ∧ StepReady (tmUpdateIter n this) ∧
      this.tape_len ≤ (tmUpdateIter n this).tape_len) ∧
    (WellFormed (tmSimulate this max_iters tape_len_max).1 ∧
      this.tape_len ≤ (tmSimulate this max_iters tape_len_max).1.tape_len) := by
  refine ⟨wellFormed_stepReady this h,
    ⟨wellFormed_tmUpdate this h, (tmUpdate_tape_len this h.2.2.2).2.1⟩, ?_, ?_⟩
  · intro n
    obtain ⟨hw, hl⟩ := wellFormed_tmUpdateIter this h n
    exact ⟨hw, wellFormed_stepReady _ hw, hl⟩
  · rw [tmSimulate_fst]
    exact wellFormed_tmUpdateIter this h _

/-- Witness of C37: the one-state machine that always moves right. -/
theorem wellFormed_invariant_witness :
    WellFormed rightRunner ∧ WellFormed (tmUpdate rightRunner).1 :=
  ⟨rightRunner_wellFormed,
    (wellFormed_invariant rightRunner 100 100 rightRunner_wellFormed).2.1.1⟩

/-! ## The successor and the index in the classical shape -/

theorem indexCells_replicate_zero (cm ns : Int) (n : Nat) :
    indexCells cm ns (List.replicate n zeroEntry) = 0 := by
  induction n with
  | zero => rfl
  | succ k ih =>
    show tmTableIndexDigit cm ns zeroEntry + 21 * indexCells cm ns (List.replicate k zeroEntry) = 0
    rw [ih]
    simp [tmTableIndexDigit, zeroEntry, Move.toInt]

/-- C34: in the classical shape (5 states, symbols 0 and 1) the successor is the index
successor.  For every well-formed table whose Stop cells hold `write = 1`, `next = 4`:
if `tmTableNext` returns 0 then `tmTableIndex` of the new table is `tmTableIndex` of the
old one plus 1, and if it returns 1 then the old table has index `21^10 - 1` and the new
one has index 0. -/
theorem tmTableNext_index_successor (this : TuringMachineT) (h : ClassicTable this) :
    ((tmTableNext this).2 = 0 →
      tmTableIndex (tmTableNext this).1 = tmTableIndex this + 1) ∧
    ((tmTableNext this).2 = 1 →
      tmTableIndex this = 21 ^ 10 - 1 ∧ tmTableIndex (tmTableNext this).1 = 0) := by
  obtain ⟨⟨hC, hN, -⟩, -, hcells, hflag⟩ := tmTableNext_spec this
  have hcm : this.charset_max = 1 := h.2.1
  have hns : this.num_states = 5 := h.1
  have hcl := classicTable_cells this h
  have hlen := classicTable_length this h
  obtain ⟨hcl2, hinc, hwrap⟩ := classic_nextCells (scanCells this) hcl
  have hfit2 : IndexFits (tmTableNext this).1 := by
    apply classicCells_fits _ (hC.trans hcm) (hN.trans hns)
    rw [hcells, hcm, hns]
    exact hcl2
  have hnew : tmTableIndex (tmTableNext this).1 =
      indexCells 1 5 (nextCells 1 5 (scanCells this)).1 := by
    rw [tmTableIndex_eq_indexCells _ hfit2, hcells, hC, hN, hcm, hns]
  have hold : tmTableIndex this = indexCells 1 5 (scanCells this) := by
    rw [tmTableIndex_eq_indexCells this (classicCells_fits this hcm hns hcl), hcm, hns]
  rw [hcm, hns] at hflag
  constructor
  · intro h0
    have hf : (nextCells 1 5 (scanCells this)).2 = true := by
      by_contra hcon
      rw [hflag, if_neg hcon] at h0
      exact absurd h0 (by decide)
    rw [hnew, hold]
    exact hinc hf
  · intro h1
    have hf : (nextCells 1 5 (scanCells this)).2 = false := by
      by_contra hcon
      have ht : (nextCells 1 5 (scanCells this)).2 = true := by simpa using hcon
      rw [hflag, if_pos ht] at h1
      exact absurd h1 (by decide)
    obtain ⟨hidx, hrep⟩ := hwrap hf
    rw [hnew, hold, hrep, hidx, hlen, indexCells_replicate_zero]
    exact ⟨rfl, rfl⟩

/-- Witness of C34: the all-zero table of the classical shape. -/
theorem tmTableNext_index_successor_witness :
    ClassicTable classicZero ∧
    ((tmTableNext classicZero).2 = 0 →
      tmTableIndex (tmTableNext classicZero).1 = tmTableIndex classicZero + 1) :=
  ⟨classicInv_table classicZero classicInv_zero,
    (tmTableNext_index_successor classicZero
      (classicInv_table classicZero classicInv_zero)).1⟩

/-! ## An accepted table is never the last one -/

theorem tmTableNext_value (this : TuringMachineT) :
    (tmTableNext this).2 = 0 ∨ (tmTableNext this).2 = 1 := by
  unfold tmTableNext
  simp only
  split_ifs
  · exact Or.inl rfl
  · exact Or.inr rfl

/-- A table with a `STOP` in its first cell is rejected for reason 1 or 2. -/
theorem tmTableWeed_stop_first (fifo : Option FifoT) (this : TuringMachineT)
    (h : (this.table 0 0).move = Move.STOP) :
    tmTableWeed fifo this = some (fifo, 1) ∨ tmTableWeed fifo this = some (fifo, 2) := by
  unfold tmTableWeed
  by_cases h1 : 0 = (this.table 0 0).next
  · rw [if_pos h1]
    exact Or.inl rfl
  · rw [if_neg h1, if_pos h.symm]
    exact Or.inr rfl

/-- C35: a table accepted by the weeder is never the last configuration.  For a table
with at least one state and one symbol: if `tmTableWeed` returns 0 then `tmTableNext`
returns 0; if `tmTableNext` reports exhaustion (returns 1) then every cell is `STOP` and
`tmTableWeed` rejects the table (with reason 1 or 2, whatever the static queue); and the
call of `tmTableNext` whose result `tmBusyBeaverSearch` tests never yields 1, that is the
search does not reach its `return`, for any bound on the number of calls. -/
theorem tmTableWeed_accepted_not_last (this : TuringMachineT)
    (hns : 1 ≤ this.num_states) (hcm : 0 ≤ this.charset_max) :
    (∀ (fifo : Option FifoT) (w : Option FifoT × Int),
      tmTableWeed fifo this = some w → w.2 = 0 → (tmTableNext this).2 = 0) ∧
    ((tmTableNext this).2 = 1 →
      (∀ s i : Int, 0 ≤ s → s < this.num_states → 0 ≤ i → i ≤ this.charset_max →
        (this.table s i).move = Move.STOP) ∧
      ∀ fifo : Option FifoT,
        tmTableWeed fifo this = some (fifo, 1) ∨ tmTableWeed fifo this = some (fifo, 2)) ∧
    (∀ (fuel : Nat) (fifo : Option FifoT) (max_iters tape_len_max : Int) (t : SearchT)
        (v : Int),
      tmBusyBeaverSearch fuel fifo this max_iters tape_len_max ≠ SearchStep.returned t v) := by
  refine ⟨?_, ?_, ?_⟩
  · intro fifo w hw h0
    rcases tmTableNext_value this with hz | h1
    · exact hz
    · exfalso
      exact tmTableWeed_accept_first fifo this w hw h0
        (tmTableNext_exhausted_first this hns hcm (by rw [h1]; decide))
  · intro h1
    have hfirst := tmTableNext_exhausted_first this hns hcm (by rw [h1]; decide)
    refine ⟨?_, fun fifo => tmTableWeed_stop_first fifo this hfirst⟩
    obtain ⟨-, -, -, hflag⟩ := tmTableNext_spec this
    have hf : (nextCells this.charset_max this.num_states (scanCells this)).2 = false := by
      by_contra hcon
      have ht : (nextCells this.charset_max this.num_states (scanCells this)).2 = true := by
        simpa using hcon
      rw [hflag, if_pos ht] at h1
      exact absurd h1 (by decide)
    have hall := (nextCells_flag _ _ _).1 hf
    intro s i hs0 hs1 hi0 hi1
    rw [hall _ ((mem_scanCells this _).2 ⟨s, i, ⟨hs0, hs1⟩, ⟨hi0, hi1⟩, rfl⟩)]
    rfl
  · intro fuel fifo max_iters tape_len_max t v
    exact tmBusyBeaverSearchLoop_not_returned max_iters tape_len_max fuel _ hns hcm t v

/-- Witness of C35: the two-state busy beaver table. -/
theorem tmTableWeed_accepted_not_last_witness :
    1 ≤ (busyBeaver2 1).num_states ∧ 0 ≤ (busyBeaver2 1).charset_max ∧
    ∀ (fuel : Nat) (fifo : Option FifoT) (max_iters tape_len_max : Int) (t : SearchT)
        (v : Int),
      tmBusyBeaverSearch fuel fifo (busyBeaver2 1) max_iters tape_len_max ≠
        SearchStep.returned t v :=
  ⟨by decide, by decide,
    (tmTableWeed_accepted_not_last (busyBeaver2 1) (by decide) (by decide)).2.2⟩

/-! ## Written symbols during the enumeration -/

/-- One advance of a cell keeps its `write` inside `[0, charset_max]` when the alphabet
has the symbol 1. -/
theorem tmTableNextEntry_write_range (cm ns : Int) (e : Entry) (hcm : 1 ≤ cm)
    (hchar : cm ≤ 127) (h : 0 ≤ e.write ∧ e.write ≤ cm) :
    0 ≤ (tmTableNextEntry cm ns e).1.write ∧ (tmTableNextEntry cm ns e).1.write ≤ cm := by
  unfold tmTableNextEntry
  by_cases hw : e.write = cm
  · rw [if_pos hw]
    by_cases hn : e.next = ns - 1
    · rw [if_pos hn]
      cases e.move
      · show (0 : Int) ≤ 0 ∧ 0 ≤ cm
        omega
      · show (0 : Int) ≤ 1 ∧ 1 ≤ cm
        omega
      · show (0 : Int) ≤ 0 ∧ 0 ≤ cm
        omega
    · rw [if_neg hn]
      show (0 : Int) ≤ 0 ∧ 0 ≤ cm
      omega
  · rw [if_neg hw]
    show 0 ≤ wrapChar (e.write + 1) ∧ wrapChar (e.write + 1) ≤ cm
    rw [wrapChar_eq _ (by omega) (by omega)]
    omega

theorem nextCells_write_range (cm ns : Int) (hcm : 1 ≤ cm) (hchar : cm ≤ 127)
    (l : List Entry) (h : ∀ e ∈ l, 0 ≤ e.write ∧ e.write ≤ cm) :
    ∀ e ∈ (nextCells cm ns l).1, 0 ≤ e.write ∧ e.write ≤ cm := by
  induction l with
  | nil =>
    intro e he
    simp [nextCells] at he
  | cons a es ih =>
    intro e he
    have ha := tmTableNextEntry_write_range cm ns a hcm hchar (h a (List.mem_cons_self a es))
    have hes : ∀ e ∈ es, 0 ≤ e.write ∧ e.write ≤ cm :=
      fun x hx => h x (List.mem_cons_of_mem a hx)
    unfold nextCells at he
    by_cases hf : (tmTableNextEntry cm ns a).2 = true
    · rw [if_pos hf] at he
      rcases List.mem_cons.1 he with h1 | h1
      · rw [h1]
        exact ha
      · exact hes e h1
    · rw [if_neg hf] at he
      rcases List.mem_cons.1 he with h1 | h1
      · rw [h1]
        exact ha
      · exact ih hes e h1

/-- When the alphabet has the symbol 1 (`1 <= charset_max <= 127`), `tmTableNext` keeps
every `write` of the shape inside `[0, charset_max]`. -/
theorem tmTableNext_write_range (this : TuringMachineT) (hcm : 1 ≤ this.charset_max)
    (hchar : this.charset_max ≤ 127)
    (h : ∀ s i : Int, 0 ≤ s → s < this.num_states → 0 ≤ i → i ≤ this.charset_max →
      0 ≤ (this.table s i).write ∧ (this.table s i).write ≤ this.charset_max) :
    ∀ s i : Int, 0 ≤ s → s < this.num_states → 0 ≤ i → i ≤ this.charset_max →
      0 ≤ ((tmTableNext this).1.table s i).write ∧
      ((tmTableNext this).1.table s i).write ≤ this.charset_max := by
  obtain ⟨hshape, -, hcells, -⟩ := tmTableNext_spec this
  obtain ⟨hC, hN, -⟩ := hshape
  have hall : ∀ e ∈ scanCells this, 0 ≤ e.write ∧ e.write ≤ this.charset_max := by
    intro e he
    obtain ⟨s, i, ⟨h1, h2⟩, ⟨h3, h4⟩, h5⟩ := (mem_scanCells this e).1 he
    rw [h5]
    exact h s i h1 h2 h3 h4
  have hnew := nextCells_write_range this.charset_max this.num_states hcm hchar
    (scanCells this) hall
  rw [← hcells] at hnew
  intro s i h1 h2 h3 h4
  apply hnew
  rw [mem_scanCells]
  exact ⟨s, i, ⟨h1, by omega⟩, ⟨h3, by omega⟩, rfl⟩

/-- C31: the enumeration leaves the alphabet when `charset_max = 0`.  The one-state table
over the single symbol 0 whose cell is `(write 0, MOVE_RIGHT, next 0)` has every `write`
in `[0, charset_max]`; `tmTableNext` returns 0 and leaves the cell
`(write 1, STOP, next 0)`, whose `write` is larger than `charset_max`: a cell that becomes
`STOP` is given `write = 1` whatever the alphabet. -/
theorem tmTableNext_write_outside :
    rightRunner.num_states = 1 ∧ rightRunner.charset_max = 0 ∧
    (∀ s i : Int, 0 ≤ (rightRunner.table s i).write ∧
      (rightRunner.table s i).write ≤ rightRunner.charset_max) ∧
    (tmTableNext rightRunner).2 = 0 ∧
    (tmTableNext rightRunner).1.table 0 0 = { write := 1, move := Move.STOP, next := 0 } ∧
    ¬ ((tmTableNext rightRunner).1.table 0 0).write ≤ rightRunner.charset_max := by
  refine ⟨rfl, rfl, fun _ _ => ⟨le_refl 0, le_refl 0⟩, by decide, by decide, by decide⟩

/-! ## The head positions that the tape covers -/

theorem tmTapeWriteRange_eq (this : TuringMachineT) (h : 1 ≤ this.tape_len) :
    tmTapeWriteRange this = (-(this.tape_len / 2), (this.tape_len - 1) / 2) := by
  unfold tmTapeWriteRange
  rw [tmTapeHead_of_nonneg this (this.tape_len - 1) (by omega)]
  by_cases hp : (this.tape_len - 1) % 2 = 0
  · rw [if_pos hp, if_pos (by omega)]
    refine Prod.ext ?_ rfl
    show -((this.tape_len - 1) / 2) = -(this.tape_len / 2)
    omega
  · rw [if_neg hp, if_neg (by omega)]
    refine Prod.ext ?_ ?_
    · show -((this.tape_len - 1 + 1) / 2) = -(this.tape_len / 2)
      omega
    · show -(-((this.tape_len - 1 + 1) / 2) + 1) = (this.tape_len - 1) / 2
      omega

theorem tmTapePrintRange_eq (this : TuringMachineT) (h : 1 ≤ this.tape_len) :
    tmTapePrintRange this = (-(this.tape_len / 2), (this.tape_len - 1) / 2) := by
  unfold tmTapePrintRange
  have e1 : Int.tmod this.tape_len 2 = this.tape_len % 2 :=
    Int.tmod_eq_emod (by omega) (by omega)
  have e2 : Int.tdiv this.tape_len 2 = this.tape_len / 2 :=
    Int.tdiv_eq_ediv (by omega) (by omega)
  have e3 : Int.tdiv (-this.tape_len) 2 = -(this.tape_len / 2) := by
    rw [Int.neg_tdiv, e2]
  rw [e1, e2, e3]
  by_cases hp : this.tape_len % 2 = 0
  · rw [if_pos hp]
    refine Prod.ext rfl ?_
    show this.tape_len + -(this.tape_len / 2) - 1 = (this.tape_len - 1) / 2
    omega
  · rw [if_neg hp]
    refine Prod.ext ?_ ?_
    · show this.tape_len / 2 - this.tape_len + 1 = -(this.tape_len / 2)
      omega
    · show this.tape_len / 2 = (this.tape_len - 1) / 2
      omega

/-- C38: no storage slot is wasted.  For `tape_len >= 1` the head positions `h` with
`tmTapeIndex(h) < tape_len` are exactly the integers of the interval
`[start_index, last_index]` that `tmTapeWrite` computes from
`tmTapeHead(tape_len - 1)`; this interval contains 0, has exactly `tape_len` elements, and
is the interval `[left_end, right_end]` that `tmTapePrint` computes from the parity of
`tape_len`. -/
theorem tmTapeWrite_range (this : TuringMachineT) (h : 1 ≤ this.tape_len) :
    (∀ hd : Int, tmTapeIndex { this with here := hd } < this.tape_len ↔
      (tmTapeWriteRange this).1 ≤ hd ∧ hd ≤ (tmTapeWriteRange this).2) ∧
    ((tmTapeWriteRange this).1 ≤ 0 ∧ 0 ≤ (tmTapeWriteRange this).2) ∧
    (tmTapeWriteRange this).2 - (tmTapeWriteRange this).1 + 1 = this.tape_len ∧
    tmTapePrintRange this = tmTapeWriteRange this := by
  rw [tmTapePrintRange_eq this h, tmTapeWriteRange_eq this h]
  refine ⟨?_, ⟨?_, ?_⟩, ?_, rfl⟩
  · intro hd
    unfold tmTapeIndex
    show (if hd ≥ 0 then hd * 2 else -(hd * 2 + 1)) < this.tape_len ↔
      -(this.tape_len / 2) ≤ hd ∧ hd ≤ (this.tape_len - 1) / 2
    split_ifs <;> omega
  · show -(this.tape_len / 2) ≤ 0
    omega
  · show 0 ≤ (this.tape_len - 1) / 2
    omega
  · show (this.tape_len - 1) / 2 - -(this.tape_len / 2) + 1 = this.tape_len
    omega

/-- Witness of C38: the two-state busy beaver after its run (a tape of 4 frames). -/
theorem tmTapeWrite_range_witness :
    1 ≤ (tmSimulate (busyBeaver2 1) 100 1000).1.tape_len ∧
    tmTapePrintRange (tmSimulate (busyBeaver2 1) 100 1000).1 =
      tmTapeWriteRange (tmSimulate (busyBeaver2 1) 100 1000).1 :=
  ⟨by decide, (tmTapeWrite_range (tmSimulate (busyBeaver2 1) 100 1000).1 (by decide)).2.2.2⟩

/-! ## Runs that never stop -/

/-- A run in which no step reads a `STOP` entry makes `tmSimulate` return a negative
value. -/
theorem tmSimulate_neg_of_never_stop (this : TuringMachineT) (max_iters tape_len_max : Int)
    (h : ∀ j : Nat, (currentEntry (tmUpdateIter j this)).move ≠ Move.STOP) :
    (tmSimulate this max_iters tape_len_max).2 < 0 := by
  have hflag : stopFlag this 0 (tmSimulateIters this max_iters tape_len_max) = 0 := by
    rw [stopFlag_eq_zero_iff]
    rintro ⟨-, hs⟩
    exact h _ hs
  rw [(tmSimulate_of_loop this max_iters tape_len_max).2,
    (tmSimulate_run this max_iters tape_len_max).1]
  simp only [hflag, ne_eq, not_true_eq_false, if_false]
  split_ifs <;> decide

/-- The blank tape: one frame, holding 0, with the head on it. -/
theorem blankStart_fields (this : TuringMachineT) :
    (blankStart this).table = this.table ∧ (blankStart this).charset_max = this.charset_max ∧
    (blankStart this).num_states = this.num_states ∧ (blankStart this).state = 0 ∧
    (blankStart this).here = 0 ∧ (blankStart this).tape_len = 1 ∧
    (blankStart this).tape 0 = 0 := by
  obtain ⟨h1, h2, h3, h4, h5, h6, -, h8⟩ :=
    tmTapeAlloc_fields { tmTapeFree { this with state := 0 } with here := 0 }
  have hlen : (blankStart this).tape_len = 1 := by
    have e : (blankStart this).tape_len = max 0 (0 + 1) := h6
    rw [e]
    decide
  refine ⟨h3, h4, h5, h2, h1, hlen, ?_⟩
  exact h8 0 (le_refl 0) (by rw [show (tmTapeAlloc _).tape_len = 1 from hlen]; decide)

/-- Invariant of the run of a machine whose entry `table[0][0]` is not a `STOP` and names
the state 0, started in state 0 on a blank tape: the machine is in state 0, the head is on
the last allocated frame, which holds 0, on the side the entry moves to. -/
theorem blankStart_loop (this : TuringMachineT) (hnext : (this.table 0 0).next = 0)
    (hmove : (this.table 0 0).move ≠ Move.STOP) (n : Nat) :
    (tmUpdateIter n (blankStart this)).table = this.table ∧
    (tmUpdateIter n (blankStart this)).state = 0 ∧
    tmTapeFrame (tmUpdateIter n (blankStart this)) = 0 ∧
    (tmUpdateIter n (blankStart this)).tape_len =
      tmTapeIndex (tmUpdateIter n (blankStart this)) + 1 ∧
    ((this.table 0 0).move = Move.MOVE_LEFT → (tmUpdateIter n (blankStart this)).here ≤ 0) ∧
    ((this.table 0 0).move = Move.MOVE_RIGHT → 0 ≤ (tmUpdateIter n (blankStart this)).here) := by
  induction n with
  | zero =>
    obtain ⟨h1, -, -, h4, h5, h6, h7⟩ := blankStart_fields this
    have hidx : tmTapeIndex (blankStart this) = 0 := by
      unfold tmTapeIndex
      rw [h5]
      rfl
    refine ⟨h1, h4, ?_, ?_, ?_, ?_⟩
    · show (blankStart this).tape (tmTapeIndex (blankStart this)) = 0
      rw [hidx]
      exact h7
    · show (blankStart this).tape_len = tmTapeIndex (blankStart this) + 1
      rw [hidx, h6]
      rfl
    · intro _
      show (blankStart this).here ≤ 0
      omega
    · intro _
      show 0 ≤ (blankStart this).here
      omega
  | succ k ih =>
    obtain ⟨hT, hS, hF, hL, hleft, hright⟩ := ih
    have hentry : currentEntry (tmUpdateIter k (blankStart this)) = this.table 0 0 := by
      unfold currentEntry
      rw [hT, hS, hF]
    have hstep : tmUpdateIter (k + 1) (blankStart this) =
        (tmUpdate (tmUpdateIter k (blankStart this))).1 := rfl
    rw [hstep, tmUpdate_fst, hentry]
    generalize tmUpdateIter k (blankStart this) = m at hT hS hF hL hleft hright
    have hidxm : tmTapeIndex m = if m.here ≥ 0 then m.here * 2 else -(m.here * 2 + 1) := rfl
    cases hmv : (this.table 0 0).move with
    | STOP => exact absurd hmv hmove
    | MOVE_LEFT =>
      have hh := hleft hmv
      obtain ⟨a1, -, a3, -, -, a6, -, a8⟩ := tmTapeAlloc_fields
        { tmTapeFrameSet m (this.table 0 0).write with
          here := (tmTapeFrameSet m (this.table 0 0).write).here - 1 }
      have hg : tmTapeIndex { tmTapeFrameSet m (this.table 0 0).write with
          here := (tmTapeFrameSet m (this.table 0 0).write).here - 1 } =
          -((m.here - 1) * 2 + 1) := by
        unfold tmTapeIndex
        show (if m.here - 1 ≥ 0 then (m.here - 1) * 2 else -((m.here - 1) * 2 + 1)) = _
        rw [if_neg (by omega)]
      have hlen0 : ({ tmTapeFrameSet m (this.table 0 0).write with
          here := (tmTapeFrameSet m (this.table 0 0).write).here - 1 } :
            TuringMachineT).tape_len = m.tape_len := rfl
      rw [hg, hlen0] at a6
      rw [hlen0] at a8
      have hidx2 : tmTapeIndex (tmTapeAlloc { tmTapeFrameSet m (this.table 0 0).write with
          here := (tmTapeFrameSet m (this.table 0 0).write).here - 1 }) =
          -((m.here - 1) * 2 + 1) := by
        rw [← hg]
        exact tmTapeIndex_congr _ _ a1
      have hmL : m.tape_len ≤ -((m.here - 1) * 2 + 1) := by
        rw [hL, hidxm]
        split_ifs <;> omega
      refine ⟨a3.trans hT, hnext, ?_, ?_, ?_, ?_⟩
      · show (tmTapeAlloc _).tape (tmTapeIndex (tmTapeAlloc _)) = 0
        rw [hidx2]
        exact a8 _ hmL (by rw [a6]; omega)
      · show (tmTapeAlloc _).tape_len = tmTapeIndex (tmTapeAlloc _) + 1
        rw [hidx2, a6]
        omega
      · intro _
        show (tmTapeAlloc _).here ≤ 0
        rw [a1]
        show m.here - 1 ≤ 0
        omega
      · intro hc
        exact absurd hc (by decide)
    | MOVE_RIGHT =>
      have hh := hright hmv
      obtain ⟨a1, -, a3, -, -, a6, -, a8⟩ := tmTapeAlloc_fields
        { tmTapeFrameSet m (this.table 0 0).write with
          here := (tmTapeFrameSet m (this.table 0 0).write).here + 1 }
      have hg : tmTapeIndex { tmTapeFrameSet m (this.table 0 0).write with
          here := (tmTapeFrameSet m (this.table 0 0).write).here + 1 } =
          (m.here + 1) * 2 := by
        unfold tmTapeIndex
        show (if m.here + 1 ≥ 0 then (m.here + 1) * 2 else -((m.here + 1) * 2 + 1)) = _
        rw [if_pos (by omega)]
      have hlen0 : ({ tmTapeFrameSet m (this.table 0 0).write with
          here := (tmTapeFrameSet m (this.table 0 0).write).here + 1 } :
            TuringMachineT).tape_len = m.tape_len := rfl
      rw [hg, hlen0] at a6
      rw [hlen0] at a8
      have hidx2 : tmTapeIndex (tmTapeAlloc { tmTapeFrameSet m (this.table 0 0).write with
          here := (tmTapeFrameSet m (this.table 0 0).write).here + 1 }) =
          (m.here + 1) * 2 := by
        rw [← hg]
        exact tmTapeIndex_congr _ _ a1
      have hmL : m.tape_len ≤ (m.here + 1) * 2 := by
        rw [hL, hidxm]
        split_ifs <;> omega
      refine ⟨a3.trans hT, hnext, ?_, ?_, ?_, ?_⟩
      · show (tmTapeAlloc _).tape (tmTapeIndex (tmTapeAlloc _)) = 0
        rw [hidx2]
        exact a8 _ hmL (by rw [a6]; omega)
      · show (tmTapeAlloc _).tape_len = tmTapeIndex (tmTapeAlloc _) + 1
        rw [hidx2, a6]
        omega
      · intro hc
        exact absurd hc (by decide)
      · intro _
        show 0 ≤ (tmTapeAlloc _).here
        rw [a1]
        show 0 ≤ m.here + 1
        omega

/-- C39: weeding reason 1 is sound on a blank tape.  When `table[0][0].next = 0` and
`table[0][0].move` is not `STOP`, the machine started in state 0 on a blank tape
(`tmTapeBlank`) is in state 0 reading the symbol 0 before every step, so it never stops:
`tmSimulate` returns a negative value for every `max_iters` and `tape_len_max`. -/
theorem blankStart_never_stops (this : TuringMachineT)
    (hnext : (this.table 0 0).next = 0) (hmove : (this.table 0 0).move ≠ Move.STOP) :
    (∀ n : Nat, (tmUpdateIter n (blankStart this)).state = 0 ∧
      tmTapeFrame (tmUpdateIter n (blankStart this)) = 0 ∧
      currentEntry (tmUpdateIter n (blankStart this)) = this.table 0 0) ∧
    ∀ max_iters tape_len_max : Int,
      (tmSimulate (blankStart this) max_iters tape_len_max).2 < 0 := by
  have hentry : ∀ n : Nat, currentEntry (tmUpdateIter n (blankStart this)) = this.table 0 0 := by
    intro n
    obtain ⟨hT, hS, hF, -⟩ := blankStart_loop this hnext hmove n
    unfold currentEntry
    rw [hT, hS, hF]
  constructor
  · intro n
    obtain ⟨-, hS, hF, -⟩ := blankStart_loop this hnext hmove n
    exact ⟨hS, hF, hentry n⟩
  · intro max_iters tape_len_max
    apply tmSimulate_neg_of_never_stop
    intro j
    rw [hentry j]
    exact hmove

/-- Witness of C39: the all-zero table of the classical shape. -/
theorem blankStart_never_stops_witness :
    (classicZero.table 0 0).next = 0 ∧ (classicZero.table 0 0).move ≠ Move.STOP ∧
    (tmSimulate (blankStart classicZero) 100 100).2 < 0 :=
  ⟨rfl, by decide, (blankStart_never_stops classicZero rfl (by decide)).2 100 100⟩

/-! ## The score and the number of steps -/

/-- Changing one cell adds at most one mark. -/
theorem tmTapeOneCountLoop_update (t1 t2 : Int → Int) (idx : Int) (n : Nat)
    (h : ∀ i : Int, 0 ≤ i → i < n → i ≠ idx → t2 i = t1 i) :
    tmTapeOneCountLoop t2 n ≤ tmTapeOneCountLoop t1 n +
      (if 0 ≤ idx ∧ idx < n then 1 else 0) := by
  induction n with
  | zero =>
    show (0 : Int) ≤ 0 + _
    split_ifs <;> omega
  | succ k ih =>
    have ihk := ih (fun i h0 h1 hne => h i h0 (by push_cast; omega) hne)
    show tmTapeOneCountLoop t2 k + (if t2 (k : Int) = 1 then 1 else 0) ≤
      tmTapeOneCountLoop t1 k + (if t1 (k : Int) = 1 then 1 else 0) + _
    by_cases hk : (k : Int) = idx
    · have h1 : ¬ (0 ≤ idx ∧ idx < (k : Int)) := by omega
      have h2 : 0 ≤ idx ∧ idx < ((k + 1 : Nat) : Int) := by
        push_cast
        omega
      rw [if_neg h1] at ihk
      rw [if_pos h2]
      split_ifs <;> omega
    · have e := h (k : Int) (by omega) (by push_cast; omega) hk
      rw [e]
      have h3 : (0 ≤ idx ∧ idx < ((k + 1 : Nat) : Int)) ↔ (0 ≤ idx ∧ idx < (k : Int)) := by
        push_cast
        omega
      rw [if_congr h3 rfl rfl]
      omega

/-- Frames that hold 0 add no mark. -/
theorem tmTapeOneCountLoop_zeros (t : Int → Int) (n : Nat) (d : Nat)
    (h : ∀ i : Int, (n : Int) ≤ i → i < (n : Int) + d → t i = 0) :
    tmTapeOneCountLoop t (n + d) = tmTapeOneCountLoop t n := by
  induction d with
  | zero => rfl
  | succ k ih =>
    have ihk := ih (fun i h0 h1 => h i h0 (by push_cast; omega))
    show tmTapeOneCountLoop t (n + k) + (if t ((n + k : Nat) : Int) = 1 then 1 else 0) = _
    rw [ihk, h ((n + k : Nat) : Int) (by push_cast; omega) (by push_cast; omega)]
    simp

/-- One step adds at most one mark to the tape. -/
theorem tmTapeOneCount_tmUpdate (this : TuringMachineT)
    (hhead : tmTapeIndex this < this.tape_len) :
    tmTapeOneCount (tmUpdate this).1 ≤ tmTapeOneCount this + 1 := by
  obtain ⟨hold, hnew⟩ := tmUpdate_tape this
  obtain ⟨-, hge, -⟩ := tmUpdate_tape_len this hhead
  have hidx := tmTapeIndex_nonneg this
  unfold tmTapeOneCount
  obtain ⟨d, hd⟩ : ∃ d : Nat, (tmUpdate this).1.tape_len.toNat = this.tape_len.toNat + d :=
    ⟨(tmUpdate this).1.tape_len.toNat - this.tape_len.toNat, by omega⟩
  rw [hd, tmTapeOneCountLoop_zeros]
  · have hup := tmTapeOneCountLoop_update this.tape (tmUpdate this).1.tape (tmTapeIndex this)
      this.tape_len.toNat (by
        intro i h0 h1 hne
        rw [hold i (by omega), if_neg hne])
    have hle : (if 0 ≤ tmTapeIndex this ∧ tmTapeIndex this < (this.tape_len.toNat : Int)
        then (1 : Int) else 0) ≤ 1 := by
      split_ifs <;> omega
    omega
  · intro i h0 h1
    exact hnew i (by omega) (by omega)

/-- After `j` steps from the blank tape there are at most `j` marks on at most `2 j + 1`
frames. -/
theorem blankStart_score (this : TuringMachineT) (j : Nat) :
    tmTapeIndex (tmUpdateIter j (blankStart this)) < (tmUpdateIter j (blankStart this)).tape_len ∧
    tmTapeOneCount (tmUpdateIter j (blankStart this)) ≤ j ∧
    (tmUpdateIter j (blankStart this)).tape_len ≤ 2 * j + 1 := by
  induction j with
  | zero =>
    obtain ⟨-, -, -, -, h5, h6, h7⟩ := blankStart_fields this
    have hidx : tmTapeIndex (blankStart this) = 0 := by
      unfold tmTapeIndex
      rw [h5]
      rfl
    refine ⟨?_, ?_, ?_⟩
    · show tmTapeIndex (blankStart this) < (blankStart this).tape_len
      rw [hidx, h6]
      decide
    · show tmTapeOneCount (blankStart this) ≤ 0
      unfold tmTapeOneCount
      rw [h6]
      show tmTapeOneCountLoop (blankStart this).tape 0 +
        (if (blankStart this).tape ((0 : Nat) : Int) = 1 then 1 else 0) ≤ 0
      have e : (blankStart this).tape ((0 : Nat) : Int) = 0 := h7
      rw [e, if_neg (by decide)]
      show (0 : Int) + 0 ≤ 0
      decide
    · show (blankStart this).tape_len ≤ 2 * 0 + 1
      rw [h6]
      decide
  | succ k ih =>
    obtain ⟨hh, hc, hl⟩ := ih
    obtain ⟨s1, -, s3⟩ := tmUpdate_tape_len (tmUpdateIter k (blankStart this)) hh
    have hone := tmTapeOneCount_tmUpdate (tmUpdateIter k (blankStart this)) hh
    refine ⟨s1, ?_, ?_⟩
    · show tmTapeOneCount (tmUpdate (tmUpdateIter k (blankStart this))).1 ≤ ((k + 1 : Nat) : Int)
      push_cast
      omega
    · show (tmUpdate (tmUpdateIter k (blankStart this))).1.tape_len ≤ 2 * ((k + 1 : Nat) : Int) + 1
      push_cast
      omega

/-- C40: the score is bounded by the step count.  If `tmSimulate`, started in state 0 on a
blank tape (`tmTapeBlank`), returns `n >= 0`, then `tmTapeOneCount` of the final tape is at
most `n` and the final `tape_len` is at most `2 n + 1`. -/
theorem tmSimulate_score_le (this : TuringMachineT) (max_iters tape_len_max : Int)
    (h : 0 ≤ (tmSimulate (blankStart this) max_iters tape_len_max).2) :
    tmTapeOneCount (tmSimulate (blankStart this) max_iters tape_len_max).1 ≤
      (tmSimulate (blankStart this) max_iters tape_len_max).2 ∧
    (tmSimulate (blankStart this) max_iters tape_len_max).1.tape_len ≤
      2 * (tmSimulate (blankStart this) max_iters tape_len_max).2 + 1 := by
  have hval : (tmSimulate (blankStart this) max_iters tape_len_max).2 =
      (tmSimulateIters (blankStart this) max_iters tape_len_max : Int) := by
    have h2 := (tmSimulate_of_loop (blankStart this) max_iters tape_len_max).2
    rw [(tmSimulate_run (blankStart this) max_iters tape_len_max).1] at h2
    rw [h2] at h ⊢
    simp only at h ⊢
    by_cases hf : stopFlag (blankStart this) 0
        (tmSimulateIters (blankStart this) max_iters tape_len_max) ≠ 0
    · rw [if_pos hf]
    · rw [if_neg hf] at h
      exfalso
      revert h
      split_ifs <;> decide
  obtain ⟨-, hc, hl⟩ := blankStart_score this
    (tmSimulateIters (blankStart this) max_iters tape_len_max)
  rw [hval, tmSimulate_fst]
  exact ⟨hc, hl⟩

/-- Witness of C40: the two-state busy beaver, 6 steps and 4 marks. -/
theorem tmSimulate_score_le_witness :
    0 ≤ (tmSimulate (blankStart (busyBeaver2 1)) 100 1000).2 ∧
    tmTapeOneCount (tmSimulate (blankStart (busyBeaver2 1)) 100 1000).1 ≤
      (tmSimulate (blankStart (busyBeaver2 1)) 100 1000).2 :=
  ⟨by decide, (tmSimulate_score_le (busyBeaver2 1) 100 1000 (by decide)).1⟩

/-! ## Weeding reason 4 -/

theorem wellFormed_table (this : TuringMachineT) (h : WellFormed this) :
    WellFormedTable this := by
  obtain ⟨htab, hstate, htape, hhead⟩ := h
  have hframe := htape (tmTapeIndex this) (tmTapeIndex_nonneg this) hhead
  exact ⟨by omega, by omega, fun s i h1 h2 h3 h4 => htab s i h1 h2 h3 h4⟩

/-- A machine with a well-formed table, started in state 0 on a blank tape, is well
formed. -/
theorem blankStart_wellFormed (this : TuringMachineT) (h : WellFormedTable this) :
    WellFormed (blankStart this) := by
  obtain ⟨hns, hcm, hcells⟩ := h
  obtain ⟨h1, h2, h3, h4, h5, h6, h7⟩ := blankStart_fields this
  have hidx : tmTapeIndex (blankStart this) = 0 := by
    unfold tmTapeIndex
    rw [h5]
    rfl
  refine ⟨?_, ?_, ?_, ?_⟩
  · rw [h1, h2, h3]
    exact hcells
  · rw [h4, h3]
    omega
  · intro i hi0 hi1
    rw [h6] at hi1
    have e : i = 0 := by omega
    rw [e, h7, h2]
    omega
  · rw [hidx, h6]
    decide

/-- Along a run of a well-formed machine from state 0, the state is reachable from state 0
in the table. -/
theorem tmUpdateIter_reach (this : TuringMachineT) (hwf : WellFormed this)
    (hstate : this.state = 0) (j : Nat) : Reach this (tmUpdateIter j this).state := by
  induction j with
  | zero =>
    show Reach this this.state
    rw [hstate]
    exact Reach.start
  | succ k ih =>
    obtain ⟨hw, -⟩ := wellFormed_tmUpdateIter this hwf k
    obtain ⟨-, hframe, -⟩ := wellFormed_stepReady _ hw
    obtain ⟨hT, hC, -⟩ := tmUpdateIter_frame k this
    show Reach this (tmUpdate (tmUpdateIter k this)).1.state
    rw [(tmUpdate_frame (tmUpdateIter k this)).2.2.2]
    unfold currentEntry
    rw [hT]
    rw [hC] at hframe
    exact Reach.step _ _ ih hframe.1 hframe.2

/-- C33: weeding reason 4 is sound.  For a well-formed machine in state 0 (every tape
symbol in `[0, charset_max]`) whose table makes `tmTableBFS` with `foundStop` return 0,
no step of the run reads a `STOP` entry, and `tmSimulate` returns a negative value for
every `max_iters` and `tape_len_max`. -/
theorem tmTableBFS_stop_sound (this : TuringMachineT) (fifo : Option FifoT)
    (hwf : WellFormed this) (hstate : this.state = 0) (hstatic : StaticOK fifo this)
    (hzero : (tmTableBFS fifo this (some foundStop)).map Prod.snd = some 0) :
    (∀ j : Nat, (currentEntry (tmUpdateIter j this)).move ≠ Move.STOP) ∧
    ∀ max_iters tape_len_max : Int, (tmSimulate this max_iters tape_len_max).2 < 0 := by
  obtain ⟨r, hr, -, hiff⟩ := tmTableBFS_stop this (wellFormed_table this hwf) fifo hstatic
  rw [hr] at hzero
  have hr0 : r.2 = 0 := Option.some.inj hzero
  have hno : ¬ ReachEntry this (fun e => e.move = Move.STOP) := by
    intro hre
    exact (hiff.2 hre) hr0
  have hnever : ∀ j : Nat, (currentEntry (tmUpdateIter j this)).move ≠ Move.STOP := by
    intro j hs
    obtain ⟨hw, -⟩ := wellFormed_tmUpdateIter this hwf j
    obtain ⟨-, hframe, -⟩ := wellFormed_stepReady _ hw
    obtain ⟨hT, hC, -⟩ := tmUpdateIter_frame j this
    unfold currentEntry at hs
    rw [hT] at hs
    rw [hC] at hframe
    exact hno ⟨_, _, tmUpdateIter_reach this hwf hstate j, hframe.1, hframe.2, hs⟩
  exact ⟨hnever, fun max_iters tape_len_max =>
    tmSimulate_neg_of_never_stop this max_iters tape_len_max hnever⟩

/-- Witness of C33: the all-zero table of the classical shape, which has no `STOP`. -/
theorem tmTableBFS_stop_sound_witness :
    WellFormed (blankStart classicZero) ∧ (blankStart classicZero).state = 0 ∧
    StaticOK none (blankStart classicZero) ∧
    (tmTableBFS none (blankStart classicZero) (some foundStop)).map Prod.snd = some 0 ∧
    (tmSimulate (blankStart classicZero) 100 100).2 < 0 :=
  ⟨blankStart_wellFormed classicZero classicZero_wellFormedTable, rfl, staticOK_none _,
    by decide,
    (tmTableBFS_stop_sound (blankStart classicZero) none
      (blankStart_wellFormed classicZero classicZero_wellFormedTable) rfl (staticOK_none _)
      (by decide)).2 100 100⟩

/-! ## The calls of `fifoAdd` inside `tmTableBFS` -/

/-- Leaving the list out of `tmTableBFSRowLog` gives `tmTableBFSRow`. -/
theorem tmTableBFSRowLog_fst (this : TuringMachineT) (test : Option (Entry → Int))
    (state : Int) (n : Nat) :
    ∀ (ii : Int) (f : FifoT) (sp : Int → Int) (c : Int) (log : List AddCall),
      (tmTableBFSRowLog this test state n ii f sp c log).1 =
        tmTableBFSRow this test state n ii f sp c := by
  induction n with
  | zero =>
    intro ii f sp c log
    rfl
  | succ k ih =>
    intro ii f sp c log
    unfold tmTableBFSRowLog tmTableBFSRow
    by_cases ht : testValue test (this.table state ii) ≠ 0
    · rw [if_pos ht, if_pos ht]
    · rw [if_neg ht, if_neg ht]
      by_cases hsp : sp (this.table state ii).next = 0
      · rw [if_pos hsp, if_pos hsp]
        cases hadd : fifoAdd f ((this.table state ii).next + 1) with
        | none => rfl
        | some r => exact ih _ _ _ _ _
      · rw [if_neg hsp, if_neg hsp]
        exact ih _ _ _ _ _

/-- Leaving the list out of `tmTableBFSLoopLog` gives `tmTableBFSLoop`. -/
theorem tmTableBFSLoopLog_fst (this : TuringMachineT) (test : Option (Entry → Int))
    (fuel : Nat) :
    ∀ (f : FifoT) (sp : Int → Int) (c : Int) (log : List AddCall),
      (tmTableBFSLoopLog this test fuel f sp c log).1 = tmTableBFSLoop this test fuel f sp c := by
  induction fuel with
  | zero =>
    intro f sp c log
    rfl
  | succ k ih =>
    intro f sp c log
    unfold tmTableBFSLoopLog tmTableBFSLoop
    by_cases hc : c ≤ this.num_states
    · rw [if_pos hc, if_pos hc]
      cases hpop : fifoPop f with
      | none => rfl
      | some r =>
        simp only
        by_cases hr : r.2 ≠ 0
        · rw [if_pos hr, if_pos hr]
          have hrow := tmTableBFSRowLog_fst this test (r.2 - 1) (this.charset_max + 1).toNat
            0 r.1 sp c log
          rcases hres : tmTableBFSRowLog this test (r.2 - 1) (this.charset_max + 1).toNat 0
            r.1 sp c log with ⟨step, log1⟩
          rw [hres] at hrow
          rw [← hrow]
          cases step with
          | aborted => rfl
          | returned f1 v => rfl
          | running f1 sp1 c1 => exact ih _ _ _ _
          | exhausted => rfl
        · rw [if_neg hr, if_neg hr]
    · rw [if_neg hc, if_neg hc]

/-- Leaving the list out of `tmTableBFSLog` gives `tmTableBFS`. -/
theorem tmTableBFSLog_fst (fifo : Option FifoT) (this : TuringMachineT)
    (test : Option (Entry → Int)) :
    (tmTableBFSLog fifo this test).1 = tmTableBFS fifo this test := by
  have hbody : ∀ f : FifoT,
      (tmTableBFSBodyLog f this test).1 = tmTableBFSBody f this test := by
    intro f
    unfold tmTableBFSBodyLog tmTableBFSBody
    cases hadd : fifoAdd f 1 with
    | none => rfl
    | some r =>
      simp only
      have hloop := tmTableBFSLoopLog_fst this test (this.num_states.toNat + 1) r.1
        (fun s => if s = 0 then 1 else 0) 1 [AddCall.mk f 1 r.2]
      rcases hres : tmTableBFSLoopLog this test (this.num_states.toNat + 1) r.1
        (fun s => if s = 0 then 1 else 0) 1 [AddCall.mk f 1 r.2] with ⟨step, log1⟩
      rw [hres] at hloop
      rw [← hloop]
      cases step <;> rfl
  unfold tmTableBFSLog tmTableBFS
  cases fifo with
  | none =>
    simp only
    cases fifoNew (this.num_states * (this.charset_max + 1)) with
    | none => rfl
    | some f => exact hbody f
  | some f => exact hbody f

/-- Under the invariant of the loops, a push of a state that was not pushed before
succeeds, on a queue with fewer than `num_states` items and at a slot below
`num_states`. -/
theorem bfsCore_add_ok (this : TuringMachineT) (f : FifoT) (sp : Int → Int) (c : Int)
    (P : Finset Int) (D : Int → Prop) (k : Int) (h : BfsCore this f sp c P D k)
    (n : Int) (hn : n ∉ P) (hrange : 0 ≤ n ∧ n < this.num_states) (r : FifoT × Int)
    (hadd : fifoAdd f (n + 1) = some r) :
    AddCallOK this (AddCall.mk f (n + 1) r.2) := by
  obtain ⟨⟨hk0, hkc⟩, hcount, hfirst, hlen, -, hP, hcard, -, -, -⟩ := h
  have hsub : insert n P ⊆ Finset.Ico 0 this.num_states := by
    intro s hs
    rcases Finset.mem_insert.1 hs with hs | hs
    · rw [hs]
      exact Finset.mem_Ico.2 hrange
    · exact Finset.mem_Ico.2 (hP s hs).1
  have hcard2 := Finset.card_le_card hsub
  rw [Int.card_Ico, Finset.card_insert_of_not_mem hn] at hcard2
  have hc1 : c + 1 ≤ this.num_states := by omega
  have hkl : k % f.length = k := Int.emod_eq_of_lt hk0 (by omega)
  have hval : r.2 = 0 := by
    unfold fifoAdd at hadd
    rw [if_neg (by omega), if_neg (by omega), if_neg (by unfold fifoSlots; omega)] at hadd
    rw [← Option.some.inj hadd]
  refine ⟨hval, ⟨?_, ?_⟩, ⟨?_, ?_⟩, ⟨?_, ?_⟩⟩
  · show 0 ≤ f.count
    omega
  · show f.count + 1 ≤ this.num_states
    omega
  · show 0 ≤ f.first + f.count
    omega
  · show f.first + f.count < this.num_states
    omega
  · show 0 ≤ n + 1 - 1
    omega
  · show n + 1 - 1 < this.num_states
    omega

/-- The list of calls grows by a call that is in order and adds a new state. -/
theorem bfsLogInv_push (this : TuringMachineT) (log : List AddCall) (sp : Int → Int)
    (e : AddCall) (n : Int) (hitem : e.item = n + 1) (hok : AddCallOK this e)
    (hsp : sp n = 0) (h : BfsLogInv this log sp) :
    BfsLogInv this (log ++ [e]) (fun s => if s = n then 1 else sp s) := by
  obtain ⟨⟨hall, hnodup⟩, hmark⟩ := h
  refine ⟨⟨?_, ?_⟩, ?_⟩
  · intro x hx
    rcases List.mem_append.1 hx with hx | hx
    · exact hall x hx
    · rw [List.mem_singleton.1 hx]
      exact hok
  · rw [List.map_append, List.nodup_append]
    refine ⟨hnodup, List.nodup_singleton _, ?_⟩
    intro a ha hb
    simp only [List.map_cons, List.map_nil, List.mem_singleton] at hb
    obtain ⟨x, hx, hxa⟩ := List.mem_map.1 ha
    have hm := hmark x hx
    rw [hxa, hb, hitem] at hm
    apply hm
    rw [← hsp]
    congr 1
    omega
  · intro x hx
    rcases List.mem_append.1 hx with hx | hx
    · show (if x.item - 1 = n then 1 else sp (x.item - 1)) ≠ 0
      by_cases hxn : x.item - 1 = n
      · rw [if_pos hxn]
        decide
      · rw [if_neg hxn]
        exact hmark x hx
    · rw [List.mem_singleton.1 hx]
      show (if e.item - 1 = n then 1 else sp (e.item - 1)) ≠ 0
      rw [if_pos (by omega)]
      decide

/-- The `for` loop of `tmTableBFS` keeps the invariant of the list of calls. -/
theorem tmTableBFSRowLog_spec (this : TuringMachineT) (hwf : WellFormedTable this)
    (test : Option (Entry → Int)) (cur : Int) (D : Int → Prop) (k : Int) (n : Nat) :
    ∀ (ii : Int) (f : FifoT) (sp : Int → Int) (c : Int) (P : Finset Int)
      (log : List AddCall),
      0 ≤ ii → ii + n = this.charset_max + 1 → cur ∈ P →
      BfsCore this f sp c P D k → BfsLogInv this log sp →
      BfsLogPost this (tmTableBFSRowLog this test cur n ii f sp c log) := by
  induction n with
  | zero =>
    intro ii f sp c P log _ _ _ _ hlog
    exact hlog
  | succ n ih =>
    intro ii f sp c P log hii hn hcur hcore hlog
    have hiimax : ii ≤ this.charset_max := by
      push_cast at hn
      omega
    have hcurR := (hcore.2.2.2.2.2.1 cur hcur)
    have hcell := hwf.2.2 cur ii hcurR.1.1 hcurR.1.2 hii hiimax
    have hreach : Reach this (this.table cur ii).next := Reach.step cur ii hcurR.2 hii hiimax
    unfold tmTableBFSRowLog
    by_cases ht : testValue test (this.table cur ii) ≠ 0
    · rw [if_pos ht]
      exact hlog.1
    · rw [if_neg ht]
      by_cases hsp : sp (this.table cur ii).next = 0
      · rw [if_pos hsp]
        have hnot : (this.table cur ii).next ∉ P := by
          intro hin
          exact (hcore.2.2.2.2.1 _).2 hin hsp
        obtain ⟨r, hadd, -, hcore2⟩ := bfsCore_push this f sp c P _ k hcore
          (this.table cur ii).next hnot hcell.2 hreach
        have hok := bfsCore_add_ok this f sp c P D k hcore (this.table cur ii).next hnot
          hcell.2 r hadd
        rw [hadd]
        exact ih (ii + 1) r.1 _ (c + 1) (insert (this.table cur ii).next P) _ (by omega)
          (by push_cast at hn; omega) (Finset.mem_insert_of_mem hcur) hcore2
          (bfsLogInv_push this log sp _ (this.table cur ii).next rfl hok hsp hlog)
      · rw [if_neg hsp]
        exact ih (ii + 1) f sp c P log (by omega) (by push_cast at hn; omega) hcur hcore hlog

/-- The `while` loop of `tmTableBFS` keeps the invariant of the list of calls. -/
theorem tmTableBFSLoopLog_spec (this : TuringMachineT) (hwf : WellFormedTable this)
    (test : Option (Entry → Int)) (fuel : Nat) :
    ∀ (f : FifoT) (sp : Int → Int) (c : Int) (P : Finset Int) (D : Int → Prop) (k : Int)
      (log : List AddCall),
      BfsCore this f sp c P D k → BfsClosed this test P (fun s _ => D s) →
      BfsLogInv this log sp →
      BfsLogPost this (tmTableBFSLoopLog this test fuel f sp c log) := by
  induction fuel with
  | zero =>
    intro f sp c P D k log _ _ hlog
    exact hlog.1
  | succ fuel ih =>
    intro f sp c P D k log hcore hclosed hlog
    have hc := bfsCore_count_le this f sp c P D k hcore
    unfold tmTableBFSLoopLog
    rw [if_pos hc]
    by_cases hk : k < c
    · obtain ⟨r, hpop, hlen, hne, hin, hcore2⟩ := bfsCore_pop this f sp c P D k hcore hk
      have hrow := tmTableBFSRow_spec this hwf test (r.2 - 1) D (k + 1)
        (this.charset_max + 1).toNat 0 r.1 sp c P (le_refl _)
        (by have := hwf.2.1; omega) hin hcore2 (by
          intro s i hH h0 h1
          rcases hH with hH | ⟨-, hi⟩
          · exact hclosed s i hH h0 h1
          · omega)
      have hrowlog := tmTableBFSRowLog_spec this hwf test (r.2 - 1)
        (fun s => D s ∨ s = r.2 - 1) (k + 1) (this.charset_max + 1).toNat 0 r.1 sp c P log
        (le_refl _) (by have := hwf.2.1; omega) hin hcore2 hlog
      have hfst := tmTableBFSRowLog_fst this test (r.2 - 1) (this.charset_max + 1).toNat
        0 r.1 sp c log
      rw [hpop]
      simp only
      rw [if_pos hne]
      rcases hres : tmTableBFSRowLog this test (r.2 - 1) (this.charset_max + 1).toNat 0
        r.1 sp c log with ⟨step, log1⟩
      rw [hres] at hrowlog hfst
      cases step with
      | aborted => exact hrowlog
      | returned f1 v => exact hrowlog
      | exhausted => exact hrowlog
      | running f1 sp1 c1 =>
        have hfst2 : tmTableBFSRow this test (r.2 - 1) (this.charset_max + 1).toNat 0 r.1
            sp c = BfsStep.running f1 sp1 c1 := hfst.symm
        rw [hfst2] at hrow
        obtain ⟨-, P1, -, h3, h4⟩ := hrow
        exact ih f1 sp1 c1 P1 (fun s => D s ∨ s = r.2 - 1) (k + 1) log1 h3 h4 hrowlog
    · have hpop := bfsCore_pop_empty this f sp c P D k hcore hk
      rw [hpop]
      simp only
      rw [if_neg (by decide)]
      exact hlog

/-- The list of the calls of `fifoAdd` of a call of `tmTableBFS` on a well-formed table
is in order. -/
theorem tmTableBFSLog_ok (this : TuringMachineT) (hwf : WellFormedTable this)
    (fifo : Option FifoT) (hstatic : StaticOK fifo this) (test : Option (Entry → Int)) :
    BfsLogOK this (tmTableBFSLog fifo this test).2 := by
  obtain ⟨hL1, hL2⟩ := wellFormedTable_length this hwf
  have hinit : ∃ f : FifoT, tmTableBFSLog fifo this test = tmTableBFSBodyLog f this test ∧
      f.first = 0 ∧ f.count = 0 ∧ f.length = this.num_states * (this.charset_max + 1) := by
    cases fifo with
    | none =>
      have e : fifoNew (this.num_states * (this.charset_max + 1)) =
          some (FifoT.mk (fun _ => 0) (this.num_states * (this.charset_max + 1)) 0 0) := by
        unfold fifoNew
        rw [if_neg (by omega)]
      refine ⟨FifoT.mk (fun _ => 0) (this.num_states * (this.charset_max + 1)) 0 0, ?_,
        rfl, rfl, rfl⟩
      unfold tmTableBFSLog
      simp only [e]
    | some f => exact ⟨f, rfl, hstatic f rfl⟩
  obtain ⟨f, hf, hfirst, hcount, hlen⟩ := hinit
  obtain ⟨r, hadd, -, hcore⟩ := bfsCore_init this hwf.1 f hfirst hcount (by omega)
  have hval : r.2 = 0 := by
    have h2 := hadd
    unfold fifoAdd at h2
    rw [if_neg (by omega), if_neg (by omega), if_neg (by unfold fifoSlots; omega)] at h2
    rw [← Option.some.inj h2]
  have hns := hwf.1
  have hlog0 : BfsLogInv this [AddCall.mk f 1 r.2] (fun s => if s = 0 then 1 else 0) := by
    refine ⟨⟨?_, List.nodup_singleton _⟩, ?_⟩
    · intro e he
      rw [List.mem_singleton.1 he]
      refine ⟨hval, ⟨?_, ?_⟩, ⟨?_, ?_⟩, ⟨?_, ?_⟩⟩
      · show 0 ≤ f.count
        omega
      · show f.count + 1 ≤ this.num_states
        omega
      · show 0 ≤ f.first + f.count
        omega
      · show f.first + f.count < this.num_states
        omega
      · show (0 : Int) ≤ 1 - 1
        decide
      · show (1 : Int) - 1 < this.num_states
        omega
    · intro e he
      rw [List.mem_singleton.1 he]
      show (if (1 : Int) - 1 = 0 then (1 : Int) else 0) ≠ 0
      decide
  have hloop := tmTableBFSLoopLog_spec this hwf test (this.num_states.toNat + 1) r.1 _ 1 {0}
    (fun _ => False) 0 [AddCall.mk f 1 r.2] hcore (fun s i hH _ _ => hH.elim) hlog0
  rw [hf]
  unfold tmTableBFSBodyLog
  rw [hadd]
  simp only
  rcases hres : tmTableBFSLoopLog this test (this.num_states.toNat + 1) r.1
    (fun s => if s = 0 then 1 else 0) 1 [AddCall.mk f 1 r.2] with ⟨step, log1⟩
  rw [hres] at hloop
  cases step with
  | aborted => exact hloop
  | returned f1 v => exact hloop
  | running f1 sp1 c1 => exact hloop.1
  | exhausted => exact hloop

/-- C32: the reachability work queue never overflows.  For a call of `tmTableBFS` on a
well-formed table (the static queue being `NULL` or the queue of an earlier call for the
shape): the call returns and leaves the queue empty (reset); no state is added to the
queue twice; every call of `fifoAdd` returns 0, is made on a queue that holds fewer than
`num_states` items, so that the queue never holds more than `num_states`, and writes at a
slot index `first + count` below `num_states`. -/
theorem tmTableBFS_queue (this : TuringMachineT) (hwf : WellFormedTable this)
    (fifo : Option FifoT) (hstatic : StaticOK fifo this) (test : Option (Entry → Int)) :
    ∃ r : FifoT × Int, tmTableBFS fifo this test = some r ∧
      (tmTableBFSLog fifo this test).1 = some r ∧
      (r.1.first = 0 ∧ r.1.count = 0) ∧
      ((tmTableBFSLog fifo this test).2.map AddCall.item).Nodup ∧
      ∀ e ∈ (tmTableBFSLog fifo this test).2,
        e.value = 0 ∧ (0 ≤ e.fifo.count ∧ e.fifo.count + 1 ≤ this.num_states) ∧
        (0 ≤ e.fifo.first + e.fifo.count ∧
          e.fifo.first + e.fifo.count < this.num_states) ∧
        (0 ≤ e.item - 1 ∧ e.item - 1 < this.num_states) := by
  obtain ⟨r, hr, hs, -⟩ := tmTableBFS_spec this hwf fifo hstatic test
  obtain ⟨hall, hnodup⟩ := tmTableBFSLog_ok this hwf fifo hstatic test
  obtain ⟨h1, h2, -⟩ := hs r.1 rfl
  refine ⟨r, hr, ?_, ⟨h1, h2⟩, hnodup, hall⟩
  rw [tmTableBFSLog_fst]
  exact hr

/-- Witness of C32: the two-state busy beaver table, searched for a `STOP`. -/
theorem tmTableBFS_queue_witness :
    WellFormedTable (busyBeaver2 1) ∧ StaticOK none (busyBeaver2 1) ∧
    ∃ r : FifoT × Int, tmTableBFS none (busyBeaver2 1) (some foundStop) = some r ∧
      (r.1.first = 0 ∧ r.1.count = 0) ∧
      ((tmTableBFSLog none (busyBeaver2 1) (some foundStop)).2.map AddCall.item).Nodup := by
  obtain ⟨r, h1, -, h3, h4, -⟩ := tmTableBFS_queue (busyBeaver2 1)
    busyBeaver2_wellFormedTable none (staticOK_none _) (some foundStop)
  exact ⟨busyBeaver2_wellFormedTable, staticOK_none _, r, h1, h3, h4⟩

end TuringMachine
